import Mathlib

/-!
# Tag match index and IP-set calculator

A shallow embedding of `datastructures/tags/tagindex.go` and
`felix/ipsets/ipset_calculator.go`.

* Go maps are association lists (`GoMap`); a `map[T]bool` that is only ever
  assigned `true` is a list used as a set (`GoSet`).
* Go's `range` over a map visits every key once, in an unspecified order.  Each
  operation therefore takes a `RangeOrder`, an arbitrary function that is
  turned into an iteration order by `rangeOrder`.
* Callbacks are invoked inline.  Every method acts on a pair of the receiver
  and the state `σ` the callbacks act on; a callback is a function `σ → σ`
  and so cannot call back into the object that invokes it.
-/

namespace Calico

/-! ## Go maps and sets -/

/-- A Go map: an association list, read through the first binding of a key. -/
abbrev GoMap (κ ν : Type) := List (κ × ν)

/-- A Go `map[T]bool` that is only assigned `true`, used as a set. -/
abbrev GoSet (α : Type) := List α

namespace GoMap

variable {κ ν : Type} [DecidableEq κ]

/-- The two-valued index expression `v, ok := m[k]`. -/
def get? : GoMap κ ν → κ → Option ν
  | [], _ => none
  | (k', v) :: rest, k => if k' = k then some v else get? rest k

/-- The assignment `m[k] = v`. -/
def put : GoMap κ ν → κ → ν → GoMap κ ν
  | [], k, v => [(k, v)]
  | (k', v') :: rest, k, v => if k' = k then (k, v) :: rest else (k', v') :: put rest k v

/-- The builtin `delete(m, k)`. -/
def delete (m : GoMap κ ν) (k : κ) : GoMap κ ν :=
  m.filter (fun kv => decide (kv.1 ≠ k))

/-- The comma-ok test `_, ok := m[k]`. -/
def contains (m : GoMap κ ν) (k : κ) : Bool := (get? m k).isSome

/-- The builtin `len(m)`. -/
def len (m : GoMap κ ν) : Nat := m.length

end GoMap

namespace GoSet

variable {α : Type} [DecidableEq α]

/-- The assignment `s[a] = true`. -/
def add (s : GoSet α) (a : α) : GoSet α := if a ∈ s then s else s ++ [a]

/-- The builtin `delete(s, a)`. -/
def remove (s : GoSet α) (a : α) : GoSet α := s.filter (fun x => decide (x ≠ a))

/-- The index expression `s[a]`, false for an absent key. -/
def has (s : GoSet α) (a : α) : Bool := decide (a ∈ s)

/-- The builtin `len(s)`. -/
def len (s : GoSet α) : Nat := s.length

end GoSet

/-- The order in which a `range` loop visits the keys `l` of a map: the keys
that `f` proposes, each once, followed by the keys it left out.  The result
lists every key of `l` exactly once, whatever `f` is. -/
def rangeOrder {α : Type} [DecidableEq α] (f : List α → List α) (l : List α) : List α :=
  ((f l).filter (fun x => decide (x ∈ l))).dedup ++
    (l.filter (fun x => decide (x ∉ f l))).dedup

/-- The iteration orders one call may use: `keys` for a range over a set of
endpoint keys, `strs e` for a range over a set of strings made while the call
works on endpoint `e`. -/
structure RangeOrder (K : Type) where
  keys : List K → List K
  strs : K → List String → List String

/-- The order that visits keys as they were inserted. -/
def RangeOrder.insertion (K : Type) : RangeOrder K := ⟨id, fun _ => id⟩

/-! ## The tag match index (`datastructures/tags/tagindex.go`) -/

/-- The key of the match index: a tag and an endpoint. -/
structure indexKey (K : Type) where
  tag : String
  key : K
  deriving DecidableEq

/-- The type of the two callbacks of the index, acting on the state `σ`. -/
abbrev MatchCallback (K σ : Type) := K → String → σ → σ

/-- The cache of the profile IDs of every endpoint. -/
structure EndpointKeyToProfileIDMap (K : Type) where
  endpointKeyToProfileIDs : GoMap K (List String)

/-- The index: the tags of each profile, the endpoints of each profile, the
profiles of each endpoint, the profiles behind each (tag, endpoint) match, and
the two callbacks.  The field `matches` of the source is `matchesMap` here,
`matches` being a keyword. -/
structure tagIndex (K σ : Type) where
  profileIDToTags : GoMap String (List String)
  profileIDToEndpointKey : GoMap String (GoSet K)
  endpointKeyToProfileIDs : EndpointKeyToProfileIDMap K
  matchesMap : GoMap (indexKey K) (GoSet String)
  onMatchStarted : MatchCallback K σ
  onMatchStopped : MatchCallback K σ

/-- The constructor `NewIndex`. -/
def NewIndex {K σ : Type} (onMatchStarted onMatchStopped : MatchCallback K σ) : tagIndex K σ :=
  { profileIDToTags := []
    profileIDToEndpointKey := []
    endpointKeyToProfileIDs := ⟨[]⟩
    matchesMap := []
    onMatchStarted := onMatchStarted
    onMatchStopped := onMatchStopped }

/-- The first loop of the diff, written out in both `UpdateProfileTags` and
`Update`: the removed set starts as a copy of the old list. -/
def copyOld (old : List String) : GoSet String :=
  old.foldl (fun removed x => GoSet.add removed x) []

/-- One iteration of the second loop of the diff, on the pair
(removed, added): a new element still in the removed set is deleted from it,
any other new element is put in the added set. -/
def diffStep (st : GoSet String × GoSet String) (x : String) : GoSet String × GoSet String :=
  if GoSet.has st.1 x then (GoSet.remove st.1 x, st.2) else (st.1, GoSet.add st.2 x)

section TagIndex

variable {K σ : Type} [DecidableEq K]

/-- The method `Update`: returns (removedIDs, addedIDs) and the cache with the
new list stored, or the key deleted when the list is empty. -/
def EndpointKeyToProfileIDMap.Update (idx : EndpointKeyToProfileIDMap K) (key : K)
    (profileIDs : List String) : (GoSet String × GoSet String) × EndpointKeyToProfileIDMap K :=
  let oldIDs := (GoMap.get? idx.endpointKeyToProfileIDs key).getD []
  let removedIDs := copyOld oldIDs
  let diff := profileIDs.foldl diffStep (removedIDs, [])
  if profileIDs.length > 0 then
    (diff, ⟨GoMap.put idx.endpointKeyToProfileIDs key profileIDs⟩)
  else
    (diff, ⟨GoMap.delete idx.endpointKeyToProfileIDs key⟩)

/-- The method `addToIndex`: a missing entry is created and `onMatchStarted`
fires; the profile is then inserted in the entry. -/
def tagIndex.addToIndex (epKey : K) (tag profID : String) (w : tagIndex K σ × σ) :
    tagIndex K σ × σ :=
  let idxKey : indexKey K := ⟨tag, epKey⟩
  match GoMap.get? w.1.matchesMap idxKey with
  | some matchingProfIDs =>
    ({ w.1 with matchesMap := GoMap.put w.1.matchesMap idxKey (GoSet.add matchingProfIDs profID) }, w.2)
  | none =>
    ({ w.1 with matchesMap := GoMap.put (GoMap.put w.1.matchesMap idxKey []) idxKey (GoSet.add [] profID) },
      w.1.onMatchStarted epKey tag w.2)

/-- The method `removeFromIndex`.  `matchingProfIDs` is the stored set, or the
nil map when the key is absent; `delete` on it changes the stored set when
there is one.  When the set is then empty, absent key included, the entry is
deleted and `onMatchStopped` fires. -/
def tagIndex.removeFromIndex (epKey : K) (tag profID : String) (w : tagIndex K σ × σ) :
    tagIndex K σ × σ :=
  let idxKey : indexKey K := ⟨tag, epKey⟩
  let matchingProfIDs := GoSet.remove ((GoMap.get? w.1.matchesMap idxKey).getD []) profID
  let stored :=
    if GoMap.contains w.1.matchesMap idxKey then GoMap.put w.1.matchesMap idxKey matchingProfIDs
    else w.1.matchesMap
  if GoSet.len matchingProfIDs = 0 then
    ({ w.1 with matchesMap := GoMap.delete stored idxKey }, w.1.onMatchStopped epKey tag w.2)
  else
    ({ w.1 with matchesMap := stored }, w.2)

/-- The method `UpdateProfileTags`. -/
def tagIndex.UpdateProfileTags (ord : RangeOrder K) (profileID : String) (tags : List String)
    (w : tagIndex K σ × σ) : tagIndex K σ × σ :=
  let oldTags := (GoMap.get? w.1.profileIDToTags profileID).getD []
  let removedTags := copyOld oldTags
  let diff := tags.foldl diffStep (removedTags, [])
  let removedTags := diff.1
  let addedTags := diff.2
  let endpoints := (GoMap.get? w.1.profileIDToEndpointKey profileID).getD []
  let w1 := (rangeOrder ord.keys endpoints).foldl (fun w epKey =>
    let w := (rangeOrder (ord.strs epKey) addedTags).foldl
      (fun w tag => tagIndex.addToIndex epKey tag profileID w) w
    (rangeOrder (ord.strs epKey) removedTags).foldl
      (fun w tag => tagIndex.removeFromIndex epKey tag profileID w) w) w
  if tags.length > 0 then
    ({ w1.1 with profileIDToTags := GoMap.put w1.1.profileIDToTags profileID tags }, w1.2)
  else
    ({ w1.1 with profileIDToTags := GoMap.delete w1.1.profileIDToTags profileID }, w1.2)

/-- The method `DeleteProfileTags`. -/
def tagIndex.DeleteProfileTags (ord : RangeOrder K) (profileID : String)
    (w : tagIndex K σ × σ) : tagIndex K σ × σ :=
  tagIndex.UpdateProfileTags ord profileID [] w

/-- The body of the loop of `UpdateEndpoint` over `addedIDs`: the endpoint is
put in the reverse index of the profile, then every tag of the profile's
stored list is added to the match index. -/
def tagIndex.addProfileID (key : K) (id : String) (w : tagIndex K σ × σ) : tagIndex K σ × σ :=
  let revIdx := (GoMap.get? w.1.profileIDToEndpointKey id).getD []
  let w1 : tagIndex K σ × σ :=
    ({ w.1 with profileIDToEndpointKey :=
        GoMap.put w.1.profileIDToEndpointKey id (GoSet.add revIdx key) }, w.2)
  ((GoMap.get? w1.1.profileIDToTags id).getD []).foldl
    (fun w tag => tagIndex.addToIndex key tag id w) w1

/-- The body of the loop of `UpdateEndpoint` over `removedIDs`: the endpoint is
deleted from the reverse index of the profile (the stored set when there is
one), an empty reverse index is dropped, then every tag of the profile's
stored list is removed from the match index. -/
def tagIndex.removeProfileID (key : K) (id : String) (w : tagIndex K σ × σ) : tagIndex K σ × σ :=
  let revIdx := GoSet.remove ((GoMap.get? w.1.profileIDToEndpointKey id).getD []) key
  let stored :=
    if GoMap.contains w.1.profileIDToEndpointKey id then
      GoMap.put w.1.profileIDToEndpointKey id revIdx
    else w.1.profileIDToEndpointKey
  let w1 : tagIndex K σ × σ :=
    ({ w.1 with profileIDToEndpointKey :=
        if GoSet.len revIdx = 0 then GoMap.delete stored id else stored }, w.2)
  ((GoMap.get? w1.1.profileIDToTags id).getD []).foldl
    (fun w tag => tagIndex.removeFromIndex key tag id w) w1

/-- The method `UpdateEndpoint`: the cache is updated, then the added profile
IDs are processed, then the removed ones. -/
def tagIndex.UpdateEndpoint (ord : RangeOrder K) (key : K) (profileIDs : List String)
    (w : tagIndex K σ × σ) : tagIndex K σ × σ :=
  let upd := EndpointKeyToProfileIDMap.Update w.1.endpointKeyToProfileIDs key profileIDs
  let removedIDs := upd.1.1
  let addedIDs := upd.1.2
  let w1 : tagIndex K σ × σ := ({ w.1 with endpointKeyToProfileIDs := upd.2 }, w.2)
  let w2 := (rangeOrder (ord.strs key) addedIDs).foldl
    (fun w id => tagIndex.addProfileID key id w) w1
  (rangeOrder (ord.strs key) removedIDs).foldl
    (fun w id => tagIndex.removeProfileID key id w) w2

/-- The method `DeleteEndpoint`. -/
def tagIndex.DeleteEndpoint (ord : RangeOrder K) (key : K) (w : tagIndex K σ × σ) :
    tagIndex K σ × σ :=
  tagIndex.UpdateEndpoint ord key [] w

end TagIndex

/-- A call of one of the four methods of the `Index` interface. -/
inductive IndexCall (K : Type) where
  | updateProfileTags (profileID : String) (tags : List String)
  | deleteProfileTags (profileID : String)
  | updateEndpoint (key : K) (profileIDs : List String)
  | deleteEndpoint (key : K)

/-- Makes one call, with the iteration order it uses. -/
def IndexCall.run {K σ : Type} [DecidableEq K] (ord : RangeOrder K) :
    IndexCall K → tagIndex K σ × σ → tagIndex K σ × σ
  | .updateProfileTags profileID tags => tagIndex.UpdateProfileTags ord profileID tags
  | .deleteProfileTags profileID => tagIndex.DeleteProfileTags ord profileID
  | .updateEndpoint key profileIDs => tagIndex.UpdateEndpoint ord key profileIDs
  | .deleteEndpoint key => tagIndex.DeleteEndpoint ord key

/-- Makes a sequence of calls, each with its own iteration order. -/
def runIndex {K σ : Type} [DecidableEq K] (calls : List (RangeOrder K × IndexCall K))
    (w : tagIndex K σ × σ) : tagIndex K σ × σ :=
  calls.foldl (fun w c => c.2.run c.1 w) w

/-- A callback of the index, as seen by an observer. -/
inductive MatchEvent (K : Type) where
  | started (key : K) (tag : String)
  | stopped (key : K) (tag : String)
  deriving DecidableEq

/-- An `onMatchStarted` that appends the call to a log. -/
def logStarted {K : Type} : MatchCallback K (List (MatchEvent K)) :=
  fun key tag log => log ++ [MatchEvent.started key tag]

/-- An `onMatchStopped` that appends the call to a log. -/
def logStopped {K : Type} : MatchCallback K (List (MatchEvent K)) :=
  fun key tag log => log ++ [MatchEvent.stopped key tag]

/-- A fresh index whose callbacks are logged, with an empty log. -/
def freshIndex (K : Type) : tagIndex K (List (MatchEvent K)) × List (MatchEvent K) :=
  (NewIndex logStarted logStopped, [])

/-- The stored tag list of a profile, empty when there is none. -/
def tagIndex.tagsOf {K σ : Type} (idx : tagIndex K σ) (profileID : String) : List String :=
  (GoMap.get? idx.profileIDToTags profileID).getD []

/-- The stored profile list of an endpoint, empty when there is none. -/
def tagIndex.profilesOf {K σ : Type} [DecidableEq K] (idx : tagIndex K σ) (key : K) :
    List String :=
  (GoMap.get? idx.endpointKeyToProfileIDs.endpointKeyToProfileIDs key).getD []

/-- The endpoints in the reverse index of a profile. -/
def tagIndex.endpointsOf {K σ : Type} (idx : tagIndex K σ) (profileID : String) : GoSet K :=
  (GoMap.get? idx.profileIDToEndpointKey profileID).getD []

/-- The states of a logged index that a sequence of calls reaches from a fresh
index. -/
def tagIndex.Reachable {K : Type} [DecidableEq K] (idx : tagIndex K (List (MatchEvent K))) :
    Prop :=
  ∃ calls, idx = (runIndex calls (freshIndex K)).1

/-- The callbacks that one call emits in state `idx`. -/
def IndexCall.events {K : Type} [DecidableEq K] (ord : RangeOrder K) (c : IndexCall K)
    (idx : tagIndex K (List (MatchEvent K))) : List (MatchEvent K) :=
  (c.run ord (idx, [])).2

/-! ## The IP-set calculator (`felix/ipsets/ipset_calculator.go`) -/

/-- Modelled from the spec: the package `multidict`, whose source is not part
of the repository files at hand.  A multimap from keys to sets of values, with
the operations the spec requires of it: add one association, remove one
association, test membership of a key, count the keys, enumerate the values of
a key.  A key is dropped when its last value is discarded. -/
abbrev Multidict (κ ν : Type) := GoMap κ (GoSet ν)

/-- Modelled from the spec: `multidict.IfaceToString`, from endpoint keys to
strings. -/
abbrev IfaceToString (K : Type) := Multidict K String

/-- Modelled from the spec: `multidict.IfaceToIface`, here from addresses to
endpoint keys. -/
abbrev IfaceToIface (A K : Type) := Multidict A K

namespace Multidict

variable {κ ν : Type} [DecidableEq κ] [DecidableEq ν]

/-- Modelled from the spec: `Put` of package `multidict` adds one association. -/
def Put (md : Multidict κ ν) (key : κ) (value : ν) : Multidict κ ν :=
  GoMap.put md key (GoSet.add ((GoMap.get? md key).getD []) value)

/-- Modelled from the spec: `Discard` of package `multidict` removes one
association and drops the key when no value is left; an absent key is left
alone. -/
def Discard (md : Multidict κ ν) (key : κ) (value : ν) : Multidict κ ν :=
  match GoMap.get? md key with
  | none => md
  | some set =>
    if GoSet.len (GoSet.remove set value) = 0 then GoMap.delete md key
    else GoMap.put md key (GoSet.remove set value)

/-- Modelled from the spec: `ContainsKey` of package `multidict` tests
membership of a key. -/
def ContainsKey (md : Multidict κ ν) (key : κ) : Bool := GoMap.contains md key

/-- Modelled from the spec: `Len` of package `multidict` counts the keys. -/
def Len (md : Multidict κ ν) : Nat := GoMap.len md

/-- Modelled from the spec: `Empty` of package `multidict` holds when there is
no key. -/
def Empty (md : Multidict κ ν) : Bool := decide (GoMap.len md = 0)

/-- Modelled from the spec: `Iter` of package `multidict` calls `f` on every
value of a key, once each, in the order `order` gives. -/
def Iter {ω : Type} (order : List ν → List ν) (md : Multidict κ ν) (key : κ)
    (f : ν → ω → ω) (w : ω) : ω :=
  (rangeOrder order ((GoMap.get? md key).getD [])).foldl (fun w value => f value w) w

end Multidict

/-- The calculator over endpoint keys `K` and addresses `A` (the type
`ip.Addr`, compared by value), with callbacks acting on `τ`. -/
structure IpsetCalculator (K A τ : Type) where
  keyToIPs : GoMap K (List A)
  keyToMatchingIPSetIDs : IfaceToString K
  ipSetIDToIPToKey : GoMap String (IfaceToIface A K)
  OnIPAdded : String → A → τ → τ
  OnIPRemoved : String → A → τ → τ

/-- The constructor `NewIpsetCalculator`, with the two callback fields that
its caller assigns before use. -/
def NewIpsetCalculator {K A τ : Type} (OnIPAdded OnIPRemoved : String → A → τ → τ) :
    IpsetCalculator K A τ :=
  { keyToIPs := []
    keyToMatchingIPSetIDs := []
    ipSetIDToIPToKey := []
    OnIPAdded := OnIPAdded
    OnIPRemoved := OnIPRemoved }

section Calculator

variable {K A τ : Type} [DecidableEq K] [DecidableEq A]

/-- The method `addMatchToIndex`.  A missing entry of the IP set is created
first.  `ipToKeys` is the stored multimap, which every `Put` changes in
place. -/
def IpsetCalculator.addMatchToIndex (ipSetID : String) (key : K) (ips : List A)
    (w : IpsetCalculator K A τ × τ) : IpsetCalculator K A τ × τ :=
  let w1 : IpsetCalculator K A τ × τ :=
    if GoMap.contains w.1.ipSetIDToIPToKey ipSetID then w
    else ({ w.1 with ipSetIDToIPToKey := GoMap.put w.1.ipSetIDToIPToKey ipSetID [] }, w.2)
  ips.foldl (fun w ip =>
    let ipToKeys := (GoMap.get? w.1.ipSetIDToIPToKey ipSetID).getD []
    let t := if Multidict.ContainsKey ipToKeys ip then w.2 else w.1.OnIPAdded ipSetID ip w.2
    ({ w.1 with ipSetIDToIPToKey :=
        GoMap.put w.1.ipSetIDToIPToKey ipSetID (Multidict.Put ipToKeys ip key) }, t)) w1

/-- The method `removeMatchFromIndex`.  `ipToKeys` is the stored multimap of
the IP set, or the nil multimap when the IP set has no entry; once the entry
has been deleted it is an empty multimap that is no longer stored.  In every
iteration it thus holds what the entry holds, or nothing when there is no
entry, and a `Discard` changes the stored multimap when there is one. -/
def IpsetCalculator.removeMatchFromIndex (ipSetID : String) (key : K) (ips : List A)
    (w : IpsetCalculator K A τ × τ) : IpsetCalculator K A τ × τ :=
  ips.foldl (fun w ip =>
    let ipToKeys := Multidict.Discard ((GoMap.get? w.1.ipSetIDToIPToKey ipSetID).getD []) ip key
    let stored :=
      if GoMap.contains w.1.ipSetIDToIPToKey ipSetID then
        GoMap.put w.1.ipSetIDToIPToKey ipSetID ipToKeys
      else w.1.ipSetIDToIPToKey
    if Multidict.ContainsKey ipToKeys ip then
      ({ w.1 with ipSetIDToIPToKey := stored }, w.2)
    else
      ({ w.1 with ipSetIDToIPToKey :=
          if Multidict.Len ipToKeys = 0 then GoMap.delete stored ipSetID else stored },
        w.1.OnIPRemoved ipSetID ip w.2)) w

/-- The method `MatchStarted`. -/
def IpsetCalculator.MatchStarted (key : K) (ipSetID : String)
    (w : IpsetCalculator K A τ × τ) : IpsetCalculator K A τ × τ :=
  let w1 : IpsetCalculator K A τ × τ :=
    ({ w.1 with keyToMatchingIPSetIDs := Multidict.Put w.1.keyToMatchingIPSetIDs key ipSetID },
      w.2)
  let ips := (GoMap.get? w1.1.keyToIPs key).getD []
  IpsetCalculator.addMatchToIndex ipSetID key ips w1

/-- The method `MatchStopped`. -/
def IpsetCalculator.MatchStopped (key : K) (ipSetID : String)
    (w : IpsetCalculator K A τ × τ) : IpsetCalculator K A τ × τ :=
  let w1 : IpsetCalculator K A τ × τ :=
    ({ w.1 with keyToMatchingIPSetIDs :=
        Multidict.Discard w.1.keyToMatchingIPSetIDs key ipSetID }, w.2)
  let ips := (GoMap.get? w1.1.keyToIPs key).getD []
  IpsetCalculator.removeMatchFromIndex ipSetID key ips w1

/-- The slice `addedIPs` of `UpdateEndpointIPs`: the new addresses that are
not in the set of old ones, in order, repeated ones repeated. -/
def addedIPsOf (oldIPs ips : List A) : List A :=
  let oldIPsSet : GoSet A := oldIPs.foldl (fun s ip => GoSet.add s ip) []
  (ips.foldl (fun (acc : List A × GoSet A) ip =>
    (if GoSet.has oldIPsSet ip then acc.1 else acc.1 ++ [ip], GoSet.add acc.2 ip)) ([], [])).1

/-- The slice `removedIPs` of `UpdateEndpointIPs`: the old addresses that are
not in the set `currentIPs` of new ones, in order, repeated ones repeated. -/
def removedIPsOf (oldIPs ips : List A) : List A :=
  let oldIPsSet : GoSet A := oldIPs.foldl (fun s ip => GoSet.add s ip) []
  let currentIPs : GoSet A := (ips.foldl (fun (acc : List A × GoSet A) ip =>
    (if GoSet.has oldIPsSet ip then acc.1 else acc.1 ++ [ip], GoSet.add acc.2 ip)) ([], [])).2
  oldIPs.foldl (fun removedIPs ip =>
    if GoSet.has currentIPs ip then removedIPs else removedIPs ++ [ip]) []

/-- The method `UpdateEndpointIPs`. -/
def IpsetCalculator.UpdateEndpointIPs (ord : RangeOrder K) (endpointKey : K) (ips : List A)
    (w : IpsetCalculator K A τ × τ) : IpsetCalculator K A τ × τ :=
  let oldIPs := (GoMap.get? w.1.keyToIPs endpointKey).getD []
  let w1 : IpsetCalculator K A τ × τ :=
    if ips.length = 0 then ({ w.1 with keyToIPs := GoMap.delete w.1.keyToIPs endpointKey }, w.2)
    else ({ w.1 with keyToIPs := GoMap.put w.1.keyToIPs endpointKey ips }, w.2)
  let addedIPs := addedIPsOf oldIPs ips
  let removedIPs := removedIPsOf oldIPs ips
  Multidict.Iter (ord.strs endpointKey) w1.1.keyToMatchingIPSetIDs endpointKey
    (fun ipSetID w =>
      IpsetCalculator.removeMatchFromIndex ipSetID endpointKey removedIPs
        (IpsetCalculator.addMatchToIndex ipSetID endpointKey addedIPs w)) w1

/-- The method `DeleteEndpoint`. -/
def IpsetCalculator.DeleteEndpoint (ord : RangeOrder K) (endpointKey : K)
    (w : IpsetCalculator K A τ × τ) : IpsetCalculator K A τ × τ :=
  IpsetCalculator.UpdateEndpointIPs ord endpointKey [] w

/-- The method `Empty`. -/
def IpsetCalculator.Empty (c : IpsetCalculator K A τ) : Bool :=
  if GoMap.len c.keyToIPs ≠ 0 then false
  else if !Multidict.Empty c.keyToMatchingIPSetIDs then false
  else if GoMap.len c.ipSetIDToIPToKey ≠ 0 then false
  else true

/-- The stored address list of an endpoint, empty when there is none. -/
def IpsetCalculator.ipsOf (c : IpsetCalculator K A τ) (key : K) : List A :=
  (GoMap.get? c.keyToIPs key).getD []

/-- The IP sets an endpoint is recorded as contributing to. -/
def IpsetCalculator.ipSetsOf (c : IpsetCalculator K A τ) (key : K) : GoSet String :=
  (GoMap.get? c.keyToMatchingIPSetIDs key).getD []

/-- The multimap of an IP set, empty when the IP set has no entry. -/
def IpsetCalculator.membersOf (c : IpsetCalculator K A τ) (ipSetID : String) :
    IfaceToIface A K :=
  (GoMap.get? c.ipSetIDToIPToKey ipSetID).getD []

/-- The endpoints recorded for an address of an IP set. -/
def IpsetCalculator.contributors (c : IpsetCalculator K A τ) (ipSetID : String) (ip : A) :
    GoSet K :=
  (GoMap.get? (c.membersOf ipSetID) ip).getD []

end Calculator

/-- A call of one of the four updating methods of the calculator. -/
inductive CalcCall (K A : Type) where
  | matchStarted (key : K) (ipSetID : String)
  | matchStopped (key : K) (ipSetID : String)
  | updateEndpointIPs (key : K) (ips : List A)
  | deleteEndpoint (key : K)

/-- Makes one call, with the iteration order it uses. -/
def CalcCall.run {K A τ : Type} [DecidableEq K] [DecidableEq A] (ord : RangeOrder K) :
    CalcCall K A → IpsetCalculator K A τ × τ → IpsetCalculator K A τ × τ
  | .matchStarted key ipSetID => IpsetCalculator.MatchStarted key ipSetID
  | .matchStopped key ipSetID => IpsetCalculator.MatchStopped key ipSetID
  | .updateEndpointIPs key ips => IpsetCalculator.UpdateEndpointIPs ord key ips
  | .deleteEndpoint key => IpsetCalculator.DeleteEndpoint ord key

/-- Makes a sequence of calls, each with its own iteration order. -/
def runCalc {K A τ : Type} [DecidableEq K] [DecidableEq A]
    (calls : List (RangeOrder K × CalcCall K A)) (w : IpsetCalculator K A τ × τ) :
    IpsetCalculator K A τ × τ :=
  calls.foldl (fun w c => c.2.run c.1 w) w

/-- A callback of the calculator, as seen by an observer. -/
inductive IPEvent (A : Type) where
  | added (ipSetID : String) (ip : A)
  | removed (ipSetID : String) (ip : A)
  deriving DecidableEq

/-- An `OnIPAdded` that appends the call to a log. -/
def logAdded {A : Type} : String → A → List (IPEvent A) → List (IPEvent A) :=
  fun ipSetID ip log => log ++ [IPEvent.added ipSetID ip]

/-- An `OnIPRemoved` that appends the call to a log. -/
def logRemoved {A : Type} : String → A → List (IPEvent A) → List (IPEvent A) :=
  fun ipSetID ip log => log ++ [IPEvent.removed ipSetID ip]

/-- A fresh calculator whose callbacks are logged, with an empty log. -/
def freshCalc (K A : Type) : IpsetCalculator K A (List (IPEvent A)) × List (IPEvent A) :=
  (NewIpsetCalculator logAdded logRemoved, [])

/-- The states of a logged calculator that a sequence of calls reaches from a
fresh calculator. -/
def IpsetCalculator.Reachable {K A : Type} [DecidableEq K] [DecidableEq A]
    (c : IpsetCalculator K A (List (IPEvent A))) : Prop :=
  ∃ calls, c = (runCalc calls (freshCalc K A)).1

/-- The callbacks that one call emits in state `c`. -/
def CalcCall.events {K A : Type} [DecidableEq K] [DecidableEq A] (ord : RangeOrder K)
    (call : CalcCall K A) (c : IpsetCalculator K A (List (IPEvent A))) : List (IPEvent A) :=
  (call.run ord (c, [])).2

/-! ## The wired pipeline -/

/-- The typical wiring: an index whose `onMatchStarted` and `onMatchStopped`
are the calculator's `MatchStarted` and `MatchStopped`, the tag being the IP
set ID.  The callbacks of the index then act on the calculator and on the
state of the calculator's own callbacks. -/
def wiredIndex (K A τ : Type) [DecidableEq K] [DecidableEq A] :
    tagIndex K (IpsetCalculator K A τ × τ) :=
  NewIndex IpsetCalculator.MatchStarted IpsetCalculator.MatchStopped

/-- A call on the wired pipeline: one of the four methods of the index, or
`UpdateEndpointIPs` or `DeleteEndpoint` of the calculator. -/
inductive PipelineCall (K A : Type) where
  | index (c : IndexCall K)
  | updateEndpointIPs (key : K) (ips : List A)
  | deleteEndpoint (key : K)

/-- Makes one call on the wired pipeline. -/
def PipelineCall.run {K A τ : Type} [DecidableEq K] [DecidableEq A] (ord : RangeOrder K) :
    PipelineCall K A → tagIndex K (IpsetCalculator K A τ × τ) × (IpsetCalculator K A τ × τ) →
      tagIndex K (IpsetCalculator K A τ × τ) × (IpsetCalculator K A τ × τ)
  | .index c => c.run ord
  | .updateEndpointIPs key ips => fun w => (w.1, IpsetCalculator.UpdateEndpointIPs ord key ips w.2)
  | .deleteEndpoint key => fun w => (w.1, IpsetCalculator.DeleteEndpoint ord key w.2)

/-- Makes a sequence of calls on the wired pipeline. -/
def runPipeline {K A τ : Type} [DecidableEq K] [DecidableEq A]
    (calls : List (RangeOrder K × PipelineCall K A))
    (w : tagIndex K (IpsetCalculator K A τ × τ) × (IpsetCalculator K A τ × τ)) :
    tagIndex K (IpsetCalculator K A τ × τ) × (IpsetCalculator K A τ × τ) :=
  calls.foldl (fun w c => c.2.run c.1 w) w

/-- A callback of the wired pipeline, as seen by an observer of both
components. -/
inductive PipelineEvent (K A : Type) where
  | matchStarted (key : K) (tag : String)
  | matchStopped (key : K) (tag : String)
  | ipAdded (ipSetID : String) (ip : A)
  | ipRemoved (ipSetID : String) (ip : A)
  deriving DecidableEq

/-- A fresh calculator whose `OnIPAdded` and `OnIPRemoved` append to the
combined log. -/
def tracedCalc (K A : Type) : IpsetCalculator K A (List (PipelineEvent K A)) :=
  NewIpsetCalculator (fun ipSetID ip log => log ++ [PipelineEvent.ipAdded ipSetID ip])
    (fun ipSetID ip log => log ++ [PipelineEvent.ipRemoved ipSetID ip])

/-- A fresh index wired to a calculator, each invocation of `onMatchStarted`
and `onMatchStopped` being appended to the combined log before the
calculator's method runs. -/
def tracedIndex (K A : Type) [DecidableEq K] [DecidableEq A] :
    tagIndex K (IpsetCalculator K A (List (PipelineEvent K A)) × List (PipelineEvent K A)) :=
  NewIndex
    (fun key tag w =>
      IpsetCalculator.MatchStarted key tag (w.1, w.2 ++ [PipelineEvent.matchStarted key tag]))
    (fun key tag w =>
      IpsetCalculator.MatchStopped key tag (w.1, w.2 ++ [PipelineEvent.matchStopped key tag]))

/-! ## Notions used in the proofs -/

/-- One elementary update of the match index: a call of `addToIndex` or of
`removeFromIndex`. -/
inductive IndexAct (K : Type) where
  | add (epKey : K) (tag profID : String)
  | remove (epKey : K) (tag profID : String)
  deriving DecidableEq

section ProofNotions

variable {K σ : Type} [DecidableEq K]

/-- The part of the state that `addToIndex` and `removeFromIndex` change: the
match index and the state of the callbacks. -/
def tagIndex.core (w : tagIndex K σ × σ) : GoMap (indexKey K) (GoSet String) × σ :=
  (w.1.matchesMap, w.2)

/-- Replaces the match index and the state of the callbacks. -/
def tagIndex.setCore (w : tagIndex K σ × σ) (c : GoMap (indexKey K) (GoSet String) × σ) :
    tagIndex K σ × σ :=
  ({ w.1 with matchesMap := c.1 }, c.2)

/-- Replaces the reverse index. -/
def tagIndex.setRev (w : tagIndex K σ × σ) (r : GoMap String (GoSet K)) : tagIndex K σ × σ :=
  ({ w.1 with profileIDToEndpointKey := r }, w.2)

/-- The effect of `addToIndex` and of `removeFromIndex` on the match index and
on the state of the callbacks. -/
def IndexAct.step (onMatchStarted onMatchStopped : MatchCallback K σ) :
    IndexAct K → GoMap (indexKey K) (GoSet String) × σ → GoMap (indexKey K) (GoSet String) × σ
  | .add epKey tag profID, c =>
    match GoMap.get? c.1 ⟨tag, epKey⟩ with
    | some matchingProfIDs =>
      (GoMap.put c.1 ⟨tag, epKey⟩ (GoSet.add matchingProfIDs profID), c.2)
    | none =>
      (GoMap.put (GoMap.put c.1 ⟨tag, epKey⟩ []) ⟨tag, epKey⟩ (GoSet.add [] profID),
        onMatchStarted epKey tag c.2)
  | .remove epKey tag profID, c =>
    if GoSet.len (GoSet.remove ((GoMap.get? c.1 ⟨tag, epKey⟩).getD []) profID) = 0 then
      (GoMap.delete
        (if GoMap.contains c.1 ⟨tag, epKey⟩ then
          GoMap.put c.1 ⟨tag, epKey⟩ (GoSet.remove ((GoMap.get? c.1 ⟨tag, epKey⟩).getD []) profID)
        else c.1) ⟨tag, epKey⟩,
        onMatchStopped epKey tag c.2)
    else
      (if GoMap.contains c.1 ⟨tag, epKey⟩ then
          GoMap.put c.1 ⟨tag, epKey⟩ (GoSet.remove ((GoMap.get? c.1 ⟨tag, epKey⟩).getD []) profID)
        else c.1, c.2)

/-- A sequence of elementary updates. -/
def runActs (onMatchStarted onMatchStopped : MatchCallback K σ) (acts : List (IndexAct K))
    (c : GoMap (indexKey K) (GoSet String) × σ) : GoMap (indexKey K) (GoSet String) × σ :=
  acts.foldl (fun c a => a.step onMatchStarted onMatchStopped c) c

/-- The profiles recorded for a (tag, endpoint) pair in a match index. -/
def matchSet (m : GoMap (indexKey K) (GoSet String)) (tag : String) (key : K) : GoSet String :=
  (GoMap.get? m ⟨tag, key⟩).getD []

/-- The elementary updates that `UpdateProfileTags` makes, in order. -/
def actsUpdateProfileTags (ord : RangeOrder K) (profileID : String) (tags : List String)
    (idx : tagIndex K σ) : List (IndexAct K) :=
  let diff := tags.foldl diffStep (copyOld (idx.tagsOf profileID), [])
  (rangeOrder ord.keys (idx.endpointsOf profileID)).flatMap (fun epKey =>
    (rangeOrder (ord.strs epKey) diff.2).map (fun tag => IndexAct.add epKey tag profileID) ++
    (rangeOrder (ord.strs epKey) diff.1).map (fun tag => IndexAct.remove epKey tag profileID))

/-- The elementary updates that `UpdateEndpoint` makes, in order. -/
def actsUpdateEndpoint (ord : RangeOrder K) (key : K) (profileIDs : List String)
    (idx : tagIndex K σ) : List (IndexAct K) :=
  let diff := profileIDs.foldl diffStep (copyOld (idx.profilesOf key), [])
  (rangeOrder (ord.strs key) diff.2).flatMap (fun id =>
    (idx.tagsOf id).map (fun tag => IndexAct.add key tag id)) ++
  (rangeOrder (ord.strs key) diff.1).flatMap (fun id =>
    (idx.tagsOf id).map (fun tag => IndexAct.remove key tag id))

/-- The state invariant of the index: no stored match set is empty, a match
set holds exactly the profiles of the endpoint that carry the tag, and the
reverse index is the inverse of the profile lists. -/
structure tagIndex.Inv (idx : tagIndex K σ) : Prop where
  nonempty : ∀ k s, GoMap.get? idx.matchesMap k = some s → s ≠ []
  matches_iff : ∀ t e p, p ∈ matchSet idx.matchesMap t e ↔
    p ∈ idx.profilesOf e ∧ t ∈ idx.tagsOf p
  reverse_iff : ∀ p e, e ∈ idx.endpointsOf p ↔ p ∈ idx.profilesOf e

/-- No stored match set is empty. -/
def MatchesNonempty (m : GoMap (indexKey K) (GoSet String)) : Prop :=
  ∀ k s, GoMap.get? m k = some s → s ≠ []

/-- An elementary update as the method that makes it. -/
def IndexAct.apply : IndexAct K → tagIndex K σ × σ → tagIndex K σ × σ
  | .add epKey tag profID => tagIndex.addToIndex epKey tag profID
  | .remove epKey tag profID => tagIndex.removeFromIndex epKey tag profID

/-- The reverse index after the endpoint is put in it for one added profile. -/
def revAdd (key : K) (r : GoMap String (GoSet K)) (id : String) : GoMap String (GoSet K) :=
  GoMap.put r id (GoSet.add ((GoMap.get? r id).getD []) key)

/-- The reverse index after the endpoint is deleted from it for one removed
profile. -/
def revRemove (key : K) (r : GoMap String (GoSet K)) (id : String) : GoMap String (GoSet K) :=
  if GoSet.len (GoSet.remove ((GoMap.get? r id).getD []) key) = 0 then
    GoMap.delete
      (if GoMap.contains r id then
        GoMap.put r id (GoSet.remove ((GoMap.get? r id).getD []) key)
      else r) id
  else
    (if GoMap.contains r id then
        GoMap.put r id (GoSet.remove ((GoMap.get? r id).getD []) key)
      else r)

/-- The reverse index after `UpdateEndpoint`. -/
def revAfterUpdate (ord : RangeOrder K) (key : K) (profileIDs : List String)
    (idx : tagIndex K σ) : GoMap String (GoSet K) :=
  let diff := profileIDs.foldl diffStep (copyOld (idx.profilesOf key), [])
  (rangeOrder (ord.strs key) diff.1).foldl (revRemove key)
    ((rangeOrder (ord.strs key) diff.2).foldl (revAdd key) idx.profileIDToEndpointKey)

/-- No stored set of the reverse index is empty. -/
def RevNonempty (r : GoMap String (GoSet K)) : Prop :=
  ∀ p s, GoMap.get? r p = some s → s ≠ []

/-- The callbacks that a sequence of elementary updates emits on a logged
index whose match index is `m`. -/
def actEvents (acts : List (IndexAct K)) (m : GoMap (indexKey K) (GoSet String)) :
    List (MatchEvent K) :=
  (runActs logStarted logStopped acts (m, [])).2

/-- The match index after a sequence of elementary updates. -/
def actMatches (acts : List (IndexAct K)) (m : GoMap (indexKey K) (GoSet String)) :
    GoMap (indexKey K) (GoSet String) :=
  (runActs logStarted logStopped acts (m, ([] : List (MatchEvent K)))).1

/-- After `a` removes a profile from a (tag, endpoint) pair, `b` neither adds
a profile to that pair nor removes the same profile from it again. -/
def QuietAfterRemove (a b : IndexAct K) : Prop :=
  ∀ e t p, a = IndexAct.remove e t p →
    (∀ p', b ≠ IndexAct.add e t p') ∧ b ≠ IndexAct.remove e t p

/-- An endpoint matches a tag: a profile in its stored profile list has the
tag in its stored tag list. -/
def tagIndex.matched (idx : tagIndex K σ) (key : K) (tag : String) : Prop :=
  ∃ p, p ∈ idx.profilesOf key ∧ tag ∈ idx.tagsOf p

/-- Every stored tag list is free of repeats. -/
def TagsNodup (idx : tagIndex K σ) : Prop := ∀ p, (idx.tagsOf p).Nodup

/-- The elementary updates that a call makes, in order. -/
def IndexCall.acts (ord : RangeOrder K) : IndexCall K → tagIndex K σ → List (IndexAct K)
  | .updateProfileTags profileID tags, idx => actsUpdateProfileTags ord profileID tags idx
  | .deleteProfileTags profileID, idx => actsUpdateProfileTags ord profileID [] idx
  | .updateEndpoint key profileIDs, idx => actsUpdateEndpoint ord key profileIDs idx
  | .deleteEndpoint key, idx => actsUpdateEndpoint ord key [] idx

end ProofNotions

/-- One elementary update of the calculator's index: the creation of a missing
entry of an IP set at the start of `addMatchToIndex`, one iteration of the loop
of `addMatchToIndex`, or one iteration of the loop of `removeMatchFromIndex`. -/
inductive CalcAct (K A : Type) where
  | ensure (ipSetID : String)
  | add (ipSetID : String) (key : K) (ip : A)
  | remove (ipSetID : String) (key : K) (ip : A)
  deriving DecidableEq

section CalcProofNotions

variable {K A τ : Type} [DecidableEq K] [DecidableEq A]

/-- The part of the state that `addMatchToIndex` and `removeMatchFromIndex`
change: the index of the IP sets and the state of the callbacks. -/
def IpsetCalculator.core (w : IpsetCalculator K A τ × τ) :
    GoMap String (IfaceToIface A K) × τ :=
  (w.1.ipSetIDToIPToKey, w.2)

/-- Replaces the index of the IP sets and the state of the callbacks. -/
def IpsetCalculator.setCore (w : IpsetCalculator K A τ × τ)
    (c : GoMap String (IfaceToIface A K) × τ) : IpsetCalculator K A τ × τ :=
  ({ w.1 with ipSetIDToIPToKey := c.1 }, c.2)

/-- The effect of an elementary update on the index of the IP sets and on the
state of the callbacks. -/
def CalcAct.step (OnIPAdded OnIPRemoved : String → A → τ → τ) :
    CalcAct K A → GoMap String (IfaceToIface A K) × τ → GoMap String (IfaceToIface A K) × τ
  | .ensure ipSetID, c =>
    (if GoMap.contains c.1 ipSetID then c.1 else GoMap.put c.1 ipSetID [], c.2)
  | .add ipSetID key ip, c =>
    (GoMap.put c.1 ipSetID (Multidict.Put ((GoMap.get? c.1 ipSetID).getD []) ip key),
      if Multidict.ContainsKey ((GoMap.get? c.1 ipSetID).getD []) ip then c.2
      else OnIPAdded ipSetID ip c.2)
  | .remove ipSetID key ip, c =>
    if Multidict.ContainsKey
        (Multidict.Discard ((GoMap.get? c.1 ipSetID).getD []) ip key) ip then
      (if GoMap.contains c.1 ipSetID then
          GoMap.put c.1 ipSetID (Multidict.Discard ((GoMap.get? c.1 ipSetID).getD []) ip key)
        else c.1, c.2)
    else
      (if Multidict.Len (Multidict.Discard ((GoMap.get? c.1 ipSetID).getD []) ip key) = 0 then
          GoMap.delete
            (if GoMap.contains c.1 ipSetID then
              GoMap.put c.1 ipSetID
                (Multidict.Discard ((GoMap.get? c.1 ipSetID).getD []) ip key)
            else c.1) ipSetID
        else
          (if GoMap.contains c.1 ipSetID then
              GoMap.put c.1 ipSetID
                (Multidict.Discard ((GoMap.get? c.1 ipSetID).getD []) ip key)
            else c.1),
        OnIPRemoved ipSetID ip c.2)

/-- A sequence of elementary updates of the calculator's index. -/
def runCalcActs (OnIPAdded OnIPRemoved : String → A → τ → τ) (acts : List (CalcAct K A))
    (c : GoMap String (IfaceToIface A K) × τ) : GoMap String (IfaceToIface A K) × τ :=
  acts.foldl (fun c a => a.step OnIPAdded OnIPRemoved c) c

/-- The multimap of an IP set in an index, empty when the IP set has no entry. -/
def membersIn (m : GoMap String (IfaceToIface A K)) (ipSetID : String) : IfaceToIface A K :=
  (GoMap.get? m ipSetID).getD []

/-- The endpoints recorded for an address of an IP set in an index. -/
def contrib (m : GoMap String (IfaceToIface A K)) (ipSetID : String) (ip : A) : GoSet K :=
  (GoMap.get? (membersIn m ipSetID) ip).getD []

/-- No key of a multimap has an empty set of values. -/
def Multidict.WF {κ ν : Type} [DecidableEq κ] (md : Multidict κ ν) : Prop :=
  ∀ k s, GoMap.get? md k = some s → s ≠ []

/-- Every multimap of the index of the IP sets is well formed. -/
def MembersWF (m : GoMap String (IfaceToIface A K)) : Prop :=
  ∀ s, Multidict.WF (membersIn m s)

/-- The elementary updates that `UpdateEndpointIPs` makes, in order. -/
def actsUpdateEndpointIPs (ord : RangeOrder K) (endpointKey : K) (ips : List A)
    (c : IpsetCalculator K A τ) : List (CalcAct K A) :=
  (rangeOrder (ord.strs endpointKey) (c.ipSetsOf endpointKey)).flatMap (fun ipSetID =>
    (CalcAct.ensure ipSetID ::
      (addedIPsOf (c.ipsOf endpointKey) ips).map (fun ip => CalcAct.add ipSetID endpointKey ip)) ++
    (removedIPsOf (c.ipsOf endpointKey) ips).map
      (fun ip => CalcAct.remove ipSetID endpointKey ip))

/-- The state invariant of the calculator: the multimaps of the IP sets are
well formed, and an endpoint is recorded for an address of an IP set exactly
when it contributes to the IP set and holds the address. -/
structure IpsetCalculator.Inv (c : IpsetCalculator K A τ) : Prop where
  wf : MembersWF c.ipSetIDToIPToKey
  members_iff : ∀ s ip e, e ∈ c.contributors s ip ↔ s ∈ c.ipSetsOf e ∧ ip ∈ c.ipsOf e

/-- After `a` removes an endpoint from an address of an IP set, `b` does not
add an endpoint to that address of that IP set. -/
def NoAddAfterRemove (a b : CalcAct K A) : Prop :=
  ∀ s e ip e', a = CalcAct.remove s e ip → b ≠ CalcAct.add s e' ip

/-- The match index and the calculator agree: a (tag, endpoint) pair has an
entry in the match index exactly when the endpoint is recorded as contributing
to the IP set named by the tag. -/
def Linked (m : GoMap (indexKey K) (GoSet String)) (c : IpsetCalculator K A τ) : Prop :=
  ∀ t e, GoMap.contains m ⟨t, e⟩ = true ↔ t ∈ c.ipSetsOf e

/-- The invariant of the wired pipeline: the invariants of the index and of
the calculator hold, the callbacks of the index are the calculator's methods,
and the two agree on which pairs match. -/
structure PipelineInv
    (w : tagIndex K (IpsetCalculator K A τ × τ) × (IpsetCalculator K A τ × τ)) : Prop where
  index : w.1.Inv
  started : w.1.onMatchStarted = IpsetCalculator.MatchStarted
  stopped : w.1.onMatchStopped = IpsetCalculator.MatchStopped
  linked : Linked w.1.matchesMap w.2.1
  calculator : w.2.1.Inv

/-- The callbacks that a sequence of elementary updates emits on a logged
calculator whose index of the IP sets is `m`. -/
def ipEvents (acts : List (CalcAct K A)) (m : GoMap String (IfaceToIface A K)) :
    List (IPEvent A) :=
  (runCalcActs logAdded logRemoved acts (m, [])).2

/-- The index of the IP sets after a sequence of elementary updates. -/
def ipMembers (acts : List (CalcAct K A)) (m : GoMap String (IfaceToIface A K)) :
    GoMap String (IfaceToIface A K) :=
  (runCalcActs logAdded logRemoved acts (m, ([] : List (IPEvent A)))).1

/-- After `a` removes an endpoint from an address of an IP set, `b` neither
adds an endpoint to that address of that IP set nor removes the same endpoint
from it again. -/
def CalcQuietAfterRemove (a b : CalcAct K A) : Prop :=
  ∀ s e ip, a = CalcAct.remove s e ip →
    (∀ e', b ≠ CalcAct.add s e' ip) ∧ b ≠ CalcAct.remove s e ip

/-- An address of an IP set has a contributor: some endpoint is recorded for
it. -/
def IpsetCalculator.hasContributor (c : IpsetCalculator K A τ) (ipSetID : String) (ip : A) :
    Prop :=
  ∃ e, e ∈ c.contributors ipSetID ip

/-- Every stored address list is free of repeats. -/
def IPsNodup (c : IpsetCalculator K A τ) : Prop := ∀ e, (c.ipsOf e).Nodup

/-- The elementary updates that a call makes, in order. -/
def CalcCall.acts (ord : RangeOrder K) : CalcCall K A → IpsetCalculator K A τ →
    List (CalcAct K A)
  | .matchStarted key ipSetID, c =>
    CalcAct.ensure ipSetID :: (c.ipsOf key).map (fun ip => CalcAct.add ipSetID key ip)
  | .matchStopped key ipSetID, c =>
    (c.ipsOf key).map (fun ip => CalcAct.remove ipSetID key ip)
  | .updateEndpointIPs key ips, c => actsUpdateEndpointIPs ord key ips c
  | .deleteEndpoint key, c => actsUpdateEndpointIPs ord key [] c

end CalcProofNotions

/-- How a list is stored in a map: an empty list has no key. -/
def storedAs {α : Type} [DecidableEq α] (l : List α) : Option (List α) :=
  if l = [] then none else some l

/-- The tag list that the most recent `UpdateProfileTags` or
`DeleteProfileTags` call for a profile supplied, `acc` when there is no such
call; `DeleteProfileTags` supplies the empty list. -/
def lastTags {K : Type} (calls : List (RangeOrder K × IndexCall K)) (profileID : String)
    (acc : List String) : List String :=
  calls.foldl (fun acc c =>
    match c.2 with
    | .updateProfileTags q tags => if q = profileID then tags else acc
    | .deleteProfileTags q => if q = profileID then [] else acc
    | .updateEndpoint _ _ => acc
    | .deleteEndpoint _ => acc) acc

/-- The profile list that the most recent `UpdateEndpoint` or `DeleteEndpoint`
call for an endpoint supplied, `acc` when there is no such call. -/
def lastProfiles {K : Type} [DecidableEq K] (calls : List (RangeOrder K × IndexCall K))
    (key : K) (acc : List String) : List String :=
  calls.foldl (fun acc c =>
    match c.2 with
    | .updateProfileTags _ _ => acc
    | .deleteProfileTags _ => acc
    | .updateEndpoint k profileIDs => if k = key then profileIDs else acc
    | .deleteEndpoint k => if k = key then [] else acc) acc

/-- The address list that the most recent `UpdateEndpointIPs` or
`DeleteEndpoint` call for an endpoint supplied, `acc` when there is no such
call. -/
def lastIPs {K A : Type} [DecidableEq K] (calls : List (RangeOrder K × CalcCall K A))
    (key : K) (acc : List A) : List A :=
  calls.foldl (fun acc c =>
    match c.2 with
    | .matchStarted _ _ => acc
    | .matchStopped _ _ => acc
    | .updateEndpointIPs k ips => if k = key then ips else acc
    | .deleteEndpoint k => if k = key then [] else acc) acc

/-- A call whose tag list, when it is `UpdateProfileTags`, has no repeated
tag. -/
def IndexCall.tagsDistinct {K : Type} : IndexCall K → Bool
  | .updateProfileTags _ tags => decide tags.Nodup
  | .deleteProfileTags _ => true
  | .updateEndpoint _ _ => true
  | .deleteEndpoint _ => true

/-- The calls of the churn scenario: profile "A" carries the tags "web" and
"db", profile "B" carries "web", and endpoint 0 is bound to "A", listed
twice. -/
def churnCalls : List (RangeOrder Nat × IndexCall Nat) :=
  [(RangeOrder.insertion Nat, IndexCall.updateProfileTags "A" ["web", "db"]),
   (RangeOrder.insertion Nat, IndexCall.updateProfileTags "B" ["web"]),
   (RangeOrder.insertion Nat, IndexCall.updateEndpoint 0 ["A", "A"])]

/-- The state of the rename scenario: profiles "A" and "B" both carry the tag
"web" and endpoint 0 is bound to profile "A" only. -/
def renameState : tagIndex Nat (List (MatchEvent Nat)) :=
  (runIndex
    [(RangeOrder.insertion Nat, IndexCall.updateProfileTags "A" ["web"]),
     (RangeOrder.insertion Nat, IndexCall.updateProfileTags "B" ["web"]),
     (RangeOrder.insertion Nat, IndexCall.updateEndpoint 0 ["A"])] (freshIndex Nat)).1

/-- An IPv4 address as its four bytes. -/
abbrev IPv4 := Nat × Nat × Nat × Nat

/-- The state of the shared-address scenario: endpoints 1 and 2 both match the
IP set "blue" and both hold the address 10.0.0.5. -/
def sharedState : IpsetCalculator Nat IPv4 (List (IPEvent IPv4)) :=
  (runCalc
    [(RangeOrder.insertion Nat, CalcCall.matchStarted 1 "blue"),
     (RangeOrder.insertion Nat, CalcCall.matchStarted 2 "blue"),
     (RangeOrder.insertion Nat, CalcCall.updateEndpointIPs 1 [(10, 0, 0, 5)]),
     (RangeOrder.insertion Nat, CalcCall.updateEndpointIPs 2 [(10, 0, 0, 5)])]
    (freshCalc Nat IPv4)).1

/-- A call that is well formed in state `c`: the address list of
`UpdateEndpointIPs` has no repeated address, and `MatchStopped(e, s)` is made
while e is recorded as contributing to s. -/
def CalcCall.wellFormed {K A τ : Type} [DecidableEq K] [DecidableEq A]
    (c : IpsetCalculator K A τ) : CalcCall K A → Bool
  | .matchStarted _ _ => true
  | .matchStopped key ipSetID => decide (ipSetID ∈ c.ipSetsOf key)
  | .updateEndpointIPs _ ips => decide ips.Nodup
  | .deleteEndpoint _ => true

/-- A sequence of calls each of which is well formed in the state it is made
in. -/
def calcWellFormed {K A τ : Type} [DecidableEq K] [DecidableEq A] :
    List (RangeOrder K × CalcCall K A) → IpsetCalculator K A τ × τ → Bool
  | [], _ => true
  | c :: tl, w => c.2.wellFormed w.1 && calcWellFormed tl (c.2.run c.1 w)

/-- The calls of the migration scenario: endpoints 1 and 2 match "blue";
endpoint 1 holds 10.0.0.5 and 10.0.0.6, endpoint 2 holds 10.0.0.5. -/
def migrationCalls : List (RangeOrder Nat × CalcCall Nat IPv4) :=
  [(RangeOrder.insertion Nat, CalcCall.matchStarted 1 "blue"),
   (RangeOrder.insertion Nat, CalcCall.matchStarted 2 "blue"),
   (RangeOrder.insertion Nat, CalcCall.updateEndpointIPs 1 [(10, 0, 0, 5), (10, 0, 0, 6)]),
   (RangeOrder.insertion Nat, CalcCall.updateEndpointIPs 2 [(10, 0, 0, 5)])]

/-! ### Lemmas on maps, sets and iteration order -/

section MapLemmas

variable {κ ν : Type} [DecidableEq κ]

@[simp]
theorem GoMap.get?_nil (k : κ) : GoMap.get? ([] : GoMap κ ν) k = none := rfl

theorem GoMap.get?_put (m : GoMap κ ν) (k k' : κ) (v : ν) :
    GoMap.get? (GoMap.put m k v) k' = if k = k' then some v else GoMap.get? m k' := by
  induction m with
  | nil =>
    simp only [GoMap.put, GoMap.get?]
  | cons hd tl ih =>
    obtain ⟨a, b⟩ := hd
    simp only [GoMap.put]
    by_cases h : a = k
    · subst h
      simp only [if_true, GoMap.get?]
      by_cases h2 : a = k' <;> simp [h2]
    · simp only [h, if_false, GoMap.get?, ih]
      by_cases h2 : a = k'
      · subst h2
        have : ¬ k = a := fun e => h e.symm
        simp [this]
      · simp [h2]

@[simp]
theorem GoMap.get?_put_self (m : GoMap κ ν) (k : κ) (v : ν) :
    GoMap.get? (GoMap.put m k v) k = some v := by
  simp [GoMap.get?_put]

theorem GoMap.get?_put_of_ne (m : GoMap κ ν) {k k' : κ} (v : ν) (h : k ≠ k') :
    GoMap.get? (GoMap.put m k v) k' = GoMap.get? m k' := by
  simp [GoMap.get?_put, h]

theorem GoMap.get?_delete (m : GoMap κ ν) (k k' : κ) :
    GoMap.get? (GoMap.delete m k) k' = if k = k' then none else GoMap.get? m k' := by
  induction m with
  | nil => simp [GoMap.delete]
  | cons hd tl ih =>
    obtain ⟨a, b⟩ := hd
    unfold GoMap.delete at ih ⊢
    by_cases h : a = k
    · subst h
      simp only [List.filter, ne_eq, not_true_eq_false, decide_False, ih, GoMap.get?]
      by_cases h2 : a = k' <;> simp [h2]
    · have hf : List.filter (fun kv : κ × ν => decide (kv.1 ≠ k)) ((a, b) :: tl)
          = (a, b) :: List.filter (fun kv : κ × ν => decide (kv.1 ≠ k)) tl := by
        simp [List.filter_cons, h]
      rw [hf]
      simp only [GoMap.get?, ih]
      by_cases h2 : a = k'
      · subst h2
        have : ¬ k = a := fun e => h e.symm
        simp [this]
      · simp [h2]

@[simp]
theorem GoMap.get?_delete_self (m : GoMap κ ν) (k : κ) :
    GoMap.get? (GoMap.delete m k) k = none := by
  simp [GoMap.get?_delete]

theorem GoMap.get?_delete_of_ne (m : GoMap κ ν) {k k' : κ} (h : k ≠ k') :
    GoMap.get? (GoMap.delete m k) k' = GoMap.get? m k' := by
  simp [GoMap.get?_delete, h]

theorem GoMap.put_eq_self (m : GoMap κ ν) (k : κ) (v : ν) (h : GoMap.get? m k = some v) :
    GoMap.put m k v = m := by
  induction m with
  | nil => simp at h
  | cons hd tl ih =>
    obtain ⟨a, b⟩ := hd
    simp only [GoMap.get?] at h
    simp only [GoMap.put]
    by_cases h2 : a = k
    · subst h2
      simp only [if_true, Option.some.injEq] at h
      simp [h]
    · simp only [h2, if_false] at h
      simp [h2, ih h]

theorem GoMap.delete_eq_self (m : GoMap κ ν) (k : κ) (h : GoMap.get? m k = none) :
    GoMap.delete m k = m := by
  induction m with
  | nil => rfl
  | cons hd tl ih =>
    obtain ⟨a, b⟩ := hd
    simp only [GoMap.get?] at h
    by_cases h2 : a = k
    · simp [h2] at h
    · simp only [h2, if_false] at h
      unfold GoMap.delete at ih ⊢
      have hf : List.filter (fun kv : κ × ν => decide (kv.1 ≠ k)) ((a, b) :: tl)
          = (a, b) :: List.filter (fun kv : κ × ν => decide (kv.1 ≠ k)) tl := by
        simp [List.filter_cons, h2]
      rw [hf, ih h]

theorem GoMap.contains_iff (m : GoMap κ ν) (k : κ) :
    GoMap.contains m k = true ↔ ∃ v, GoMap.get? m k = some v := by
  simp [GoMap.contains, Option.isSome_iff_exists]

end MapLemmas

section SetLemmas

variable {α : Type} [DecidableEq α]

@[simp]
theorem GoSet.mem_add (s : GoSet α) (a x : α) :
    x ∈ GoSet.add s a ↔ x ∈ s ∨ x = a := by
  unfold GoSet.add
  by_cases h : a ∈ s
  · simp only [h, if_true]
    constructor
    · exact Or.inl
    · rintro (h1 | h1)
      · exact h1
      · exact h1 ▸ h
  · simp [h]

@[simp]
theorem GoSet.mem_remove (s : GoSet α) (a x : α) :
    x ∈ GoSet.remove s a ↔ x ∈ s ∧ x ≠ a := by
  simp [GoSet.remove]

theorem GoSet.add_eq_self (s : GoSet α) (a : α) (h : a ∈ s) : GoSet.add s a = s := by
  simp [GoSet.add, h]

theorem GoSet.add_ne_nil (s : GoSet α) (a : α) : GoSet.add s a ≠ [] := by
  intro h
  have : a ∈ GoSet.add s a := by simp
  rw [h] at this
  simp at this

@[simp]
theorem GoSet.has_iff (s : GoSet α) (a : α) : GoSet.has s a = true ↔ a ∈ s := by
  simp [GoSet.has]

omit [DecidableEq α] in
theorem GoSet.len_eq_zero (s : GoSet α) : GoSet.len s = 0 ↔ s = [] := by
  simp [GoSet.len]

@[simp]
theorem mem_rangeOrder (f : List α → List α) (l : List α) (x : α) :
    x ∈ rangeOrder f l ↔ x ∈ l := by
  unfold rangeOrder
  simp only [List.mem_append, List.mem_dedup, List.mem_filter, decide_eq_true_eq]
  constructor
  · rintro (⟨_, h⟩ | ⟨h, _⟩) <;> exact h
  · intro h
    by_cases h2 : x ∈ f l
    · exact Or.inl ⟨h2, h⟩
    · exact Or.inr ⟨h, h2⟩

theorem nodup_rangeOrder (f : List α → List α) (l : List α) : (rangeOrder f l).Nodup := by
  unfold rangeOrder
  rw [List.nodup_append]
  refine ⟨List.nodup_dedup _, List.nodup_dedup _, ?_⟩
  intro x h1 h2
  simp only [List.mem_dedup, List.mem_filter, decide_eq_true_eq] at h1 h2
  exact h2.2 h1.1

/-- On a duplicate-free key list the iteration order is a permutation of it. -/
theorem rangeOrder_perm (f : List α → List α) (l : List α) (h : l.Nodup) :
    (rangeOrder f l).Perm l :=
  (List.perm_ext_iff_of_nodup (nodup_rangeOrder f l) h).2 (fun x => mem_rangeOrder f l x)

/-- Every permutation of a duplicate-free key list is an iteration order. -/
theorem rangeOrder_const (l l' : List α) (h : l'.Perm l) (hl : l.Nodup) :
    rangeOrder (fun _ => l') l = l' := by
  unfold rangeOrder
  have h1 : (l'.filter (fun x => decide (x ∈ l))) = l' := by
    rw [List.filter_eq_self]
    intro x hx
    simpa using h.subset hx
  have h2 : (l.filter (fun x => decide (x ∉ l'))) = [] := by
    rw [List.filter_eq_nil_iff]
    intro x hx
    simpa using h.symm.subset hx
  rw [h1, h2]
  simp [List.Nodup.dedup (h.nodup_iff.2 hl)]

@[simp]
theorem rangeOrder_nil (f : List α → List α) : rangeOrder f ([] : List α) = [] := by
  apply List.eq_nil_iff_forall_not_mem.2
  intro x hx
  simp at hx

end SetLemmas

/-! ## The diff of an old and a new list -/

theorem mem_copyOld (old : List String) (x : String) : x ∈ copyOld old ↔ x ∈ old := by
  unfold copyOld
  suffices h : ∀ (acc : GoSet String),
      x ∈ old.foldl (fun removed x => GoSet.add removed x) acc ↔ x ∈ acc ∨ x ∈ old by
    simpa using h []
  induction old with
  | nil => intro acc; simp
  | cons a tl ih =>
    intro acc
    simp only [List.foldl_cons, ih, GoSet.mem_add, List.mem_cons]
    constructor
    · rintro ((h | h) | h)
      · exact Or.inl h
      · exact Or.inr (Or.inl h)
      · exact Or.inr (Or.inr h)
    · rintro (h | h | h)
      · exact Or.inl (Or.inl h)
      · exact Or.inl (Or.inr h)
      · exact Or.inr h

/-- The removed set is the old elements that are not new ones. -/
theorem mem_diff_removed (new : List String) (st : GoSet String × GoSet String) (x : String) :
    x ∈ (new.foldl diffStep st).1 ↔ x ∈ st.1 ∧ x ∉ new := by
  induction new generalizing st with
  | nil => simp
  | cons a tl ih =>
    simp only [List.foldl_cons, ih, List.mem_cons, not_or]
    unfold diffStep
    by_cases h : GoSet.has st.1 a = true
    · simp only [h, if_true, GoSet.mem_remove]
      tauto
    · simp only [h]
      have h' : a ∉ st.1 := by simpa using h
      constructor
      · rintro ⟨h1, h2⟩
        refine ⟨h1, ?_, h2⟩
        rintro rfl
        exact h' h1
      · rintro ⟨h1, _, h2⟩
        exact ⟨h1, h2⟩

/-- Every element of the added set is a new element. -/
theorem mem_diff_added_sub (new : List String) (st : GoSet String × GoSet String) (x : String)
    (h : x ∈ (new.foldl diffStep st).2) : x ∈ st.2 ∨ x ∈ new := by
  induction new generalizing st with
  | nil => exact Or.inl (by simpa using h)
  | cons a tl ih =>
    simp only [List.foldl_cons] at h
    rcases ih _ h with h1 | h1
    · unfold diffStep at h1
      by_cases h2 : GoSet.has st.1 a = true
      · simp only [h2, if_true] at h1
        exact Or.inl h1
      · simp only [h2] at h1
        rcases (GoSet.mem_add _ _ _).1 h1 with h3 | h3
        · exact Or.inl h3
        · exact Or.inr (by simp [h3])
    · exact Or.inr (List.mem_cons_of_mem _ h1)

theorem mem_diff_added_mono (new : List String) (st : GoSet String × GoSet String) (x : String)
    (h : x ∈ st.2) : x ∈ (new.foldl diffStep st).2 := by
  induction new generalizing st with
  | nil => simpa using h
  | cons a tl ih =>
    simp only [List.foldl_cons]
    apply ih
    unfold diffStep
    by_cases h2 : GoSet.has st.1 a = true
    · simpa [h2] using h
    · simp only [h2]
      exact (GoSet.mem_add _ _ _).2 (Or.inl h)

/-- A new element that is not an old one is in the added set. -/
theorem mem_diff_added_of_new (new : List String) (st : GoSet String × GoSet String)
    (x : String) (h : x ∈ new) (h' : x ∉ st.1) : x ∈ (new.foldl diffStep st).2 := by
  induction new generalizing st with
  | nil => simp at h
  | cons a tl ih =>
    simp only [List.foldl_cons]
    by_cases hx : x = a
    · subst hx
      apply mem_diff_added_mono
      unfold diffStep
      have h2 : ¬ GoSet.has st.1 x = true := by simpa using h'
      simp only [h2]
      exact (GoSet.mem_add _ _ _).2 (Or.inr rfl)
    · have h3 : x ∈ tl := by
        rcases List.mem_cons.1 h with h4 | h4
        · exact absurd h4 hx
        · exact h4
      apply ih _ h3
      unfold diffStep
      by_cases h2 : GoSet.has st.1 a = true
      · simp only [h2, if_true, GoSet.mem_remove]
        exact fun h5 => h' h5.1
      · simpa [h2] using h'

/-! ## Elementary updates of the match index -/

section CoreLemmas

variable {K σ : Type} [DecidableEq K]

theorem step_add_get? (onS onT : MatchCallback K σ) (e : K) (t p : String)
    (c : GoMap (indexKey K) (GoSet String) × σ) (k : indexKey K) :
    GoMap.get? ((IndexAct.add e t p).step onS onT c).1 k =
      if (⟨t, e⟩ : indexKey K) = k then some (GoSet.add (matchSet c.1 t e) p)
      else GoMap.get? c.1 k := by
  rcases h : GoMap.get? c.1 ⟨t, e⟩ with _ | S
  · simp only [IndexAct.step, matchSet, h, GoMap.get?_put, Option.getD_none]
    by_cases hk : (⟨t, e⟩ : indexKey K) = k <;> simp [hk]
  · simp only [IndexAct.step, matchSet, h, GoMap.get?_put, Option.getD_some]

theorem step_remove_get? (onS onT : MatchCallback K σ) (e : K) (t p : String)
    (c : GoMap (indexKey K) (GoSet String) × σ) (k : indexKey K) :
    GoMap.get? ((IndexAct.remove e t p).step onS onT c).1 k =
      if (⟨t, e⟩ : indexKey K) = k then
        (if GoSet.remove (matchSet c.1 t e) p = [] then none
          else some (GoSet.remove (matchSet c.1 t e) p))
      else GoMap.get? c.1 k := by
  by_cases hl : GoSet.len (GoSet.remove ((GoMap.get? c.1 ⟨t, e⟩).getD []) p) = 0
  · have hl' := (GoSet.len_eq_zero _).1 hl
    simp only [IndexAct.step, matchSet, hl', GoSet.len, List.length_nil, if_true,
      GoMap.get?_delete]
    by_cases hk : (⟨t, e⟩ : indexKey K) = k
    · simp [hk]
    · simp only [hk, if_false]
      by_cases hc : GoMap.contains c.1 ⟨t, e⟩ = true
      · simp [hc, GoMap.get?_put, hk]
      · simp [hc]
  · have hl' : ¬ GoSet.remove ((GoMap.get? c.1 ⟨t, e⟩).getD []) p = [] :=
      fun h => hl ((GoSet.len_eq_zero _).2 h)
    have hc : GoMap.contains c.1 ⟨t, e⟩ = true := by
      rcases h : GoMap.get? c.1 ⟨t, e⟩ with _ | S
      · rw [h] at hl'
        exact absurd rfl hl'
      · simp [GoMap.contains, h]
    simp only [IndexAct.step, matchSet, hl, if_false, hl', hc, if_true, GoMap.get?_put]

theorem step_add_snd (onS onT : MatchCallback K σ) (e : K) (t p : String)
    (c : GoMap (indexKey K) (GoSet String) × σ) :
    ((IndexAct.add e t p).step onS onT c).2 =
      if GoMap.contains c.1 ⟨t, e⟩ then c.2 else onS e t c.2 := by
  rcases h : GoMap.get? c.1 ⟨t, e⟩ with _ | S <;> simp [IndexAct.step, GoMap.contains, h]

theorem step_remove_snd (onS onT : MatchCallback K σ) (e : K) (t p : String)
    (c : GoMap (indexKey K) (GoSet String) × σ) :
    ((IndexAct.remove e t p).step onS onT c).2 =
      if GoSet.remove (matchSet c.1 t e) p = [] then onT e t c.2 else c.2 := by
  by_cases hl : GoSet.len (GoSet.remove ((GoMap.get? c.1 ⟨t, e⟩).getD []) p) = 0
  · simp [IndexAct.step, matchSet, GoSet.len, (GoSet.len_eq_zero _).1 hl]
  · have hl' : ¬ GoSet.remove ((GoMap.get? c.1 ⟨t, e⟩).getD []) p = [] :=
      fun h => hl ((GoSet.len_eq_zero _).2 h)
    simp [IndexAct.step, matchSet, hl, hl']

theorem mem_matchSet_step_add (onS onT : MatchCallback K σ) (e : K) (t p : String)
    (c : GoMap (indexKey K) (GoSet String) × σ) (t' : String) (e' : K) (q : String) :
    q ∈ matchSet ((IndexAct.add e t p).step onS onT c).1 t' e' ↔
      q ∈ matchSet c.1 t' e' ∨ (t' = t ∧ e' = e ∧ q = p) := by
  rw [matchSet, step_add_get?]
  by_cases hk : (⟨t, e⟩ : indexKey K) = ⟨t', e'⟩
  · obtain ⟨rfl, rfl⟩ := indexKey.mk.inj hk
    simp
  · simp only [hk, if_false]
    have : ¬ (t' = t ∧ e' = e) := by
      rintro ⟨rfl, rfl⟩
      exact hk rfl
    unfold matchSet
    tauto

theorem mem_matchSet_step_remove (onS onT : MatchCallback K σ) (e : K) (t p : String)
    (c : GoMap (indexKey K) (GoSet String) × σ) (t' : String) (e' : K) (q : String) :
    q ∈ matchSet ((IndexAct.remove e t p).step onS onT c).1 t' e' ↔
      q ∈ matchSet c.1 t' e' ∧ ¬ (t' = t ∧ e' = e ∧ q = p) := by
  rw [matchSet, step_remove_get?]
  by_cases hk : (⟨t, e⟩ : indexKey K) = ⟨t', e'⟩
  · obtain ⟨rfl, rfl⟩ := indexKey.mk.inj hk
    rw [if_pos rfl]
    have hq : (¬ (t = t ∧ e = e ∧ q = p)) ↔ q ≠ p := by simp
    rw [hq, ← GoSet.mem_remove]
    by_cases hr : GoSet.remove (matchSet c.1 t e) p = []
    · simp [hr]
    · simp [hr]
  · simp only [hk, if_false]
    have : ¬ (t' = t ∧ e' = e) := by
      rintro ⟨rfl, rfl⟩
      exact hk rfl
    unfold matchSet
    tauto

theorem matchesNonempty_step (onS onT : MatchCallback K σ) (a : IndexAct K)
    (c : GoMap (indexKey K) (GoSet String) × σ) (h : MatchesNonempty c.1) :
    MatchesNonempty (a.step onS onT c).1 := by
  intro k s hs
  cases a with
  | add e t p =>
    rw [step_add_get?] at hs
    by_cases hk : (⟨t, e⟩ : indexKey K) = k
    · simp only [hk, if_true, Option.some.injEq] at hs
      rw [← hs]
      exact GoSet.add_ne_nil _ _
    · simp only [hk, if_false] at hs
      exact h k s hs
  | remove e t p =>
    rw [step_remove_get?] at hs
    by_cases hk : (⟨t, e⟩ : indexKey K) = k
    · simp only [hk, if_true] at hs
      by_cases hr : GoSet.remove (matchSet c.1 t e) p = []
      · simp [hr] at hs
      · simp only [hr, if_false, Option.some.injEq] at hs
        rw [← hs]
        exact hr
    · simp only [hk, if_false] at hs
      exact h k s hs

theorem runActs_nil (onS onT : MatchCallback K σ) (c : GoMap (indexKey K) (GoSet String) × σ) :
    runActs onS onT [] c = c := rfl

theorem runActs_cons (onS onT : MatchCallback K σ) (a : IndexAct K) (acts : List (IndexAct K))
    (c : GoMap (indexKey K) (GoSet String) × σ) :
    runActs onS onT (a :: acts) c = runActs onS onT acts (a.step onS onT c) := rfl

theorem runActs_append (onS onT : MatchCallback K σ) (acts acts' : List (IndexAct K))
    (c : GoMap (indexKey K) (GoSet String) × σ) :
    runActs onS onT (acts ++ acts') c = runActs onS onT acts' (runActs onS onT acts c) := by
  simp [runActs, List.foldl_append]

theorem matchesNonempty_runActs (onS onT : MatchCallback K σ) (acts : List (IndexAct K))
    (c : GoMap (indexKey K) (GoSet String) × σ) (h : MatchesNonempty c.1) :
    MatchesNonempty (runActs onS onT acts c).1 := by
  induction acts generalizing c with
  | nil => exact h
  | cons a tl ih => exact ih _ (matchesNonempty_step onS onT a c h)

/-- The match sets after a sequence of elementary updates in which nothing is
both added and removed. -/
theorem mem_matchSet_runActs (onS onT : MatchCallback K σ) (acts : List (IndexAct K))
    (hcons : ∀ e t p, IndexAct.add e t p ∈ acts → IndexAct.remove e t p ∉ acts)
    (c : GoMap (indexKey K) (GoSet String) × σ) (t : String) (e : K) (q : String) :
    q ∈ matchSet (runActs onS onT acts c).1 t e ↔
      (q ∈ matchSet c.1 t e ∨ IndexAct.add e t q ∈ acts) ∧ IndexAct.remove e t q ∉ acts := by
  induction acts generalizing c with
  | nil => simp [runActs]
  | cons a tl ih =>
    have hcons' : ∀ e t p, IndexAct.add e t p ∈ tl → IndexAct.remove e t p ∉ tl :=
      fun e t p h1 h2 => hcons e t p (List.mem_cons_of_mem _ h1) (List.mem_cons_of_mem _ h2)
    rw [runActs_cons, ih hcons']
    cases a with
    | add e0 t0 p0 =>
      rw [mem_matchSet_step_add]
      simp only [List.mem_cons, IndexAct.add.injEq, false_or, reduceCtorEq]
      constructor
      · rintro ⟨(h1 | ⟨rfl, rfl, rfl⟩) | h1, h2⟩
        · exact ⟨Or.inl h1, h2⟩
        · exact ⟨Or.inr (Or.inl ⟨rfl, rfl, rfl⟩), h2⟩
        · exact ⟨Or.inr (Or.inr h1), h2⟩
      · rintro ⟨h1 | ⟨rfl, rfl, rfl⟩ | h1, h2⟩
        · exact ⟨Or.inl (Or.inl h1), h2⟩
        · exact ⟨Or.inl (Or.inr ⟨rfl, rfl, rfl⟩), h2⟩
        · exact ⟨Or.inr h1, h2⟩
    | remove e0 t0 p0 =>
      rw [mem_matchSet_step_remove]
      simp only [List.mem_cons, IndexAct.remove.injEq, false_or, reduceCtorEq, not_or]
      constructor
      · rintro ⟨⟨h1, h3⟩ | h1, h2⟩
        · exact ⟨Or.inl h1, fun h => h3 ⟨h.2.1, h.1, h.2.2⟩, h2⟩
        · refine ⟨Or.inr h1, ?_, h2⟩
          rintro ⟨rfl, rfl, rfl⟩
          exact hcons e t q (List.mem_cons_of_mem _ h1) (List.mem_cons_self _ _)
      · rintro ⟨h1 | h1, h3, h2⟩
        · exact ⟨Or.inl ⟨h1, fun h => h3 ⟨h.2.1, h.1, h.2.2⟩⟩, h2⟩
        · exact ⟨Or.inr h1, h2⟩

end CoreLemmas

/-! ## The methods of the index as sequences of elementary updates -/

section Factoring

variable {K σ : Type} [DecidableEq K]

theorem addToIndex_eq (e : K) (t p : String) (w : tagIndex K σ × σ) :
    tagIndex.addToIndex e t p w =
      tagIndex.setCore w
        ((IndexAct.add e t p).step w.1.onMatchStarted w.1.onMatchStopped (tagIndex.core w)) := by
  rcases h : GoMap.get? w.1.matchesMap ⟨t, e⟩ with _ | S <;>
    simp [tagIndex.addToIndex, tagIndex.setCore, tagIndex.core, IndexAct.step, h]

theorem removeFromIndex_eq (e : K) (t p : String) (w : tagIndex K σ × σ) :
    tagIndex.removeFromIndex e t p w =
      tagIndex.setCore w
        ((IndexAct.remove e t p).step w.1.onMatchStarted w.1.onMatchStopped
          (tagIndex.core w)) := by
  by_cases hl : GoSet.len (GoSet.remove ((GoMap.get? w.1.matchesMap ⟨t, e⟩).getD []) p) = 0 <;>
    simp [tagIndex.removeFromIndex, tagIndex.setCore, tagIndex.core, IndexAct.step, hl]

theorem apply_eq (a : IndexAct K) (w : tagIndex K σ × σ) :
    a.apply w =
      tagIndex.setCore w (a.step w.1.onMatchStarted w.1.onMatchStopped (tagIndex.core w)) := by
  cases a with
  | add e t p => exact addToIndex_eq e t p w
  | remove e t p => exact removeFromIndex_eq e t p w

theorem foldl_apply_eq (acts : List (IndexAct K)) (w : tagIndex K σ × σ) :
    acts.foldl (fun w a => a.apply w) w =
      tagIndex.setCore w
        (runActs w.1.onMatchStarted w.1.onMatchStopped acts (tagIndex.core w)) := by
  induction acts generalizing w with
  | nil => rfl
  | cons a tl ih =>
    rw [List.foldl_cons, ih, apply_eq]
    rfl

theorem foldl_flatMap_eq {α β γ : Type} (l : List α) (f : α → List β) (g : γ → β → γ) (c : γ) :
    l.foldl (fun c x => (f x).foldl g c) c = (l.flatMap f).foldl g c := by
  induction l generalizing c with
  | nil => rfl
  | cons a tl ih => simp [List.flatMap_cons, List.foldl_append, ih]

end Factoring

section FactoringProfileTags

variable {K σ : Type} [DecidableEq K]

theorem updateProfileTags_loop (ord : RangeOrder K) (p : String)
    (added removed : GoSet String) (eps : List K) (w : tagIndex K σ × σ) :
    eps.foldl (fun w epKey =>
      (rangeOrder (ord.strs epKey) removed).foldl
        (fun w tag => tagIndex.removeFromIndex epKey tag p w)
        ((rangeOrder (ord.strs epKey) added).foldl
          (fun w tag => tagIndex.addToIndex epKey tag p w) w)) w =
    tagIndex.setCore w (runActs w.1.onMatchStarted w.1.onMatchStopped
      (eps.flatMap (fun epKey =>
        (rangeOrder (ord.strs epKey) added).map (fun tag => IndexAct.add epKey tag p) ++
        (rangeOrder (ord.strs epKey) removed).map (fun tag => IndexAct.remove epKey tag p)))
      (tagIndex.core w)) := by
  rw [← foldl_apply_eq, ← foldl_flatMap_eq]
  congr 1
  funext w epKey
  rw [List.foldl_append, List.foldl_map, List.foldl_map]
  rfl

/-- `UpdateProfileTags` makes its elementary updates and stores the tag list. -/
theorem UpdateProfileTags_eq (ord : RangeOrder K) (p : String) (tags : List String)
    (w : tagIndex K σ × σ) :
    tagIndex.UpdateProfileTags ord p tags w =
      ({ (tagIndex.setCore w (runActs w.1.onMatchStarted w.1.onMatchStopped
            (actsUpdateProfileTags ord p tags w.1) (tagIndex.core w))).1 with
          profileIDToTags :=
            if tags.length > 0 then GoMap.put w.1.profileIDToTags p tags
            else GoMap.delete w.1.profileIDToTags p },
        (runActs w.1.onMatchStarted w.1.onMatchStopped
            (actsUpdateProfileTags ord p tags w.1) (tagIndex.core w)).2) := by
  unfold tagIndex.UpdateProfileTags actsUpdateProfileTags
  simp only [updateProfileTags_loop]
  by_cases h : tags.length > 0
  · simp only [h, if_true]
    rfl
  · simp only [h, if_false]
    rfl

end FactoringProfileTags

section FactoringEndpoint

variable {K σ : Type} [DecidableEq K]

theorem addProfileID_eq (key : K) (id : String) (w : tagIndex K σ × σ) :
    tagIndex.addProfileID key id w =
      tagIndex.setCore (tagIndex.setRev w (revAdd key w.1.profileIDToEndpointKey id))
        (runActs w.1.onMatchStarted w.1.onMatchStopped
          ((w.1.tagsOf id).map (fun tag => IndexAct.add key tag id)) (tagIndex.core w)) := by
  unfold tagIndex.addProfileID
  simp only []
  have h := foldl_apply_eq ((w.1.tagsOf id).map (fun tag => IndexAct.add key tag id))
    (tagIndex.setRev w (revAdd key w.1.profileIDToEndpointKey id))
  rw [List.foldl_map] at h
  exact h

theorem removeProfileID_eq (key : K) (id : String) (w : tagIndex K σ × σ) :
    tagIndex.removeProfileID key id w =
      tagIndex.setCore (tagIndex.setRev w (revRemove key w.1.profileIDToEndpointKey id))
        (runActs w.1.onMatchStarted w.1.onMatchStopped
          ((w.1.tagsOf id).map (fun tag => IndexAct.remove key tag id)) (tagIndex.core w)) := by
  unfold tagIndex.removeProfileID
  simp only []
  have h := foldl_apply_eq ((w.1.tagsOf id).map (fun tag => IndexAct.remove key tag id))
    (tagIndex.setRev w (revRemove key w.1.profileIDToEndpointKey id))
  rw [List.foldl_map] at h
  by_cases hl : GoSet.len (GoSet.remove ((GoMap.get? w.1.profileIDToEndpointKey id).getD []) key) = 0
  · simp only [revRemove, hl, if_true] at h ⊢
    exact h
  · simp only [revRemove, hl, if_false] at h ⊢
    exact h

theorem addProfileID_loop (key : K) (ids : List String) (w : tagIndex K σ × σ) :
    ids.foldl (fun w id => tagIndex.addProfileID key id w) w =
      tagIndex.setCore (tagIndex.setRev w (ids.foldl (revAdd key) w.1.profileIDToEndpointKey))
        (runActs w.1.onMatchStarted w.1.onMatchStopped
          (ids.flatMap (fun id => (w.1.tagsOf id).map (fun tag => IndexAct.add key tag id)))
          (tagIndex.core w)) := by
  induction ids generalizing w with
  | nil => rfl
  | cons id tl ih =>
    rw [List.foldl_cons, ih, addProfileID_eq, List.flatMap_cons, runActs_append]
    rfl

theorem removeProfileID_loop (key : K) (ids : List String) (w : tagIndex K σ × σ) :
    ids.foldl (fun w id => tagIndex.removeProfileID key id w) w =
      tagIndex.setCore
        (tagIndex.setRev w (ids.foldl (revRemove key) w.1.profileIDToEndpointKey))
        (runActs w.1.onMatchStarted w.1.onMatchStopped
          (ids.flatMap (fun id => (w.1.tagsOf id).map (fun tag => IndexAct.remove key tag id)))
          (tagIndex.core w)) := by
  induction ids generalizing w with
  | nil => rfl
  | cons id tl ih =>
    rw [List.foldl_cons, ih, removeProfileID_eq, List.flatMap_cons, runActs_append]
    rfl

theorem Update_fst (m : EndpointKeyToProfileIDMap K) (key : K) (profileIDs : List String) :
    (EndpointKeyToProfileIDMap.Update m key profileIDs).1 =
      profileIDs.foldl diffStep
        (copyOld ((GoMap.get? m.endpointKeyToProfileIDs key).getD []), []) := by
  unfold EndpointKeyToProfileIDMap.Update
  by_cases h : profileIDs.length > 0 <;> simp [h]

theorem Update_snd (m : EndpointKeyToProfileIDMap K) (key : K) (profileIDs : List String) :
    (EndpointKeyToProfileIDMap.Update m key profileIDs).2 =
      ⟨if profileIDs.length > 0 then GoMap.put m.endpointKeyToProfileIDs key profileIDs
        else GoMap.delete m.endpointKeyToProfileIDs key⟩ := by
  unfold EndpointKeyToProfileIDMap.Update
  by_cases h : profileIDs.length > 0 <;> simp [h]

/-- `UpdateEndpoint` stores the profile list, updates the reverse index and
makes its elementary updates. -/
theorem UpdateEndpoint_eq (ord : RangeOrder K) (key : K) (profileIDs : List String)
    (w : tagIndex K σ × σ) :
    tagIndex.UpdateEndpoint ord key profileIDs w =
      ({ (tagIndex.setCore w (runActs w.1.onMatchStarted w.1.onMatchStopped
            (actsUpdateEndpoint ord key profileIDs w.1) (tagIndex.core w))).1 with
          endpointKeyToProfileIDs :=
            ⟨if profileIDs.length > 0 then
                GoMap.put w.1.endpointKeyToProfileIDs.endpointKeyToProfileIDs key profileIDs
              else GoMap.delete w.1.endpointKeyToProfileIDs.endpointKeyToProfileIDs key⟩
          profileIDToEndpointKey := revAfterUpdate ord key profileIDs w.1 },
        (runActs w.1.onMatchStarted w.1.onMatchStopped
            (actsUpdateEndpoint ord key profileIDs w.1) (tagIndex.core w)).2) := by
  unfold tagIndex.UpdateEndpoint actsUpdateEndpoint revAfterUpdate
  simp only [removeProfileID_loop, addProfileID_loop, Update_fst, Update_snd, runActs_append]
  rfl

end FactoringEndpoint

/-! ## The reverse index and the elementary updates of each method -/

section Membership

variable {K σ : Type} [DecidableEq K]

theorem mem_revAdd (key : K) (r : GoMap String (GoSet K)) (id p : String) (e : K) :
    e ∈ (GoMap.get? (revAdd key r id) p).getD [] ↔
      e ∈ (GoMap.get? r p).getD [] ∨ (p = id ∧ e = key) := by
  unfold revAdd
  rw [GoMap.get?_put]
  by_cases h : id = p
  · subst h
    simp
  · have h' : ¬ p = id := fun x => h x.symm
    simp [h, h']

theorem mem_revRemove (key : K) (r : GoMap String (GoSet K)) (id p : String) (e : K) :
    e ∈ (GoMap.get? (revRemove key r id) p).getD [] ↔
      e ∈ (GoMap.get? r p).getD [] ∧ ¬ (p = id ∧ e = key) := by
  unfold revRemove
  by_cases h : id = p
  · subst h
    by_cases hl : GoSet.len (GoSet.remove ((GoMap.get? r id).getD []) key) = 0
    · have hl' := (GoSet.len_eq_zero _).1 hl
      simp only [hl, if_true, GoMap.get?_delete_self, Option.getD_none, List.not_mem_nil,
        true_and, false_iff, not_and, not_not]
      intro he
      by_contra hne
      have : e ∈ GoSet.remove ((GoMap.get? r id).getD []) key :=
        (GoSet.mem_remove _ _ _).2 ⟨he, hne⟩
      rw [hl'] at this
      simp at this
    · have hl' : ¬ GoSet.remove ((GoMap.get? r id).getD []) key = [] :=
        fun h => hl ((GoSet.len_eq_zero _).2 h)
      have hc : GoMap.contains r id = true := by
        rcases h : GoMap.get? r id with _ | S
        · rw [h] at hl'
          exact absurd rfl hl'
        · simp [GoMap.contains, h]
      simp [hl, hc]
  · have h' : ¬ p = id := fun x => h x.symm
    by_cases hl : GoSet.len (GoSet.remove ((GoMap.get? r id).getD []) key) = 0
    · simp only [hl, if_true, GoMap.get?_delete, h, if_false, h', false_and, not_false_eq_true,
        and_true]
      by_cases hc : GoMap.contains r id = true
      · simp [hc, GoMap.get?_put, h]
      · simp [hc]
    · simp only [hl, if_false, h', false_and, not_false_eq_true, and_true]
      by_cases hc : GoMap.contains r id = true
      · simp [hc, GoMap.get?_put, h]
      · simp [hc]

theorem mem_foldl_revAdd (key : K) (ids : List String) (r : GoMap String (GoSet K))
    (p : String) (e : K) :
    e ∈ (GoMap.get? (ids.foldl (revAdd key) r) p).getD [] ↔
      e ∈ (GoMap.get? r p).getD [] ∨ (p ∈ ids ∧ e = key) := by
  induction ids generalizing r with
  | nil => simp
  | cons id tl ih =>
    rw [List.foldl_cons, ih, mem_revAdd]
    simp only [List.mem_cons]
    tauto

theorem mem_foldl_revRemove (key : K) (ids : List String) (r : GoMap String (GoSet K))
    (p : String) (e : K) :
    e ∈ (GoMap.get? (ids.foldl (revRemove key) r) p).getD [] ↔
      e ∈ (GoMap.get? r p).getD [] ∧ ¬ (p ∈ ids ∧ e = key) := by
  induction ids generalizing r with
  | nil => simp
  | cons id tl ih =>
    rw [List.foldl_cons, ih, mem_revRemove]
    simp only [List.mem_cons]
    tauto

theorem mem_revAfterUpdate (ord : RangeOrder K) (key : K) (profileIDs : List String)
    (idx : tagIndex K σ) (p : String) (e : K) :
    e ∈ (GoMap.get? (revAfterUpdate ord key profileIDs idx) p).getD [] ↔
      (e ∈ idx.endpointsOf p ∨
        (p ∈ (profileIDs.foldl diffStep (copyOld (idx.profilesOf key), [])).2 ∧ e = key)) ∧
      ¬ (p ∈ (profileIDs.foldl diffStep (copyOld (idx.profilesOf key), [])).1 ∧ e = key) := by
  unfold revAfterUpdate
  simp only [mem_foldl_revRemove, mem_foldl_revAdd, mem_rangeOrder]
  rfl

theorem add_mem_actsUpdateProfileTags (ord : RangeOrder K) (p : String) (tags : List String)
    (idx : tagIndex K σ) (e : K) (t q : String) :
    IndexAct.add e t q ∈ actsUpdateProfileTags ord p tags idx ↔
      q = p ∧ e ∈ idx.endpointsOf p ∧
        t ∈ (tags.foldl diffStep (copyOld (idx.tagsOf p), [])).2 := by
  unfold actsUpdateProfileTags
  simp only [List.mem_flatMap, mem_rangeOrder, List.mem_append, List.mem_map,
    IndexAct.add.injEq, reduceCtorEq, and_false, exists_false, or_false]
  constructor
  · rintro ⟨e', he, t', ht, rfl, rfl, rfl⟩
    exact ⟨rfl, he, ht⟩
  · rintro ⟨rfl, he, ht⟩
    exact ⟨e, he, t, ht, rfl, rfl, rfl⟩

theorem remove_mem_actsUpdateProfileTags (ord : RangeOrder K) (p : String)
    (tags : List String) (idx : tagIndex K σ) (e : K) (t q : String) :
    IndexAct.remove e t q ∈ actsUpdateProfileTags ord p tags idx ↔
      q = p ∧ e ∈ idx.endpointsOf p ∧
        t ∈ (tags.foldl diffStep (copyOld (idx.tagsOf p), [])).1 := by
  unfold actsUpdateProfileTags
  simp only [List.mem_flatMap, mem_rangeOrder, List.mem_append, List.mem_map,
    IndexAct.remove.injEq, reduceCtorEq, and_false, exists_false, false_or]
  constructor
  · rintro ⟨e', he, t', ht, rfl, rfl, rfl⟩
    exact ⟨rfl, he, ht⟩
  · rintro ⟨rfl, he, ht⟩
    exact ⟨e, he, t, ht, rfl, rfl, rfl⟩

theorem add_mem_actsUpdateEndpoint (ord : RangeOrder K) (key : K) (profileIDs : List String)
    (idx : tagIndex K σ) (e : K) (t q : String) :
    IndexAct.add e t q ∈ actsUpdateEndpoint ord key profileIDs idx ↔
      e = key ∧ q ∈ (profileIDs.foldl diffStep (copyOld (idx.profilesOf key), [])).2 ∧
        t ∈ idx.tagsOf q := by
  unfold actsUpdateEndpoint
  simp only [List.mem_flatMap, mem_rangeOrder, List.mem_append, List.mem_map,
    IndexAct.add.injEq, reduceCtorEq, and_false, exists_false, or_false]
  constructor
  · rintro ⟨q', hq, t', ht, rfl, rfl, rfl⟩
    exact ⟨rfl, hq, ht⟩
  · rintro ⟨rfl, hq, ht⟩
    exact ⟨q, hq, t, ht, rfl, rfl, rfl⟩

theorem remove_mem_actsUpdateEndpoint (ord : RangeOrder K) (key : K)
    (profileIDs : List String) (idx : tagIndex K σ) (e : K) (t q : String) :
    IndexAct.remove e t q ∈ actsUpdateEndpoint ord key profileIDs idx ↔
      e = key ∧ q ∈ (profileIDs.foldl diffStep (copyOld (idx.profilesOf key), [])).1 ∧
        t ∈ idx.tagsOf q := by
  unfold actsUpdateEndpoint
  simp only [List.mem_flatMap, mem_rangeOrder, List.mem_append, List.mem_map,
    IndexAct.remove.injEq, reduceCtorEq, and_false, exists_false, false_or]
  constructor
  · rintro ⟨q', hq, t', ht, rfl, rfl, rfl⟩
    exact ⟨rfl, hq, ht⟩
  · rintro ⟨rfl, hq, ht⟩
    exact ⟨q, hq, t, ht, rfl, rfl, rfl⟩

end Membership

/-! ## The state after each method -/

section Projections

variable {K σ : Type} [DecidableEq K]

theorem UpdateProfileTags_tagsOf (ord : RangeOrder K) (p : String) (tags : List String)
    (w : tagIndex K σ × σ) (q : String) :
    (tagIndex.UpdateProfileTags ord p tags w).1.tagsOf q =
      if p = q then tags else w.1.tagsOf q := by
  rw [UpdateProfileTags_eq]
  unfold tagIndex.tagsOf
  by_cases h : tags.length > 0
  · simp only [h, if_true, GoMap.get?_put]
    by_cases hq : p = q <;> simp [hq, tagIndex.setCore]
  · simp only [h, if_false, GoMap.get?_delete]
    have h0 : tags = [] := by
      cases tags with
      | nil => rfl
      | cons a tl => simp at h
    by_cases hq : p = q <;> simp [hq, tagIndex.setCore, h0]

theorem UpdateProfileTags_profilesOf (ord : RangeOrder K) (p : String) (tags : List String)
    (w : tagIndex K σ × σ) (e : K) :
    (tagIndex.UpdateProfileTags ord p tags w).1.profilesOf e = w.1.profilesOf e := by
  rw [UpdateProfileTags_eq]
  rfl

theorem UpdateProfileTags_endpointsOf (ord : RangeOrder K) (p : String) (tags : List String)
    (w : tagIndex K σ × σ) (q : String) :
    (tagIndex.UpdateProfileTags ord p tags w).1.endpointsOf q = w.1.endpointsOf q := by
  rw [UpdateProfileTags_eq]
  rfl

theorem UpdateProfileTags_matchesMap (ord : RangeOrder K) (p : String) (tags : List String)
    (w : tagIndex K σ × σ) :
    (tagIndex.UpdateProfileTags ord p tags w).1.matchesMap =
      (runActs w.1.onMatchStarted w.1.onMatchStopped
        (actsUpdateProfileTags ord p tags w.1) (tagIndex.core w)).1 := by
  rw [UpdateProfileTags_eq]
  rfl

theorem UpdateProfileTags_snd (ord : RangeOrder K) (p : String) (tags : List String)
    (w : tagIndex K σ × σ) :
    (tagIndex.UpdateProfileTags ord p tags w).2 =
      (runActs w.1.onMatchStarted w.1.onMatchStopped
        (actsUpdateProfileTags ord p tags w.1) (tagIndex.core w)).2 := by
  rw [UpdateProfileTags_eq]

theorem UpdateProfileTags_callbacks (ord : RangeOrder K) (p : String) (tags : List String)
    (w : tagIndex K σ × σ) :
    (tagIndex.UpdateProfileTags ord p tags w).1.onMatchStarted = w.1.onMatchStarted ∧
      (tagIndex.UpdateProfileTags ord p tags w).1.onMatchStopped = w.1.onMatchStopped := by
  rw [UpdateProfileTags_eq]
  exact ⟨rfl, rfl⟩

theorem UpdateEndpoint_tagsOf (ord : RangeOrder K) (key : K) (profileIDs : List String)
    (w : tagIndex K σ × σ) (q : String) :
    (tagIndex.UpdateEndpoint ord key profileIDs w).1.tagsOf q = w.1.tagsOf q := by
  rw [UpdateEndpoint_eq]
  rfl

theorem UpdateEndpoint_profilesOf (ord : RangeOrder K) (key : K) (profileIDs : List String)
    (w : tagIndex K σ × σ) (e : K) :
    (tagIndex.UpdateEndpoint ord key profileIDs w).1.profilesOf e =
      if key = e then profileIDs else w.1.profilesOf e := by
  rw [UpdateEndpoint_eq]
  unfold tagIndex.profilesOf
  by_cases h : profileIDs.length > 0
  · simp only [h, if_true, GoMap.get?_put]
    by_cases hq : key = e <;> simp [hq]
  · simp only [h, if_false, GoMap.get?_delete]
    have h0 : profileIDs = [] := by
      cases profileIDs with
      | nil => rfl
      | cons a tl => simp at h
    by_cases hq : key = e <;> simp [hq, h0]

theorem UpdateEndpoint_endpointsOf (ord : RangeOrder K) (key : K) (profileIDs : List String)
    (w : tagIndex K σ × σ) (q : String) :
    (tagIndex.UpdateEndpoint ord key profileIDs w).1.endpointsOf q =
      (GoMap.get? (revAfterUpdate ord key profileIDs w.1) q).getD [] := by
  rw [UpdateEndpoint_eq]
  rfl

theorem UpdateEndpoint_matchesMap (ord : RangeOrder K) (key : K) (profileIDs : List String)
    (w : tagIndex K σ × σ) :
    (tagIndex.UpdateEndpoint ord key profileIDs w).1.matchesMap =
      (runActs w.1.onMatchStarted w.1.onMatchStopped
        (actsUpdateEndpoint ord key profileIDs w.1) (tagIndex.core w)).1 := by
  rw [UpdateEndpoint_eq]
  rfl

theorem UpdateEndpoint_snd (ord : RangeOrder K) (key : K) (profileIDs : List String)
    (w : tagIndex K σ × σ) :
    (tagIndex.UpdateEndpoint ord key profileIDs w).2 =
      (runActs w.1.onMatchStarted w.1.onMatchStopped
        (actsUpdateEndpoint ord key profileIDs w.1) (tagIndex.core w)).2 := by
  rw [UpdateEndpoint_eq]

theorem UpdateEndpoint_callbacks (ord : RangeOrder K) (key : K) (profileIDs : List String)
    (w : tagIndex K σ × σ) :
    (tagIndex.UpdateEndpoint ord key profileIDs w).1.onMatchStarted = w.1.onMatchStarted ∧
      (tagIndex.UpdateEndpoint ord key profileIDs w).1.onMatchStopped = w.1.onMatchStopped := by
  rw [UpdateEndpoint_eq]
  exact ⟨rfl, rfl⟩

end Projections

/-! ## The state invariant of the index -/

section Invariant

variable {K σ : Type} [DecidableEq K]

theorem Inv_NewIndex (onS onT : MatchCallback K σ) : (NewIndex onS onT).Inv := by
  refine ⟨?_, ?_, ?_⟩
  · intro k s h
    simp [NewIndex] at h
  · intro t e p
    simp [NewIndex, matchSet, tagIndex.profilesOf]
  · intro p e
    simp [NewIndex, tagIndex.endpointsOf, tagIndex.profilesOf]

theorem Inv_UpdateProfileTags (ord : RangeOrder K) (p : String) (tags : List String)
    (w : tagIndex K σ × σ) (h : w.1.Inv) : (tagIndex.UpdateProfileTags ord p tags w).1.Inv := by
  have hcons : ∀ e t q, IndexAct.add e t q ∈ actsUpdateProfileTags ord p tags w.1 →
      IndexAct.remove e t q ∉ actsUpdateProfileTags ord p tags w.1 := by
    intro e t q h1 h2
    rw [add_mem_actsUpdateProfileTags] at h1
    rw [remove_mem_actsUpdateProfileTags, mem_diff_removed] at h2
    rcases mem_diff_added_sub _ _ _ h1.2.2 with h3 | h3
    · simp at h3
    · exact h2.2.2.2 h3
  refine ⟨?_, ?_, ?_⟩
  · rw [UpdateProfileTags_matchesMap]
    exact matchesNonempty_runActs _ _ _ _ h.nonempty
  · intro t e q
    rw [UpdateProfileTags_matchesMap, mem_matchSet_runActs _ _ _ hcons,
      UpdateProfileTags_profilesOf, UpdateProfileTags_tagsOf, add_mem_actsUpdateProfileTags,
      remove_mem_actsUpdateProfileTags, mem_diff_removed]
    have hm := h.matches_iff t e q
    have hr := h.reverse_iff p e
    simp only [tagIndex.core, mem_copyOld] at hm ⊢
    rw [hm, hr]
    by_cases hq : p = q
    · subst hq
      simp only [if_true, true_and]
      constructor
      · rintro ⟨(⟨h1, h2⟩ | ⟨h1, h2⟩), h3⟩
        · refine ⟨h1, ?_⟩
          by_contra h4
          exact h3 ⟨h1, h2, h4⟩
        · refine ⟨h1, ?_⟩
          rcases mem_diff_added_sub _ _ _ h2 with h5 | h5
          · simp at h5
          · exact h5
      · rintro ⟨h1, h2⟩
        refine ⟨?_, fun h3 => h3.2.2 h2⟩
        by_cases h4 : t ∈ w.1.tagsOf p
        · exact Or.inl ⟨h1, h4⟩
        · refine Or.inr ⟨h1, mem_diff_added_of_new _ _ _ h2 ?_⟩
          simpa [mem_copyOld] using h4
    · have hq' : ¬ q = p := fun x => hq x.symm
      simp [hq, hq']
  · intro q e
    rw [UpdateProfileTags_endpointsOf, UpdateProfileTags_profilesOf]
    exact h.reverse_iff q e

theorem Inv_UpdateEndpoint (ord : RangeOrder K) (key : K) (profileIDs : List String)
    (w : tagIndex K σ × σ) (h : w.1.Inv) :
    (tagIndex.UpdateEndpoint ord key profileIDs w).1.Inv := by
  have hsub : ∀ q, q ∈ (profileIDs.foldl diffStep (copyOld (w.1.profilesOf key), [])).2 →
      q ∈ profileIDs := by
    intro q hq
    rcases mem_diff_added_sub _ _ _ hq with h5 | h5
    · simp at h5
    · exact h5
  have hcons : ∀ e t q, IndexAct.add e t q ∈ actsUpdateEndpoint ord key profileIDs w.1 →
      IndexAct.remove e t q ∉ actsUpdateEndpoint ord key profileIDs w.1 := by
    intro e t q h1 h2
    rw [add_mem_actsUpdateEndpoint] at h1
    rw [remove_mem_actsUpdateEndpoint, mem_diff_removed] at h2
    exact h2.2.1.2 (hsub q h1.2.1)
  refine ⟨?_, ?_, ?_⟩
  · rw [UpdateEndpoint_matchesMap]
    exact matchesNonempty_runActs _ _ _ _ h.nonempty
  · intro t e q
    rw [UpdateEndpoint_matchesMap, mem_matchSet_runActs _ _ _ hcons,
      UpdateEndpoint_profilesOf, UpdateEndpoint_tagsOf, add_mem_actsUpdateEndpoint,
      remove_mem_actsUpdateEndpoint, mem_diff_removed]
    have hm := h.matches_iff t e q
    simp only [tagIndex.core, mem_copyOld] at hm ⊢
    rw [hm]
    by_cases he : key = e
    · subst he
      simp only [if_true, true_and]
      constructor
      · rintro ⟨(⟨h1, h2⟩ | ⟨h1, h2⟩), h3⟩
        · refine ⟨?_, h2⟩
          by_contra h4
          exact h3 ⟨⟨h1, h4⟩, h2⟩
        · exact ⟨hsub q h1, h2⟩
      · rintro ⟨h1, h2⟩
        refine ⟨?_, fun h3 => h3.1.2 h1⟩
        by_cases h4 : q ∈ w.1.profilesOf key
        · exact Or.inl ⟨h4, h2⟩
        · refine Or.inr ⟨mem_diff_added_of_new _ _ _ h1 ?_, h2⟩
          simpa [mem_copyOld] using h4
    · have he' : ¬ e = key := fun x => he x.symm
      simp [he, he']
  · intro q e
    rw [UpdateEndpoint_endpointsOf, mem_revAfterUpdate, UpdateEndpoint_profilesOf,
      mem_diff_removed, h.reverse_iff q e]
    simp only [mem_copyOld]
    by_cases he : key = e
    · subst he
      simp only [if_true, and_true]
      constructor
      · rintro ⟨h1 | h1, h3⟩
        · by_contra h4
          exact h3 ⟨h1, h4⟩
        · exact hsub q h1
      · intro h1
        refine ⟨?_, fun h3 => h3.2 h1⟩
        by_cases h4 : q ∈ w.1.profilesOf key
        · exact Or.inl h4
        · refine Or.inr (mem_diff_added_of_new _ _ _ h1 ?_)
          simpa [mem_copyOld] using h4
    · have he' : ¬ e = key := fun x => he x.symm
      simp [he, he']

theorem Inv_run (ord : RangeOrder K) (c : IndexCall K) (w : tagIndex K σ × σ) (h : w.1.Inv) :
    (c.run ord w).1.Inv := by
  cases c with
  | updateProfileTags p tags => exact Inv_UpdateProfileTags ord p tags w h
  | deleteProfileTags p => exact Inv_UpdateProfileTags ord p [] w h
  | updateEndpoint key ps => exact Inv_UpdateEndpoint ord key ps w h
  | deleteEndpoint key => exact Inv_UpdateEndpoint ord key [] w h

theorem Inv_runIndex (calls : List (RangeOrder K × IndexCall K)) (w : tagIndex K σ × σ)
    (h : w.1.Inv) : (runIndex calls w).1.Inv := by
  induction calls generalizing w with
  | nil => exact h
  | cons c tl ih => exact ih _ (Inv_run c.1 c.2 w h)

end Invariant

/-! ## The match index holds exactly the derived matches -/

section MatchesInvariant

variable {K σ : Type} [DecidableEq K]

theorem Inv.entry_iff {idx : tagIndex K σ} (h : idx.Inv) (t : String) (e : K) :
    GoMap.contains idx.matchesMap ⟨t, e⟩ = true ↔
      ∃ p, p ∈ idx.profilesOf e ∧ t ∈ idx.tagsOf p := by
  rw [GoMap.contains_iff]
  constructor
  · rintro ⟨s, hs⟩
    obtain ⟨p, hp⟩ := List.exists_mem_of_ne_nil s (h.nonempty _ s hs)
    refine ⟨p, (h.matches_iff t e p).1 ?_⟩
    simp [matchSet, hs, hp]
  · rintro ⟨p, hp⟩
    have hm := (h.matches_iff t e p).2 hp
    unfold matchSet at hm
    rcases hg : GoMap.get? idx.matchesMap ⟨t, e⟩ with _ | s
    · rw [hg] at hm
      simp at hm
    · exact ⟨s, rfl⟩

theorem Inv.mem_iff {idx : tagIndex K σ} (h : idx.Inv) (t : String) (e : K)
    (s : GoSet String) (hs : GoMap.get? idx.matchesMap ⟨t, e⟩ = some s) (p : String) :
    p ∈ s ↔ p ∈ idx.profilesOf e ∧ t ∈ idx.tagsOf p := by
  rw [← h.matches_iff t e p]
  simp [matchSet, hs]

/-- C1: in the state that any sequence of `UpdateProfileTags`,
`DeleteProfileTags`, `UpdateEndpoint` and `DeleteEndpoint` calls reaches from
`NewIndex`, whatever the arguments and the iteration orders, the match index
has an entry for (t, e) exactly when some profile in the stored profile list
of e has t in its stored tag list, and a stored entry holds exactly those
profiles. -/
theorem matches_entry_iff_derived (onMatchStarted onMatchStopped : MatchCallback K σ) (s0 : σ)
    (calls : List (RangeOrder K × IndexCall K)) (t : String) (e : K) :
    (GoMap.contains (runIndex calls (NewIndex onMatchStarted onMatchStopped, s0)).1.matchesMap
        ⟨t, e⟩ = true ↔
      ∃ p, p ∈ (runIndex calls (NewIndex onMatchStarted onMatchStopped, s0)).1.profilesOf e ∧
        t ∈ (runIndex calls (NewIndex onMatchStarted onMatchStopped, s0)).1.tagsOf p) ∧
    ∀ s, GoMap.get? (runIndex calls (NewIndex onMatchStarted onMatchStopped, s0)).1.matchesMap
        ⟨t, e⟩ = some s →
      ∀ p, p ∈ s ↔
        (p ∈ (runIndex calls (NewIndex onMatchStarted onMatchStopped, s0)).1.profilesOf e ∧
          t ∈ (runIndex calls (NewIndex onMatchStarted onMatchStopped, s0)).1.tagsOf p) := by
  have h : (runIndex calls (NewIndex onMatchStarted onMatchStopped, s0)).1.Inv :=
    Inv_runIndex calls _ (Inv_NewIndex onMatchStarted onMatchStopped)
  exact ⟨Inv.entry_iff h t e, fun s hs p => Inv.mem_iff h t e s hs p⟩

end MatchesInvariant

/-! ## Callbacks of the logged index -/

section Callbacks

variable {K : Type} [DecidableEq K]

theorem rangeOrder_singleton {α : Type} [DecidableEq α] (f : List α → List α) (x : α) :
    rangeOrder f [x] = [x] :=
  List.perm_singleton.1 (rangeOrder_perm f [x] (List.nodup_singleton x))

theorem callbacks_run {σ : Type} (ord : RangeOrder K) (c : IndexCall K) (w : tagIndex K σ × σ) :
    (c.run ord w).1.onMatchStarted = w.1.onMatchStarted ∧
      (c.run ord w).1.onMatchStopped = w.1.onMatchStopped := by
  cases c with
  | updateProfileTags p tags => exact UpdateProfileTags_callbacks ord p tags w
  | deleteProfileTags p => exact UpdateProfileTags_callbacks ord p [] w
  | updateEndpoint key ps => exact UpdateEndpoint_callbacks ord key ps w
  | deleteEndpoint key => exact UpdateEndpoint_callbacks ord key [] w

theorem callbacks_runIndex {σ : Type} (calls : List (RangeOrder K × IndexCall K))
    (w : tagIndex K σ × σ) :
    (runIndex calls w).1.onMatchStarted = w.1.onMatchStarted ∧
      (runIndex calls w).1.onMatchStopped = w.1.onMatchStopped := by
  induction calls generalizing w with
  | nil => exact ⟨rfl, rfl⟩
  | cons c tl ih =>
    have h1 := ih (c.2.run c.1 w)
    have h2 := callbacks_run c.1 c.2 w
    exact ⟨h1.1.trans h2.1, h1.2.trans h2.2⟩

theorem Reachable.inv {idx : tagIndex K (List (MatchEvent K))} (h : idx.Reachable) : idx.Inv := by
  obtain ⟨calls, rfl⟩ := h
  exact Inv_runIndex calls _ (Inv_NewIndex _ _)

theorem Reachable.callbacks {idx : tagIndex K (List (MatchEvent K))} (h : idx.Reachable) :
    idx.onMatchStarted = logStarted ∧ idx.onMatchStopped = logStopped := by
  obtain ⟨calls, rfl⟩ := h
  exact callbacks_runIndex calls _

theorem Reachable.fresh : (freshIndex K).1.Reachable := ⟨[], rfl⟩

theorem step_fst_indep {σ σ' : Type} (onS onT : MatchCallback K σ)
    (onS' onT' : MatchCallback K σ') (a : IndexAct K) (m : GoMap (indexKey K) (GoSet String))
    (s : σ) (s' : σ') :
    (a.step onS onT (m, s)).1 = (a.step onS' onT' (m, s')).1 := by
  cases a with
  | add e t p =>
    rcases h : GoMap.get? m ⟨t, e⟩ with _ | S <;> simp [IndexAct.step, h]
  | remove e t p =>
    by_cases hl : GoSet.len (GoSet.remove ((GoMap.get? m ⟨t, e⟩).getD []) p) = 0 <;>
      simp [IndexAct.step, hl]

/-- The match index after a sequence of elementary updates does not depend on
the callbacks. -/
theorem runActs_fst_indep {σ σ' : Type} (onS onT : MatchCallback K σ)
    (onS' onT' : MatchCallback K σ') (acts : List (IndexAct K))
    (m : GoMap (indexKey K) (GoSet String)) (s : σ) (s' : σ') :
    (runActs onS onT acts (m, s)).1 = (runActs onS' onT' acts (m, s')).1 := by
  induction acts generalizing m s s' with
  | nil => rfl
  | cons a tl ih =>
    rw [runActs_cons, runActs_cons]
    have h := step_fst_indep onS onT onS' onT' a m s s'
    have e1 : a.step onS onT (m, s) = ((a.step onS onT (m, s)).1, (a.step onS onT (m, s)).2) :=
      rfl
    have e2 : a.step onS' onT' (m, s') =
        ((a.step onS' onT' (m, s')).1, (a.step onS' onT' (m, s')).2) := rfl
    rw [e1, e2, h]
    exact ih _ _ _

/-- The state of the index after a call does not depend on the state of the
callbacks. -/
theorem run_fst_indep {σ : Type} (ord : RangeOrder K) (c : IndexCall K) (idx : tagIndex K σ)
    (s s' : σ) : (c.run ord (idx, s)).1 = (c.run ord (idx, s')).1 := by
  cases c with
  | updateProfileTags p tags =>
    simp only [IndexCall.run, UpdateProfileTags_eq, tagIndex.setCore, tagIndex.core]
    rw [runActs_fst_indep _ _ idx.onMatchStarted idx.onMatchStopped _ _ s s']
  | deleteProfileTags p =>
    simp only [IndexCall.run, tagIndex.DeleteProfileTags, UpdateProfileTags_eq,
      tagIndex.setCore, tagIndex.core]
    rw [runActs_fst_indep _ _ idx.onMatchStarted idx.onMatchStopped _ _ s s']
  | updateEndpoint key ps =>
    simp only [IndexCall.run, UpdateEndpoint_eq, tagIndex.setCore, tagIndex.core]
    rw [runActs_fst_indep _ _ idx.onMatchStarted idx.onMatchStopped _ _ s s']
  | deleteEndpoint key =>
    simp only [IndexCall.run, tagIndex.DeleteEndpoint, UpdateEndpoint_eq, tagIndex.setCore,
      tagIndex.core]
    rw [runActs_fst_indep _ _ idx.onMatchStarted idx.onMatchStopped _ _ s s']

theorem Reachable.step {idx : tagIndex K (List (MatchEvent K))} (h : idx.Reachable)
    (ord : RangeOrder K) (c : IndexCall K) (log : List (MatchEvent K)) :
    (c.run ord (idx, log)).1.Reachable := by
  obtain ⟨calls, rfl⟩ := h
  refine ⟨calls ++ [(ord, c)], ?_⟩
  simp only [runIndex, List.foldl_append, List.foldl_cons, List.foldl_nil]
  exact run_fst_indep ord c _ _ _

end Callbacks

/-! ## Rename without flap -/

section Rename

variable {K : Type} [DecidableEq K]

theorem adds_keep_quiet (t : String) (e : K) (acts : List (IndexAct K))
    (hadds : ∀ a ∈ acts, ∃ e' t' p', a = IndexAct.add e' t' p')
    (c : GoMap (indexKey K) (GoSet String) × List (MatchEvent K))
    (hc : GoMap.contains c.1 ⟨t, e⟩ = true)
    (hlog : MatchEvent.started e t ∉ c.2 ∧ MatchEvent.stopped e t ∉ c.2) :
    GoMap.contains (runActs logStarted logStopped acts c).1 ⟨t, e⟩ = true ∧
      MatchEvent.started e t ∉ (runActs logStarted logStopped acts c).2 ∧
      MatchEvent.stopped e t ∉ (runActs logStarted logStopped acts c).2 := by
  induction acts generalizing c with
  | nil => exact ⟨hc, hlog⟩
  | cons a tl ih =>
    rw [runActs_cons]
    obtain ⟨e', t', p', rfl⟩ := hadds a (List.mem_cons_self _ _)
    apply ih (fun a ha => hadds a (List.mem_cons_of_mem _ ha))
    · rw [GoMap.contains, step_add_get?]
      by_cases hk : (⟨t', e'⟩ : indexKey K) = ⟨t, e⟩
      · simp [hk]
      · simpa [hk, GoMap.contains] using hc
    · rw [step_add_snd]
      by_cases hk : GoMap.contains c.1 ⟨t', e'⟩ = true
      · simpa [hk] using hlog
      · have hne : ¬ (e = e' ∧ t = t') := by
          rintro ⟨rfl, rfl⟩
          exact hk hc
        simp only [hk, logStarted, List.mem_append, List.mem_singleton,
          MatchEvent.started.injEq, reduceCtorEq, or_false, Bool.false_eq_true, if_false]
        exact ⟨fun h => h.elim hlog.1 hne, hlog.2⟩

theorem removes_keep_quiet (t : String) (e : K) (q : String) (acts : List (IndexAct K))
    (hrem : ∀ a ∈ acts, ∃ e' t' p', a = IndexAct.remove e' t' p' ∧ ¬ (t = t' ∧ e = e' ∧ q = p'))
    (c : GoMap (indexKey K) (GoSet String) × List (MatchEvent K))
    (hq : q ∈ matchSet c.1 t e)
    (hlog : MatchEvent.started e t ∉ c.2 ∧ MatchEvent.stopped e t ∉ c.2) :
    q ∈ matchSet (runActs logStarted logStopped acts c).1 t e ∧
      MatchEvent.started e t ∉ (runActs logStarted logStopped acts c).2 ∧
      MatchEvent.stopped e t ∉ (runActs logStarted logStopped acts c).2 := by
  induction acts generalizing c with
  | nil => exact ⟨hq, hlog⟩
  | cons a tl ih =>
    rw [runActs_cons]
    obtain ⟨e', t', p', rfl, hne⟩ := hrem a (List.mem_cons_self _ _)
    apply ih (fun a ha => hrem a (List.mem_cons_of_mem _ ha))
    · rw [mem_matchSet_step_remove]
      exact ⟨hq, hne⟩
    · rw [step_remove_snd]
      by_cases hr : GoSet.remove (matchSet c.1 t' e') p' = []
      · have hne' : ¬ (e = e' ∧ t = t') := by
          rintro ⟨rfl, rfl⟩
          have : q ∈ GoSet.remove (matchSet c.1 t e) p' :=
            (GoSet.mem_remove _ _ _).2 ⟨hq, fun h => hne ⟨rfl, rfl, h⟩⟩
          rw [hr] at this
          simp at this
        simp only [hr, if_true, logStopped, List.mem_append, List.mem_singleton,
          MatchEvent.stopped.injEq, reduceCtorEq, or_false]
        exact ⟨hlog.1, fun h => h.elim hlog.2 hne'⟩
      · simpa [hr] using hlog

/-- C6: in every reachable state of the index, a call `UpdateEndpoint(e,
newProfiles)` emits neither `onMatchStarted(e, t)` nor `onMatchStopped(e, t)`
for a tag t that some stored profile of e carries before the call and some
stored profile of e carries after it. -/
theorem rename_without_flap (idx : tagIndex K (List (MatchEvent K))) (hr : idx.Reachable)
    (ord : RangeOrder K) (e : K) (newProfiles : List String) (t : String)
    (hbefore : ∃ p, p ∈ idx.profilesOf e ∧ t ∈ idx.tagsOf p)
    (hafter : ∃ p,
      p ∈ ((IndexCall.updateEndpoint e newProfiles).run ord (idx, [])).1.profilesOf e ∧
      t ∈ ((IndexCall.updateEndpoint e newProfiles).run ord (idx, [])).1.tagsOf p) :
    MatchEvent.started e t ∉ (IndexCall.updateEndpoint e newProfiles).events ord idx ∧
      MatchEvent.stopped e t ∉ (IndexCall.updateEndpoint e newProfiles).events ord idx := by
  have hinv := Reachable.inv hr
  obtain ⟨hS, hT⟩ := Reachable.callbacks hr
  obtain ⟨q, hq1, hq2⟩ := hafter
  simp only [IndexCall.run, UpdateEndpoint_profilesOf, UpdateEndpoint_tagsOf, if_true] at hq1 hq2
  simp only [IndexCall.events, IndexCall.run, UpdateEndpoint_snd, hS, hT, tagIndex.core]
  unfold actsUpdateEndpoint
  simp only []
  rw [runActs_append]
  have hadds : ∀ a ∈ (rangeOrder (ord.strs e)
      (newProfiles.foldl diffStep (copyOld (idx.profilesOf e), [])).2).flatMap
        (fun id => (idx.tagsOf id).map (fun tag => IndexAct.add e tag id)),
      ∃ e' t' p', a = IndexAct.add e' t' p' := by
    intro a ha
    simp only [List.mem_flatMap, List.mem_map] at ha
    obtain ⟨id, _, tag, _, rfl⟩ := ha
    exact ⟨e, tag, id, rfl⟩
  have hrem : ∀ a ∈ (rangeOrder (ord.strs e)
      (newProfiles.foldl diffStep (copyOld (idx.profilesOf e), [])).1).flatMap
        (fun id => (idx.tagsOf id).map (fun tag => IndexAct.remove e tag id)),
      ∃ e' t' p', a = IndexAct.remove e' t' p' ∧ ¬ (t = t' ∧ e = e' ∧ q = p') := by
    intro a ha
    simp only [List.mem_flatMap, List.mem_map, mem_rangeOrder, mem_diff_removed] at ha
    obtain ⟨id, hid, tag, _, rfl⟩ := ha
    refine ⟨e, tag, id, rfl, ?_⟩
    rintro ⟨_, _, rfl⟩
    exact hid.2 hq1
  have h1 := adds_keep_quiet t e _ hadds (idx.matchesMap, [])
    ((Inv.entry_iff hinv t e).2 hbefore) (by simp)
  have hq : q ∈ matchSet (runActs logStarted logStopped
      ((rangeOrder (ord.strs e)
        (newProfiles.foldl diffStep (copyOld (idx.profilesOf e), [])).2).flatMap
          (fun id => (idx.tagsOf id).map (fun tag => IndexAct.add e tag id)))
      (idx.matchesMap, [])).1 t e := by
    rw [mem_matchSet_runActs]
    · refine ⟨?_, ?_⟩
      · by_cases hold : q ∈ idx.profilesOf e
        · exact Or.inl ((hinv.matches_iff t e q).2 ⟨hold, hq2⟩)
        · refine Or.inr ?_
          simp only [List.mem_flatMap, List.mem_map, mem_rangeOrder]
          refine ⟨q, mem_diff_added_of_new _ _ _ hq1 ?_, t, hq2, rfl⟩
          simpa [mem_copyOld] using hold
      · intro h
        obtain ⟨_, _, _, h'⟩ := hadds _ h
        cases h'
    · intro e' t' p' _ h
      obtain ⟨_, _, _, h'⟩ := hadds _ h
      cases h'
  exact (removes_keep_quiet t e q _ hrem _ hq h1.2).2

end Rename

/-- C6, the rename scenario: endpoint 0 is bound only to profile "A" with tag
"web", profile "B" also has tag "web", and `UpdateEndpoint(0, ["B"])` emits no
callback for (0, "web"). -/
theorem rename_without_flap_witness :
    renameState.Reachable ∧
    (∃ p, p ∈ renameState.profilesOf 0 ∧ "web" ∈ renameState.tagsOf p) ∧
    (∃ p, p ∈ ((IndexCall.updateEndpoint 0 ["B"]).run (RangeOrder.insertion Nat)
          (renameState, [])).1.profilesOf 0 ∧
      "web" ∈ ((IndexCall.updateEndpoint 0 ["B"]).run (RangeOrder.insertion Nat)
          (renameState, [])).1.tagsOf p) ∧
    MatchEvent.started 0 "web" ∉
      (IndexCall.updateEndpoint 0 ["B"]).events (RangeOrder.insertion Nat) renameState ∧
    MatchEvent.stopped 0 "web" ∉
      (IndexCall.updateEndpoint 0 ["B"]).events (RangeOrder.insertion Nat) renameState :=
  ⟨⟨_, rfl⟩, ⟨"A", by decide, by decide⟩, ⟨"B", by decide, by decide⟩,
    rename_without_flap renameState ⟨_, rfl⟩ (RangeOrder.insertion Nat) 0 ["B"] "web"
      ⟨"A", by decide, by decide⟩ ⟨"B", by decide, by decide⟩⟩

/-! ## Idempotent replace -/

section Idempotent

variable {K : Type} [DecidableEq K]

/-- Adding profiles that the match index already holds changes nothing and
fires nothing. -/
theorem runActs_noop {σ : Type} (onS onT : MatchCallback K σ) (acts : List (IndexAct K))
    (c : GoMap (indexKey K) (GoSet String) × σ)
    (h : ∀ a ∈ acts, ∃ e t p, a = IndexAct.add e t p ∧ p ∈ matchSet c.1 t e) :
    runActs onS onT acts c = c := by
  induction acts with
  | nil => rfl
  | cons a tl ih =>
    rw [runActs_cons]
    obtain ⟨e, t, p, rfl, hp⟩ := h a (List.mem_cons_self _ _)
    have hstep : (IndexAct.add e t p).step onS onT c = c := by
      unfold matchSet at hp
      rcases hg : GoMap.get? c.1 ⟨t, e⟩ with _ | S
      · rw [hg] at hp
        simp at hp
      · rw [hg] at hp
        simp only [IndexAct.step, hg]
        rw [GoSet.add_eq_self S p (by simpa using hp), GoMap.put_eq_self _ _ _ hg]
    rw [hstep]
    exact ih (fun a ha => h a (List.mem_cons_of_mem _ ha))

theorem UpdateProfileTags_get? {σ : Type} (ord : RangeOrder K) (p : String)
    (tags : List String) (w : tagIndex K σ × σ) :
    GoMap.get? (tagIndex.UpdateProfileTags ord p tags w).1.profileIDToTags p =
      if tags.length > 0 then some tags else none := by
  rw [UpdateProfileTags_eq]
  by_cases h : tags.length > 0 <;> simp [h]

/-- C10: in every reachable state of the index, for every profile and tag list,
a second `UpdateProfileTags(p, tags)` right after a first one emits no callback
and leaves the state as the first call left it. -/
theorem idempotent_replace (idx : tagIndex K (List (MatchEvent K))) (hr : idx.Reachable)
    (ord1 ord2 : RangeOrder K) (p : String) (tags : List String) :
    (IndexCall.updateProfileTags p tags).events ord2
        ((IndexCall.updateProfileTags p tags).run ord1 (idx, [])).1 = [] ∧
    ((IndexCall.updateProfileTags p tags).run ord2
        (((IndexCall.updateProfileTags p tags).run ord1 (idx, [])).1, [])).1 =
      ((IndexCall.updateProfileTags p tags).run ord1 (idx, [])).1 := by
  have hinv := Reachable.inv (Reachable.step hr ord1 (IndexCall.updateProfileTags p tags) [])
  have htags : ((IndexCall.updateProfileTags p tags).run ord1 (idx, [])).1.tagsOf p = tags := by
    have := UpdateProfileTags_tagsOf ord1 p tags (idx, []) p
    simpa [IndexCall.run] using this
  have hget : GoMap.get?
      ((IndexCall.updateProfileTags p tags).run ord1 (idx, [])).1.profileIDToTags p =
      if tags.length > 0 then some tags else none :=
    UpdateProfileTags_get? ord1 p tags (idx, [])
  generalize ((IndexCall.updateProfileTags p tags).run ord1 (idx, [])).1 = s1
    at hinv htags hget ⊢
  have hnoop : ∀ a ∈ actsUpdateProfileTags ord2 p tags s1,
      ∃ e t q, a = IndexAct.add e t q ∧ q ∈ matchSet (tagIndex.core (s1, ([] : List (MatchEvent K)))).1 t e := by
    intro a ha
    cases a with
    | add e t q =>
      rw [add_mem_actsUpdateProfileTags] at ha
      obtain ⟨rfl, he, ht⟩ := ha
      refine ⟨e, t, q, rfl, (hinv.matches_iff t e q).2 ⟨(hinv.reverse_iff q e).1 he, ?_⟩⟩
      rw [htags]
      rcases mem_diff_added_sub _ _ _ ht with h5 | h5
      · simp at h5
      · exact h5
    | remove e t q =>
      rw [remove_mem_actsUpdateProfileTags, mem_diff_removed] at ha
      obtain ⟨rfl, _, h1, h2⟩ := ha
      rw [htags] at h1
      exact absurd ((mem_copyOld _ _).1 h1) h2
  have hrun := runActs_noop s1.onMatchStarted s1.onMatchStopped _ _ hnoop
  refine ⟨?_, ?_⟩
  · simp only [IndexCall.events, IndexCall.run, UpdateProfileTags_snd]
    rw [hrun]
    rfl
  · simp only [IndexCall.run, UpdateProfileTags_eq]
    rw [hrun]
    by_cases hl : tags.length > 0
    · simp only [hl, if_true] at hget ⊢
      rw [GoMap.put_eq_self _ _ _ hget]
      rfl
    · simp only [hl, if_false] at hget ⊢
      rw [GoMap.delete_eq_self _ _ hget]
      rfl

end Idempotent

/-- C10, on the state of the rename scenario: the tag list of profile "A",
which endpoint 0 is bound to, is replaced twice by a list with a repeated tag. -/
theorem idempotent_replace_witness :
    renameState.Reachable ∧
    (IndexCall.updateProfileTags "A" ["web", "web", "x"]).events (RangeOrder.insertion Nat)
        ((IndexCall.updateProfileTags "A" ["web", "web", "x"]).run (RangeOrder.insertion Nat)
          (renameState, [])).1 = [] ∧
    ((IndexCall.updateProfileTags "A" ["web", "web", "x"]).run (RangeOrder.insertion Nat)
        (((IndexCall.updateProfileTags "A" ["web", "web", "x"]).run (RangeOrder.insertion Nat)
          (renameState, [])).1, [])).1 =
      ((IndexCall.updateProfileTags "A" ["web", "web", "x"]).run (RangeOrder.insertion Nat)
        (renameState, [])).1 :=
  ⟨⟨_, rfl⟩, idempotent_replace renameState ⟨_, rfl⟩ (RangeOrder.insertion Nat)
    (RangeOrder.insertion Nat) "A" ["web", "web", "x"]⟩

/-! ## Repeated elements in a tag list or a profile list -/

/-- C2, at the failing input: on a fresh index, `UpdateProfileTags("p", ["a",
"a"])`, `UpdateEndpoint(0, ["p"])`, `DeleteEndpoint(0)` emit, whatever the
iteration orders, `onMatchStarted(0, "a")` once and then `onMatchStopped(0,
"a")` twice in a row. -/
theorem double_stop_on_repeated_tag (o1 o2 o3 : RangeOrder Nat) :
    (runIndex
      [(o1, IndexCall.updateProfileTags "p" ["a", "a"]),
       (o2, IndexCall.updateEndpoint 0 ["p"]),
       (o3, IndexCall.deleteEndpoint 0)] (freshIndex Nat)).2 =
    [MatchEvent.started 0 "a", MatchEvent.stopped 0 "a", MatchEvent.stopped 0 "a"] := by
  simp only [runIndex, List.foldl_cons, List.foldl_nil, IndexCall.run, freshIndex, NewIndex,
    tagIndex.DeleteEndpoint, tagIndex.UpdateProfileTags, tagIndex.UpdateEndpoint,
    EndpointKeyToProfileIDMap.Update]
  simp [GoMap.get?, GoMap.put, GoMap.delete, copyOld, diffStep, GoSet.has, GoSet.add,
    GoSet.remove, rangeOrder_singleton, tagIndex.addProfileID, tagIndex.removeProfileID,
    tagIndex.addToIndex, tagIndex.removeFromIndex, GoMap.contains, GoSet.len, logStarted,
    logStopped]

/-- C9, at the failing input: with old list ["a"] and new list ["a", "a"], the
diff of `Update`, and the same two loops as `UpdateProfileTags` runs them,
give an empty removed set and the added set {"a"}, although "a" occurs in both
lists. -/
theorem diff_adds_repeated_kept_element :
    (EndpointKeyToProfileIDMap.Update
      (EndpointKeyToProfileIDMap.Update (⟨[]⟩ : EndpointKeyToProfileIDMap Nat) 0 ["a"]).2 0
        ["a", "a"]).1 = ([], ["a"]) ∧
    ["a", "a"].foldl diffStep (copyOld ["a"], []) = ([], ["a"]) := by
  constructor <;> decide

/-! ## Multimaps -/

section MultidictLemmas

variable {κ ν : Type} [DecidableEq κ] [DecidableEq ν]

theorem Multidict.get?_Put (md : Multidict κ ν) (k k' : κ) (v : ν) :
    GoMap.get? (Multidict.Put md k v) k' =
      if k = k' then some (GoSet.add ((GoMap.get? md k).getD []) v) else GoMap.get? md k' := by
  unfold Multidict.Put
  rw [GoMap.get?_put]

theorem Multidict.get?_Discard (md : Multidict κ ν) (k k' : κ) (v : ν) :
    GoMap.get? (Multidict.Discard md k v) k' =
      if k = k' then
        (if GoSet.remove ((GoMap.get? md k).getD []) v = [] then none
          else some (GoSet.remove ((GoMap.get? md k).getD []) v))
      else GoMap.get? md k' := by
  unfold Multidict.Discard
  rcases h : GoMap.get? md k with _ | S
  · by_cases hk : k = k'
    · subst hk
      simp [h, GoSet.remove]
    · simp [hk]
  · by_cases hl : GoSet.len (GoSet.remove S v) = 0
    · have hl' := (GoSet.len_eq_zero _).1 hl
      simp only [hl', GoSet.len, List.length_nil, if_true, GoMap.get?_delete,
        Option.getD_some]
    · have hl' : ¬ GoSet.remove S v = [] := fun h => hl ((GoSet.len_eq_zero _).2 h)
      simp only [hl, if_false, GoMap.get?_put, Option.getD_some, hl']

theorem Multidict.mem_Put (md : Multidict κ ν) (k k' : κ) (v x : ν) :
    x ∈ (GoMap.get? (Multidict.Put md k v) k').getD [] ↔
      x ∈ (GoMap.get? md k').getD [] ∨ (k' = k ∧ x = v) := by
  rw [Multidict.get?_Put]
  by_cases hk : k = k'
  · subst hk
    simp
  · have hk' : ¬ k' = k := fun h => hk h.symm
    simp [hk, hk']

theorem Multidict.mem_Discard (md : Multidict κ ν) (k k' : κ) (v x : ν) :
    x ∈ (GoMap.get? (Multidict.Discard md k v) k').getD [] ↔
      x ∈ (GoMap.get? md k').getD [] ∧ ¬ (k' = k ∧ x = v) := by
  rw [Multidict.get?_Discard]
  by_cases hk : k = k'
  · subst hk
    have hq : (¬ (k = k ∧ x = v)) ↔ x ≠ v := by simp
    rw [if_pos rfl, hq, ← GoSet.mem_remove]
    by_cases hr : GoSet.remove ((GoMap.get? md k).getD []) v = [] <;> simp [hr]
  · have hk' : ¬ k' = k := fun h => hk h.symm
    simp [hk, hk']

omit [DecidableEq ν] in
theorem Multidict.WF_nil : Multidict.WF ([] : Multidict κ ν) := by
  intro k s h
  simp at h

theorem Multidict.WF_Put (md : Multidict κ ν) (k : κ) (v : ν) (h : Multidict.WF md) :
    Multidict.WF (Multidict.Put md k v) := by
  intro k' s hs
  rw [Multidict.get?_Put] at hs
  by_cases hk : k = k'
  · simp only [hk, if_true, Option.some.injEq] at hs
    rw [← hs]
    exact GoSet.add_ne_nil _ _
  · simp only [hk, if_false] at hs
    exact h k' s hs

theorem Multidict.WF_Discard (md : Multidict κ ν) (k : κ) (v : ν) (h : Multidict.WF md) :
    Multidict.WF (Multidict.Discard md k v) := by
  intro k' s hs
  rw [Multidict.get?_Discard] at hs
  by_cases hk : k = k'
  · simp only [hk, if_true] at hs
    by_cases hr : GoSet.remove ((GoMap.get? md k').getD []) v = []
    · simp [hr] at hs
    · simp only [hr, if_false, Option.some.injEq] at hs
      rw [← hs]
      exact hr
  · simp only [hk, if_false] at hs
    exact h k' s hs

omit [DecidableEq ν] in
/-- In a well-formed multimap a key is present exactly when it has a value. -/
theorem Multidict.ContainsKey_iff (md : Multidict κ ν) (h : Multidict.WF md) (k : κ) :
    Multidict.ContainsKey md k = true ↔ ∃ x, x ∈ (GoMap.get? md k).getD [] := by
  unfold Multidict.ContainsKey
  rw [GoMap.contains_iff]
  constructor
  · rintro ⟨s, hs⟩
    obtain ⟨x, hx⟩ := List.exists_mem_of_ne_nil s (h k s hs)
    exact ⟨x, by simp [hs, hx]⟩
  · rintro ⟨x, hx⟩
    rcases hg : GoMap.get? md k with _ | s
    · rw [hg] at hx
      simp at hx
    · exact ⟨s, rfl⟩

end MultidictLemmas

/-! ## Elementary updates of the calculator's index -/

section CalcCore

variable {K A τ : Type} [DecidableEq K] [DecidableEq A]

theorem Multidict.Discard_nil (ip : A) (key : K) :
    Multidict.Discard ([] : IfaceToIface A K) ip key = [] := rfl

theorem Multidict.eq_nil_of_Len {κ ν : Type} (md : Multidict κ ν) (h : Multidict.Len md = 0) :
    md = [] := by
  cases md with
  | nil => rfl
  | cons a tl => simp [Multidict.Len, GoMap.len] at h

theorem membersIn_step_ensure (onA onR : String → A → τ → τ) (s : String)
    (c : GoMap String (IfaceToIface A K) × τ) (s' : String) :
    membersIn ((CalcAct.ensure s : CalcAct K A).step onA onR c).1 s' = membersIn c.1 s' := by
  unfold membersIn
  simp only [CalcAct.step]
  by_cases hc : GoMap.contains c.1 s = true
  · simp [hc]
  · simp only [hc]
    by_cases hs : s = s'
    · subst hs
      have : GoMap.get? c.1 s = none := by
        simpa [GoMap.contains] using hc
      simp [this]
    · have hp := GoMap.get?_put_of_ne c.1 ([] : IfaceToIface A K) hs
      simp only [Bool.false_eq_true, if_false]
      rw [hp]

theorem membersIn_step_add (onA onR : String → A → τ → τ) (s : String) (key : K) (ip : A)
    (c : GoMap String (IfaceToIface A K) × τ) (s' : String) :
    membersIn ((CalcAct.add s key ip).step onA onR c).1 s' =
      if s = s' then Multidict.Put (membersIn c.1 s) ip key else membersIn c.1 s' := by
  unfold membersIn
  simp only [CalcAct.step, GoMap.get?_put]
  by_cases hs : s = s' <;> simp [hs]

theorem membersIn_step_remove (onA onR : String → A → τ → τ) (s : String) (key : K) (ip : A)
    (c : GoMap String (IfaceToIface A K) × τ) (s' : String) :
    membersIn ((CalcAct.remove s key ip).step onA onR c).1 s' =
      if s = s' then Multidict.Discard (membersIn c.1 s) ip key else membersIn c.1 s' := by
  have hstored : ∀ s', ((GoMap.get?
      (if GoMap.contains c.1 s = true then
        GoMap.put c.1 s (Multidict.Discard ((GoMap.get? c.1 s).getD []) ip key)
      else c.1) s').getD [] : IfaceToIface A K) =
      if s = s' then Multidict.Discard ((GoMap.get? c.1 s).getD []) ip key
      else (GoMap.get? c.1 s').getD [] := by
    intro s'
    by_cases hc : GoMap.contains c.1 s = true
    · simp only [hc, if_true, GoMap.get?_put]
      by_cases hs : s = s' <;> simp [hs]
    · have hn : GoMap.get? c.1 s = none := by
        simpa [GoMap.contains] using hc
      by_cases hs : s = s'
      · subst hs
        simp [hc, hn, Multidict.Discard_nil]
      · simp [hc, hs]
  unfold membersIn
  simp only [CalcAct.step]
  by_cases hk : Multidict.ContainsKey
      (Multidict.Discard ((GoMap.get? c.1 s).getD []) ip key) ip = true
  · simp only [hk, if_true]
    exact hstored s'
  · simp only [hk, Bool.false_eq_true, if_false]
    by_cases hl : Multidict.Len (Multidict.Discard ((GoMap.get? c.1 s).getD []) ip key) = 0
    · simp only [hl, if_true]
      by_cases hs : s = s'
      · subst hs
        simp [Multidict.eq_nil_of_Len _ hl]
      · simp only [hs, if_false]
        rw [GoMap.get?_delete_of_ne _ hs]
        have := hstored s'
        simpa [hs] using this
    · simp only [hl, if_false]
      exact hstored s'

theorem mem_contrib_step_ensure (onA onR : String → A → τ → τ) (s : String)
    (c : GoMap String (IfaceToIface A K) × τ) (s' : String) (ip' : A) (e' : K) :
    e' ∈ contrib ((CalcAct.ensure s : CalcAct K A).step onA onR c).1 s' ip' ↔
      e' ∈ contrib c.1 s' ip' := by
  unfold contrib
  rw [membersIn_step_ensure]

theorem mem_contrib_step_add (onA onR : String → A → τ → τ) (s : String) (key : K) (ip : A)
    (c : GoMap String (IfaceToIface A K) × τ) (s' : String) (ip' : A) (e' : K) :
    e' ∈ contrib ((CalcAct.add s key ip).step onA onR c).1 s' ip' ↔
      e' ∈ contrib c.1 s' ip' ∨ (s' = s ∧ ip' = ip ∧ e' = key) := by
  unfold contrib
  rw [membersIn_step_add]
  by_cases hs : s = s'
  · subst hs
    simp [Multidict.mem_Put]
  · have hs' : ¬ s' = s := fun h => hs h.symm
    simp [hs, hs']

theorem mem_contrib_step_remove (onA onR : String → A → τ → τ) (s : String) (key : K) (ip : A)
    (c : GoMap String (IfaceToIface A K) × τ) (s' : String) (ip' : A) (e' : K) :
    e' ∈ contrib ((CalcAct.remove s key ip).step onA onR c).1 s' ip' ↔
      e' ∈ contrib c.1 s' ip' ∧ ¬ (s' = s ∧ ip' = ip ∧ e' = key) := by
  unfold contrib
  rw [membersIn_step_remove]
  by_cases hs : s = s'
  · subst hs
    simp [Multidict.mem_Discard]
  · have hs' : ¬ s' = s := fun h => hs h.symm
    simp [hs, hs']

theorem MembersWF_step (onA onR : String → A → τ → τ) (a : CalcAct K A)
    (c : GoMap String (IfaceToIface A K) × τ) (h : MembersWF c.1) :
    MembersWF (a.step onA onR c).1 := by
  intro s'
  cases a with
  | ensure s =>
    rw [membersIn_step_ensure]
    exact h s'
  | add s key ip =>
    rw [membersIn_step_add]
    by_cases hs : s = s'
    · simp only [hs, if_true]
      exact Multidict.WF_Put _ _ _ (h s')
    · simp only [hs, if_false]
      exact h s'
  | remove s key ip =>
    rw [membersIn_step_remove]
    by_cases hs : s = s'
    · simp only [hs, if_true]
      exact Multidict.WF_Discard _ _ _ (h s')
    · simp only [hs, if_false]
      exact h s'

theorem runCalcActs_cons (onA onR : String → A → τ → τ) (a : CalcAct K A)
    (acts : List (CalcAct K A)) (c : GoMap String (IfaceToIface A K) × τ) :
    runCalcActs onA onR (a :: acts) c = runCalcActs onA onR acts (a.step onA onR c) := rfl

theorem runCalcActs_append (onA onR : String → A → τ → τ) (acts acts' : List (CalcAct K A))
    (c : GoMap String (IfaceToIface A K) × τ) :
    runCalcActs onA onR (acts ++ acts') c =
      runCalcActs onA onR acts' (runCalcActs onA onR acts c) := by
  simp [runCalcActs, List.foldl_append]

theorem MembersWF_runCalcActs (onA onR : String → A → τ → τ) (acts : List (CalcAct K A))
    (c : GoMap String (IfaceToIface A K) × τ) (h : MembersWF c.1) :
    MembersWF (runCalcActs onA onR acts c).1 := by
  induction acts generalizing c with
  | nil => exact h
  | cons a tl ih => exact ih _ (MembersWF_step onA onR a c h)

/-- The recorded endpoints after a sequence of elementary updates in which
nothing is both added and removed. -/
theorem mem_contrib_runCalcActs (onA onR : String → A → τ → τ) (acts : List (CalcAct K A))
    (hcons : ∀ s e ip, CalcAct.add s e ip ∈ acts → CalcAct.remove s e ip ∉ acts)
    (c : GoMap String (IfaceToIface A K) × τ) (s : String) (ip : A) (e : K) :
    e ∈ contrib (runCalcActs onA onR acts c).1 s ip ↔
      (e ∈ contrib c.1 s ip ∨ CalcAct.add s e ip ∈ acts) ∧ CalcAct.remove s e ip ∉ acts := by
  induction acts generalizing c with
  | nil => simp [runCalcActs]
  | cons a tl ih =>
    have hcons' : ∀ s e ip, CalcAct.add s e ip ∈ tl → CalcAct.remove s e ip ∉ tl :=
      fun s e ip h1 h2 => hcons s e ip (List.mem_cons_of_mem _ h1) (List.mem_cons_of_mem _ h2)
    rw [runCalcActs_cons, ih hcons']
    cases a with
    | ensure s0 =>
      rw [mem_contrib_step_ensure]
      simp only [List.mem_cons, reduceCtorEq, false_or]
    | add s0 e0 ip0 =>
      rw [mem_contrib_step_add]
      simp only [List.mem_cons, CalcAct.add.injEq, false_or, reduceCtorEq]
      constructor
      · rintro ⟨(h1 | ⟨rfl, rfl, rfl⟩) | h1, h2⟩
        · exact ⟨Or.inl h1, h2⟩
        · exact ⟨Or.inr (Or.inl ⟨rfl, rfl, rfl⟩), h2⟩
        · exact ⟨Or.inr (Or.inr h1), h2⟩
      · rintro ⟨h1 | ⟨rfl, rfl, rfl⟩ | h1, h2⟩
        · exact ⟨Or.inl (Or.inl h1), h2⟩
        · exact ⟨Or.inl (Or.inr ⟨rfl, rfl, rfl⟩), h2⟩
        · exact ⟨Or.inr h1, h2⟩
    | remove s0 e0 ip0 =>
      rw [mem_contrib_step_remove]
      simp only [List.mem_cons, CalcAct.remove.injEq, false_or, reduceCtorEq, not_or]
      constructor
      · rintro ⟨⟨h1, h3⟩ | h1, h2⟩
        · exact ⟨Or.inl h1, fun h => h3 ⟨h.1, h.2.2, h.2.1⟩, h2⟩
        · refine ⟨Or.inr h1, ?_, h2⟩
          rintro ⟨rfl, rfl, rfl⟩
          exact hcons s e ip (List.mem_cons_of_mem _ h1) (List.mem_cons_self _ _)
      · rintro ⟨h1 | h1, h3, h2⟩
        · exact ⟨Or.inl ⟨h1, fun h => h3 ⟨h.1, h.2.2, h.2.1⟩⟩, h2⟩
        · exact ⟨Or.inr h1, h2⟩

end CalcCore

/-! ## The methods of the calculator as sequences of elementary updates -/

section CalcFactoring

variable {K A τ : Type} [DecidableEq K] [DecidableEq A]

theorem foldl_calc_blocks {β : Type} (l : List β) (f : β → List (CalcAct K A))
    (g : β → IpsetCalculator K A τ × τ → IpsetCalculator K A τ × τ)
    (hg : ∀ x w, g x w = IpsetCalculator.setCore w
      (runCalcActs w.1.OnIPAdded w.1.OnIPRemoved (f x) (IpsetCalculator.core w)))
    (w : IpsetCalculator K A τ × τ) :
    l.foldl (fun w x => g x w) w = IpsetCalculator.setCore w
      (runCalcActs w.1.OnIPAdded w.1.OnIPRemoved (l.flatMap f) (IpsetCalculator.core w)) := by
  induction l generalizing w with
  | nil => rfl
  | cons x tl ih =>
    rw [List.foldl_cons, ih, hg, List.flatMap_cons, runCalcActs_append]
    rfl

theorem flatMap_singleton_eq_map {α β : Type} (l : List α) (f : α → β) :
    l.flatMap (fun x => [f x]) = l.map f := by
  induction l with
  | nil => rfl
  | cons a tl ih => simp [List.flatMap_cons, ih]

theorem addMatchToIndex_eq (s : String) (key : K) (ips : List A)
    (w : IpsetCalculator K A τ × τ) :
    IpsetCalculator.addMatchToIndex s key ips w = IpsetCalculator.setCore w
      (runCalcActs w.1.OnIPAdded w.1.OnIPRemoved
        (CalcAct.ensure s :: ips.map (fun ip => CalcAct.add s key ip))
        (IpsetCalculator.core w)) := by
  unfold IpsetCalculator.addMatchToIndex
  simp only []
  refine Eq.trans (foldl_calc_blocks ips (fun ip => [CalcAct.add s key ip]) _
    (fun x w => rfl) _) ?_
  rw [flatMap_singleton_eq_map, runCalcActs_cons]
  by_cases hc : GoMap.contains w.1.ipSetIDToIPToKey s = true
  · simp only [hc, if_true, CalcAct.step, IpsetCalculator.core]
  · simp only [hc, CalcAct.step, IpsetCalculator.core]
    rfl

theorem removeMatchFromIndex_eq (s : String) (key : K) (ips : List A)
    (w : IpsetCalculator K A τ × τ) :
    IpsetCalculator.removeMatchFromIndex s key ips w = IpsetCalculator.setCore w
      (runCalcActs w.1.OnIPAdded w.1.OnIPRemoved
        (ips.map (fun ip => CalcAct.remove s key ip)) (IpsetCalculator.core w)) := by
  unfold IpsetCalculator.removeMatchFromIndex
  rw [← flatMap_singleton_eq_map]
  apply foldl_calc_blocks ips (fun ip => [CalcAct.remove s key ip])
  intro ip w
  by_cases hk : Multidict.ContainsKey
      (Multidict.Discard ((GoMap.get? w.1.ipSetIDToIPToKey s).getD []) ip key) ip = true
  · simp only [hk, if_true, runCalcActs, List.foldl_cons, List.foldl_nil, CalcAct.step,
      IpsetCalculator.core]
    rfl
  · simp only [hk, runCalcActs, List.foldl_cons, List.foldl_nil, CalcAct.step,
      IpsetCalculator.core, Bool.false_eq_true, if_false]
    rfl

theorem MatchStarted_eq (key : K) (s : String) (w : IpsetCalculator K A τ × τ) :
    IpsetCalculator.MatchStarted key s w =
      ({ w.1 with
          keyToMatchingIPSetIDs := Multidict.Put w.1.keyToMatchingIPSetIDs key s
          ipSetIDToIPToKey := (runCalcActs w.1.OnIPAdded w.1.OnIPRemoved
            (CalcAct.ensure s :: (w.1.ipsOf key).map (fun ip => CalcAct.add s key ip))
            (IpsetCalculator.core w)).1 },
        (runCalcActs w.1.OnIPAdded w.1.OnIPRemoved
            (CalcAct.ensure s :: (w.1.ipsOf key).map (fun ip => CalcAct.add s key ip))
            (IpsetCalculator.core w)).2) := by
  unfold IpsetCalculator.MatchStarted
  simp only [addMatchToIndex_eq]
  rfl

theorem MatchStopped_eq (key : K) (s : String) (w : IpsetCalculator K A τ × τ) :
    IpsetCalculator.MatchStopped key s w =
      ({ w.1 with
          keyToMatchingIPSetIDs := Multidict.Discard w.1.keyToMatchingIPSetIDs key s
          ipSetIDToIPToKey := (runCalcActs w.1.OnIPAdded w.1.OnIPRemoved
            ((w.1.ipsOf key).map (fun ip => CalcAct.remove s key ip))
            (IpsetCalculator.core w)).1 },
        (runCalcActs w.1.OnIPAdded w.1.OnIPRemoved
            ((w.1.ipsOf key).map (fun ip => CalcAct.remove s key ip))
            (IpsetCalculator.core w)).2) := by
  unfold IpsetCalculator.MatchStopped
  simp only [removeMatchFromIndex_eq]
  rfl

theorem UpdateEndpointIPs_eq (ord : RangeOrder K) (key : K) (ips : List A)
    (w : IpsetCalculator K A τ × τ) :
    IpsetCalculator.UpdateEndpointIPs ord key ips w =
      ({ w.1 with
          keyToIPs :=
            if ips.length = 0 then GoMap.delete w.1.keyToIPs key
            else GoMap.put w.1.keyToIPs key ips
          ipSetIDToIPToKey := (runCalcActs w.1.OnIPAdded w.1.OnIPRemoved
            (actsUpdateEndpointIPs ord key ips w.1) (IpsetCalculator.core w)).1 },
        (runCalcActs w.1.OnIPAdded w.1.OnIPRemoved
            (actsUpdateEndpointIPs ord key ips w.1) (IpsetCalculator.core w)).2) := by
  unfold IpsetCalculator.UpdateEndpointIPs Multidict.Iter actsUpdateEndpointIPs
  simp only []
  rw [foldl_calc_blocks _ (fun ipSetID =>
    (CalcAct.ensure ipSetID ::
      (addedIPsOf (w.1.ipsOf key) ips).map (fun ip => CalcAct.add ipSetID key ip)) ++
    (removedIPsOf (w.1.ipsOf key) ips).map (fun ip => CalcAct.remove ipSetID key ip))]
  · by_cases hl : ips.length = 0
    · simp only [hl, if_true]
      rfl
    · simp only [hl, if_false]
      rfl
  · intro x w'
    rw [removeMatchFromIndex_eq, addMatchToIndex_eq, runCalcActs_append]
    rfl

end CalcFactoring

/-! ## The state invariant of the calculator -/

section CalcInvariant

variable {K A τ : Type} [DecidableEq K] [DecidableEq A]

theorem mem_foldl_add {α : Type} [DecidableEq α] (l : List α) (acc : GoSet α) (x : α) :
    x ∈ l.foldl (fun s a => GoSet.add s a) acc ↔ x ∈ acc ∨ x ∈ l := by
  induction l generalizing acc with
  | nil => simp
  | cons a tl ih =>
    simp only [List.foldl_cons, ih, GoSet.mem_add, List.mem_cons]
    tauto

theorem mem_addedIPsOf (oldIPs ips : List A) (x : A) :
    x ∈ addedIPsOf oldIPs ips ↔ x ∈ ips ∧ x ∉ oldIPs := by
  unfold addedIPsOf
  simp only []
  suffices h : ∀ (acc : List A × GoSet A),
      x ∈ (ips.foldl (fun (acc : List A × GoSet A) ip =>
        (if GoSet.has (oldIPs.foldl (fun s ip => GoSet.add s ip) []) ip then acc.1
          else acc.1 ++ [ip], GoSet.add acc.2 ip)) acc).1 ↔
      x ∈ acc.1 ∨ (x ∈ ips ∧ x ∉ oldIPs) by
    simpa using h ([], [])
  induction ips with
  | nil => intro acc; simp
  | cons a tl ih =>
    intro acc
    rw [List.foldl_cons, ih]
    by_cases ha : GoSet.has (oldIPs.foldl (fun s ip => GoSet.add s ip) []) a = true
    · have ha' : a ∈ oldIPs := by simpa [mem_foldl_add] using ha
      simp only [ha, if_true, List.mem_cons]
      constructor
      · rintro (h | ⟨h1, h2⟩)
        · exact Or.inl h
        · exact Or.inr ⟨Or.inr h1, h2⟩
      · rintro (h | ⟨h1 | h1, h2⟩)
        · exact Or.inl h
        · exact absurd (h1 ▸ ha') h2
        · exact Or.inr ⟨h1, h2⟩
    · have ha' : a ∉ oldIPs := by simpa [mem_foldl_add] using ha
      simp only [ha, Bool.false_eq_true, if_false, List.mem_append, List.mem_cons,
        List.not_mem_nil, or_false]
      constructor
      · rintro ((h | h) | ⟨h1, h2⟩)
        · exact Or.inl h
        · exact Or.inr ⟨Or.inl h, h ▸ ha'⟩
        · exact Or.inr ⟨Or.inr h1, h2⟩
      · rintro (h | ⟨h1 | h1, h2⟩)
        · exact Or.inl (Or.inl h)
        · exact Or.inl (Or.inr h1)
        · exact Or.inr ⟨h1, h2⟩

theorem mem_currentIPs (oldSet : GoSet A) (ips : List A) (acc : List A × GoSet A) (x : A) :
    x ∈ (ips.foldl (fun (acc : List A × GoSet A) ip =>
        (if GoSet.has oldSet ip then acc.1 else acc.1 ++ [ip], GoSet.add acc.2 ip)) acc).2 ↔
      x ∈ acc.2 ∨ x ∈ ips := by
  induction ips generalizing acc with
  | nil => simp
  | cons a tl ih =>
    rw [List.foldl_cons, ih]
    simp only [GoSet.mem_add, List.mem_cons]
    tauto

theorem mem_removedIPsOf (oldIPs ips : List A) (x : A) :
    x ∈ removedIPsOf oldIPs ips ↔ x ∈ oldIPs ∧ x ∉ ips := by
  unfold removedIPsOf
  simp only []
  generalize hcur : (ips.foldl (fun (acc : List A × GoSet A) ip =>
      (if GoSet.has (oldIPs.foldl (fun s ip => GoSet.add s ip) []) ip then acc.1
        else acc.1 ++ [ip], GoSet.add acc.2 ip)) ([], [])).2 = cur
  have hmem : ∀ y, y ∈ cur ↔ y ∈ ips := by
    intro y
    rw [← hcur, mem_currentIPs]
    simp
  suffices h : ∀ (l acc : List A),
      x ∈ l.foldl (fun removedIPs ip =>
        if GoSet.has cur ip then removedIPs else removedIPs ++ [ip]) acc ↔
      x ∈ acc ∨ (x ∈ l ∧ x ∉ ips) by
    simpa using h oldIPs []
  intro l
  induction l with
  | nil => intro acc; simp
  | cons a tl ih =>
    intro acc
    rw [List.foldl_cons, ih]
    by_cases ha : GoSet.has cur a = true
    · have ha' : a ∈ ips := (hmem a).1 (by simpa using ha)
      simp only [ha, if_true, List.mem_cons]
      constructor
      · rintro (h | ⟨h1, h2⟩)
        · exact Or.inl h
        · exact Or.inr ⟨Or.inr h1, h2⟩
      · rintro (h | ⟨h1 | h1, h2⟩)
        · exact Or.inl h
        · exact absurd (h1 ▸ ha') h2
        · exact Or.inr ⟨h1, h2⟩
    · have ha' : a ∉ ips := fun h => ha (by simpa using (hmem a).2 h)
      simp only [ha, Bool.false_eq_true, if_false, List.mem_append, List.mem_cons,
        List.not_mem_nil, or_false]
      constructor
      · rintro ((h | h) | ⟨h1, h2⟩)
        · exact Or.inl h
        · exact Or.inr ⟨Or.inl h, h ▸ ha'⟩
        · exact Or.inr ⟨Or.inr h1, h2⟩
      · rintro (h | ⟨h1 | h1, h2⟩)
        · exact Or.inl (Or.inl h)
        · exact Or.inl (Or.inr h1)
        · exact Or.inr ⟨h1, h2⟩

theorem add_mem_actsUpdateEndpointIPs (ord : RangeOrder K) (key : K) (ips : List A)
    (c : IpsetCalculator K A τ) (s : String) (e : K) (ip : A) :
    CalcAct.add s e ip ∈ actsUpdateEndpointIPs ord key ips c ↔
      e = key ∧ s ∈ c.ipSetsOf key ∧ ip ∈ addedIPsOf (c.ipsOf key) ips := by
  unfold actsUpdateEndpointIPs
  simp only [List.mem_flatMap, mem_rangeOrder, List.mem_append, List.mem_cons, List.mem_map,
    CalcAct.add.injEq, reduceCtorEq, and_false, exists_false, or_false, false_or]
  constructor
  · rintro ⟨s', hs, ip', hip, rfl, rfl, rfl⟩
    exact ⟨rfl, hs, hip⟩
  · rintro ⟨rfl, hs, hip⟩
    exact ⟨s, hs, ip, hip, rfl, rfl, rfl⟩

theorem remove_mem_actsUpdateEndpointIPs (ord : RangeOrder K) (key : K) (ips : List A)
    (c : IpsetCalculator K A τ) (s : String) (e : K) (ip : A) :
    CalcAct.remove s e ip ∈ actsUpdateEndpointIPs ord key ips c ↔
      e = key ∧ s ∈ c.ipSetsOf key ∧ ip ∈ removedIPsOf (c.ipsOf key) ips := by
  unfold actsUpdateEndpointIPs
  simp only [List.mem_flatMap, mem_rangeOrder, List.mem_append, List.mem_cons, List.mem_map,
    CalcAct.remove.injEq, reduceCtorEq, and_false, exists_false, or_false, false_or]
  constructor
  · rintro ⟨s', hs, ip', hip, rfl, rfl, rfl⟩
    exact ⟨rfl, hs, hip⟩
  · rintro ⟨rfl, hs, hip⟩
    exact ⟨s, hs, ip, hip, rfl, rfl, rfl⟩

end CalcInvariant

section CalcInvariantSteps

variable {K A τ : Type} [DecidableEq K] [DecidableEq A]

theorem CalcInv_New (onA onR : String → A → τ → τ) :
    (NewIpsetCalculator onA onR : IpsetCalculator K A τ).Inv := by
  refine ⟨?_, ?_⟩
  · intro s k S h
    simp [NewIpsetCalculator, membersIn] at h
  · intro s ip e
    simp [NewIpsetCalculator, IpsetCalculator.contributors, IpsetCalculator.membersOf,
      IpsetCalculator.ipSetsOf]

theorem CalcInv_MatchStarted (key : K) (s : String) (w : IpsetCalculator K A τ × τ)
    (h : w.1.Inv) : (IpsetCalculator.MatchStarted key s w).1.Inv := by
  rw [MatchStarted_eq]
  refine ⟨MembersWF_runCalcActs _ _ _ _ h.wf, ?_⟩
  intro s' ip e
  have hm := h.members_iff s' ip e
  have hc : e ∈ contrib (runCalcActs w.1.OnIPAdded w.1.OnIPRemoved
      (CalcAct.ensure s :: (w.1.ipsOf key).map (fun ip => CalcAct.add s key ip))
      (IpsetCalculator.core w)).1 s' ip ↔
      e ∈ contrib w.1.ipSetIDToIPToKey s' ip ∨ (s' = s ∧ e = key ∧ ip ∈ w.1.ipsOf key) := by
    rw [mem_contrib_runCalcActs]
    · simp only [IpsetCalculator.core, List.mem_cons, List.mem_map, reduceCtorEq, false_or,
        CalcAct.add.injEq, exists_false, or_false, not_false_eq_true, and_true, and_false]
      constructor
      · rintro (h1 | ⟨ip', h1, rfl, rfl, rfl⟩)
        · exact Or.inl h1
        · exact Or.inr ⟨rfl, rfl, h1⟩
      · rintro (h1 | ⟨rfl, rfl, h1⟩)
        · exact Or.inl h1
        · exact Or.inr ⟨ip, h1, rfl, rfl, rfl⟩
    · intro s0 e0 ip0 _ h2
      simp at h2
  have hs : s' ∈ (GoMap.get? (Multidict.Put w.1.keyToMatchingIPSetIDs key s) e).getD [] ↔
      s' ∈ w.1.ipSetsOf e ∨ (e = key ∧ s' = s) := Multidict.mem_Put _ _ _ _ _
  show e ∈ contrib _ s' ip ↔ s' ∈ (GoMap.get? _ e).getD [] ∧ ip ∈ w.1.ipsOf e
  rw [hc, hs]
  have hm' : e ∈ contrib w.1.ipSetIDToIPToKey s' ip ↔ s' ∈ w.1.ipSetsOf e ∧ ip ∈ w.1.ipsOf e :=
    hm
  rw [hm']
  constructor
  · rintro (⟨h1, h2⟩ | ⟨rfl, rfl, h2⟩)
    · exact ⟨Or.inl h1, h2⟩
    · exact ⟨Or.inr ⟨rfl, rfl⟩, h2⟩
  · rintro ⟨h1 | ⟨rfl, rfl⟩, h2⟩
    · exact Or.inl ⟨h1, h2⟩
    · exact Or.inr ⟨rfl, rfl, h2⟩

theorem CalcInv_MatchStopped (key : K) (s : String) (w : IpsetCalculator K A τ × τ)
    (h : w.1.Inv) : (IpsetCalculator.MatchStopped key s w).1.Inv := by
  rw [MatchStopped_eq]
  refine ⟨MembersWF_runCalcActs _ _ _ _ h.wf, ?_⟩
  intro s' ip e
  have hc : e ∈ contrib (runCalcActs w.1.OnIPAdded w.1.OnIPRemoved
      ((w.1.ipsOf key).map (fun ip => CalcAct.remove s key ip))
      (IpsetCalculator.core w)).1 s' ip ↔
      e ∈ contrib w.1.ipSetIDToIPToKey s' ip ∧ ¬ (s' = s ∧ e = key ∧ ip ∈ w.1.ipsOf key) := by
    rw [mem_contrib_runCalcActs]
    · simp only [IpsetCalculator.core, List.mem_map, reduceCtorEq, and_false, exists_false,
        or_false, CalcAct.remove.injEq]
      constructor
      · rintro ⟨h1, h2⟩
        exact ⟨h1, fun ⟨h3, h4, h5⟩ => h2 ⟨ip, h5, h3.symm, h4.symm, rfl⟩⟩
      · rintro ⟨h1, h2⟩
        refine ⟨h1, ?_⟩
        rintro ⟨ip', h5, rfl, rfl, rfl⟩
        exact h2 ⟨rfl, rfl, h5⟩
    · intro s0 e0 ip0 h1 _
      simp at h1
  have hs : s' ∈ (GoMap.get? (Multidict.Discard w.1.keyToMatchingIPSetIDs key s) e).getD [] ↔
      s' ∈ w.1.ipSetsOf e ∧ ¬ (e = key ∧ s' = s) := Multidict.mem_Discard _ _ _ _ _
  show e ∈ contrib _ s' ip ↔ s' ∈ (GoMap.get? _ e).getD [] ∧ ip ∈ w.1.ipsOf e
  rw [hc, hs]
  have hm' : e ∈ contrib w.1.ipSetIDToIPToKey s' ip ↔ s' ∈ w.1.ipSetsOf e ∧ ip ∈ w.1.ipsOf e :=
    h.members_iff s' ip e
  rw [hm']
  constructor
  · rintro ⟨⟨h1, h2⟩, h3⟩
    refine ⟨⟨h1, ?_⟩, h2⟩
    rintro ⟨rfl, rfl⟩
    exact h3 ⟨rfl, rfl, h2⟩
  · rintro ⟨⟨h1, h3⟩, h2⟩
    refine ⟨⟨h1, h2⟩, ?_⟩
    rintro ⟨rfl, rfl, _⟩
    exact h3 ⟨rfl, rfl⟩

theorem UpdateEndpointIPs_ipsOf (ord : RangeOrder K) (key : K) (ips : List A)
    (w : IpsetCalculator K A τ × τ) (e : K) :
    (IpsetCalculator.UpdateEndpointIPs ord key ips w).1.ipsOf e =
      if key = e then ips else w.1.ipsOf e := by
  rw [UpdateEndpointIPs_eq]
  unfold IpsetCalculator.ipsOf
  by_cases hl : ips.length = 0
  · have h0 : ips = [] := List.length_eq_zero.1 hl
    simp only [hl, if_true, GoMap.get?_delete]
    by_cases he : key = e <;> simp [he, h0]
  · simp only [hl, if_false, GoMap.get?_put]
    by_cases he : key = e <;> simp [he]

theorem UpdateEndpointIPs_ipSetsOf (ord : RangeOrder K) (key : K) (ips : List A)
    (w : IpsetCalculator K A τ × τ) (e : K) :
    (IpsetCalculator.UpdateEndpointIPs ord key ips w).1.ipSetsOf e = w.1.ipSetsOf e := by
  rw [UpdateEndpointIPs_eq]
  rfl

theorem CalcInv_UpdateEndpointIPs (ord : RangeOrder K) (key : K) (ips : List A)
    (w : IpsetCalculator K A τ × τ) (h : w.1.Inv) :
    (IpsetCalculator.UpdateEndpointIPs ord key ips w).1.Inv := by
  have hcons : ∀ s e ip, CalcAct.add s e ip ∈ actsUpdateEndpointIPs ord key ips w.1 →
      CalcAct.remove s e ip ∉ actsUpdateEndpointIPs ord key ips w.1 := by
    intro s e ip h1 h2
    rw [add_mem_actsUpdateEndpointIPs, mem_addedIPsOf] at h1
    rw [remove_mem_actsUpdateEndpointIPs, mem_removedIPsOf] at h2
    exact h2.2.2.2 h1.2.2.1
  refine ⟨?_, ?_⟩
  · rw [UpdateEndpointIPs_eq]
    exact MembersWF_runCalcActs _ _ _ _ h.wf
  · intro s ip e
    rw [UpdateEndpointIPs_ipsOf, UpdateEndpointIPs_ipSetsOf]
    have hc : e ∈ (IpsetCalculator.UpdateEndpointIPs ord key ips w).1.contributors s ip ↔
        e ∈ contrib (runCalcActs w.1.OnIPAdded w.1.OnIPRemoved
          (actsUpdateEndpointIPs ord key ips w.1) (IpsetCalculator.core w)).1 s ip := by
      rw [UpdateEndpointIPs_eq]
      rfl
    rw [hc, mem_contrib_runCalcActs _ _ _ hcons, add_mem_actsUpdateEndpointIPs,
      remove_mem_actsUpdateEndpointIPs, mem_addedIPsOf, mem_removedIPsOf]
    have hm' : e ∈ contrib (IpsetCalculator.core w).1 s ip ↔
        s ∈ w.1.ipSetsOf e ∧ ip ∈ w.1.ipsOf e := h.members_iff s ip e
    rw [hm']
    by_cases he : key = e
    · subst he
      simp only [if_true, true_and]
      constructor
      · rintro ⟨⟨h1, h2⟩ | ⟨h1, h2, _⟩, h3⟩
        · refine ⟨h1, ?_⟩
          by_contra h4
          exact h3 ⟨h1, h2, h4⟩
        · exact ⟨h1, h2⟩
      · rintro ⟨h1, h2⟩
        refine ⟨?_, fun h3 => h3.2.2 h2⟩
        by_cases h4 : ip ∈ w.1.ipsOf key
        · exact Or.inl ⟨h1, h4⟩
        · exact Or.inr ⟨h1, h2, h4⟩
    · have he' : ¬ e = key := fun x => he x.symm
      simp [he, he']

theorem CalcInv_run (ord : RangeOrder K) (c : CalcCall K A) (w : IpsetCalculator K A τ × τ)
    (h : w.1.Inv) : (c.run ord w).1.Inv := by
  cases c with
  | matchStarted key s => exact CalcInv_MatchStarted key s w h
  | matchStopped key s => exact CalcInv_MatchStopped key s w h
  | updateEndpointIPs key ips => exact CalcInv_UpdateEndpointIPs ord key ips w h
  | deleteEndpoint key => exact CalcInv_UpdateEndpointIPs ord key [] w h

theorem CalcInv_runCalc (calls : List (RangeOrder K × CalcCall K A))
    (w : IpsetCalculator K A τ × τ) (h : w.1.Inv) : (runCalc calls w).1.Inv := by
  induction calls generalizing w with
  | nil => exact h
  | cons c tl ih => exact ih _ (CalcInv_run c.1 c.2 w h)

/-- C4: in the state that any sequence of `MatchStarted`, `MatchStopped`,
`UpdateEndpointIPs` and `DeleteEndpoint` calls reaches from
`NewIpsetCalculator`, the endpoints recorded for an address ip of an IP set s
are exactly the endpoints that are recorded as contributing to s and whose
stored address list contains ip, and ip is a key of the multimap of s exactly
when there is such an endpoint. -/
theorem members_iff_derived (OnIPAdded OnIPRemoved : String → A → τ → τ) (t0 : τ)
    (calls : List (RangeOrder K × CalcCall K A)) (s : String) (ip : A) :
    (∀ e, e ∈ (runCalc calls (NewIpsetCalculator OnIPAdded OnIPRemoved, t0)).1.contributors s ip ↔
      s ∈ (runCalc calls (NewIpsetCalculator OnIPAdded OnIPRemoved, t0)).1.ipSetsOf e ∧
      ip ∈ (runCalc calls (NewIpsetCalculator OnIPAdded OnIPRemoved, t0)).1.ipsOf e) ∧
    (Multidict.ContainsKey
        ((runCalc calls (NewIpsetCalculator OnIPAdded OnIPRemoved, t0)).1.membersOf s) ip = true ↔
      ∃ e, s ∈ (runCalc calls (NewIpsetCalculator OnIPAdded OnIPRemoved, t0)).1.ipSetsOf e ∧
        ip ∈ (runCalc calls (NewIpsetCalculator OnIPAdded OnIPRemoved, t0)).1.ipsOf e) := by
  have h : (runCalc calls (NewIpsetCalculator OnIPAdded OnIPRemoved, t0)).1.Inv :=
    CalcInv_runCalc calls _ (CalcInv_New OnIPAdded OnIPRemoved)
  refine ⟨fun e => h.members_iff s ip e, ?_⟩
  have hk := Multidict.ContainsKey_iff _ (h.wf s) ip
  refine Iff.trans hk ?_
  constructor
  · rintro ⟨e, he⟩
    exact ⟨e, (h.members_iff s ip e).1 he⟩
  · rintro ⟨e, he⟩
    exact ⟨e, (h.members_iff s ip e).2 he⟩

end CalcInvariantSteps

/-! ## Shared addresses do not flap -/

section SharedIP

variable {K A : Type} [DecidableEq K] [DecidableEq A]

theorem step_snd_ensure {τ : Type} (onA onR : String → A → τ → τ) (s : String)
    (c : GoMap String (IfaceToIface A K) × τ) :
    ((CalcAct.ensure s : CalcAct K A).step onA onR c).2 = c.2 := rfl

theorem step_snd_add {τ : Type} (onA onR : String → A → τ → τ) (s : String) (key : K)
    (ip : A) (c : GoMap String (IfaceToIface A K) × τ) :
    ((CalcAct.add s key ip).step onA onR c).2 =
      if Multidict.ContainsKey (membersIn c.1 s) ip then c.2 else onA s ip c.2 := rfl

theorem step_snd_remove {τ : Type} (onA onR : String → A → τ → τ) (s : String) (key : K)
    (ip : A) (c : GoMap String (IfaceToIface A K) × τ) :
    ((CalcAct.remove s key ip).step onA onR c).2 =
      if Multidict.ContainsKey (Multidict.Discard (membersIn c.1 s) ip key) ip then c.2
      else onR s ip c.2 := by
  unfold membersIn
  by_cases hk : Multidict.ContainsKey
      (Multidict.Discard ((GoMap.get? c.1 s).getD []) ip key) ip = true <;>
    simp [CalcAct.step, hk]

/-- Updates that add no endpoint to an address of an IP set record no new
endpoint for it. -/
theorem contrib_sub_of_no_add {τ : Type} (onA onR : String → A → τ → τ) (s : String) (ip : A)
    (acts : List (CalcAct K A)) (h : ∀ a ∈ acts, ∀ e, a ≠ CalcAct.add s e ip)
    (c : GoMap String (IfaceToIface A K) × τ) (e : K)
    (he : e ∈ contrib (runCalcActs onA onR acts c).1 s ip) : e ∈ contrib c.1 s ip := by
  induction acts generalizing c with
  | nil => exact he
  | cons a tl ih =>
    rw [runCalcActs_cons] at he
    have h1 := ih (fun a ha => h a (List.mem_cons_of_mem _ ha)) _ he
    cases a with
    | ensure s0 => exact (mem_contrib_step_ensure _ _ _ _ _ _ _).1 h1
    | add s0 e0 ip0 =>
      rcases (mem_contrib_step_add _ _ _ _ _ _ _ _ _).1 h1 with h2 | ⟨rfl, rfl, rfl⟩
      · exact h2
      · exact absurd rfl (h _ (List.mem_cons_self _ _) e)
    | remove s0 e0 ip0 => exact ((mem_contrib_step_remove _ _ _ _ _ _ _ _ _).1 h1).1

/-- When `OnIPRemoved(s, ip)` is logged by a sequence of updates in which no
addition follows a removal for the same address of the same IP set, no
endpoint is recorded for (s, ip) at the end. -/
theorem removed_event_imp_empty (acts : List (CalcAct K A))
    (hpw : acts.Pairwise NoAddAfterRemove)
    (c : GoMap String (IfaceToIface A K) × List (IPEvent A)) (s : String) (ip : A)
    (h : IPEvent.removed s ip ∈ (runCalcActs logAdded logRemoved acts c).2) :
    IPEvent.removed s ip ∈ c.2 ∨
      ∀ e, e ∉ contrib (runCalcActs logAdded logRemoved acts c).1 s ip := by
  induction acts generalizing c with
  | nil => exact Or.inl h
  | cons a tl ih =>
    rw [List.pairwise_cons] at hpw
    rw [runCalcActs_cons] at h ⊢
    rcases ih hpw.2 _ h with h1 | h1
    · cases a with
      | ensure s0 => exact Or.inl h1
      | add s0 e0 ip0 =>
        rw [step_snd_add] at h1
        by_cases hk : Multidict.ContainsKey (membersIn c.1 s0) ip0 = true
        · simp only [hk, if_true] at h1
          exact Or.inl h1
        · simp only [hk, Bool.false_eq_true, if_false, logAdded, List.mem_append,
            List.mem_singleton, reduceCtorEq, or_false] at h1
          exact Or.inl h1
      | remove s0 e0 ip0 =>
        rw [step_snd_remove] at h1
        by_cases hk : Multidict.ContainsKey
            (Multidict.Discard (membersIn c.1 s0) ip0 e0) ip0 = true
        · simp only [hk, if_true] at h1
          exact Or.inl h1
        · simp only [hk, Bool.false_eq_true, if_false, logRemoved, List.mem_append,
            List.mem_singleton, IPEvent.removed.injEq] at h1
          rcases h1 with h1 | ⟨rfl, rfl⟩
          · exact Or.inl h1
          · refine Or.inr ?_
            intro e he
            have h2 := contrib_sub_of_no_add logAdded logRemoved s ip tl
              (fun b hb e' => hpw.1 b hb s e0 ip e' rfl) _ e he
            unfold contrib at h2
            rw [membersIn_step_remove, if_pos rfl] at h2
            have hn : GoMap.get? (Multidict.Discard (membersIn c.1 s) ip e0) ip = none := by
              simpa [Multidict.ContainsKey, GoMap.contains] using hk
            rw [hn] at h2
            simp at h2
    · exact Or.inr h1

theorem pairwise_actsUpdateEndpointIPs {τ : Type} (ord : RangeOrder K) (key : K)
    (ips : List A) (c : IpsetCalculator K A τ) :
    (actsUpdateEndpointIPs ord key ips c).Pairwise NoAddAfterRemove := by
  unfold actsUpdateEndpointIPs
  rw [List.pairwise_flatMap]
  constructor
  · intro s _
    rw [List.pairwise_append]
    refine ⟨?_, ?_, ?_⟩
    · rw [List.pairwise_cons]
      refine ⟨?_, ?_⟩
      · intro b _ s0 e0 ip0 e' h
        cases h
      · rw [List.pairwise_map]
        exact List.pairwise_of_forall (fun x y => by
          intro s0 e0 ip0 e' h
          cases h)
    · rw [List.pairwise_map]
      exact List.pairwise_of_forall (fun x y => by
        intro s0 e0 ip0 e' _ h
        cases h)
    · intro a ha b hb s0 e0 ip0 e' _ h2
      subst h2
      simp at hb
  · refine List.Nodup.pairwise_of_forall_ne (nodup_rangeOrder _ _) ?_
    intro s1 _ s2 _ hne a ha b hb s0 e0 ip0 e' h1 h2
    subst h1 h2
    simp only [List.mem_append, List.mem_cons, List.mem_map, reduceCtorEq, false_or,
      exists_false, CalcAct.remove.injEq, CalcAct.add.injEq, and_false, or_false] at ha hb
    obtain ⟨_, _, rfl, _⟩ := ha
    obtain ⟨_, _, rfl, _⟩ := hb
    exact hne rfl

end SharedIP

section SharedIPCalls

variable {K A : Type} [DecidableEq K] [DecidableEq A]

theorem calc_callbacks_run {τ : Type} (ord : RangeOrder K) (call : CalcCall K A)
    (w : IpsetCalculator K A τ × τ) :
    (call.run ord w).1.OnIPAdded = w.1.OnIPAdded ∧
      (call.run ord w).1.OnIPRemoved = w.1.OnIPRemoved := by
  cases call with
  | matchStarted key s =>
    simp only [CalcCall.run]
    rw [MatchStarted_eq]
    exact ⟨rfl, rfl⟩
  | matchStopped key s =>
    simp only [CalcCall.run]
    rw [MatchStopped_eq]
    exact ⟨rfl, rfl⟩
  | updateEndpointIPs key ips =>
    simp only [CalcCall.run]
    rw [UpdateEndpointIPs_eq]
    exact ⟨rfl, rfl⟩
  | deleteEndpoint key =>
    simp only [CalcCall.run, IpsetCalculator.DeleteEndpoint]
    rw [UpdateEndpointIPs_eq]
    exact ⟨rfl, rfl⟩

theorem calc_callbacks_runCalc {τ : Type} (calls : List (RangeOrder K × CalcCall K A))
    (w : IpsetCalculator K A τ × τ) :
    (runCalc calls w).1.OnIPAdded = w.1.OnIPAdded ∧
      (runCalc calls w).1.OnIPRemoved = w.1.OnIPRemoved := by
  induction calls generalizing w with
  | nil => exact ⟨rfl, rfl⟩
  | cons c tl ih =>
    have h1 := ih (c.2.run c.1 w)
    have h2 := calc_callbacks_run c.1 c.2 w
    exact ⟨h1.1.trans h2.1, h1.2.trans h2.2⟩

theorem CalcReachable_inv {c : IpsetCalculator K A (List (IPEvent A))} (h : c.Reachable) :
    c.Inv := by
  obtain ⟨calls, rfl⟩ := h
  exact CalcInv_runCalc calls _ (CalcInv_New _ _)

theorem CalcReachable_callbacks {c : IpsetCalculator K A (List (IPEvent A))}
    (h : c.Reachable) : c.OnIPAdded = logAdded ∧ c.OnIPRemoved = logRemoved := by
  obtain ⟨calls, rfl⟩ := h
  exact calc_callbacks_runCalc calls _

/-- Every call is a sequence of elementary updates in which no addition
follows a removal for the same address of the same IP set. -/
theorem calc_run_acts {τ : Type} (ord : RangeOrder K) (call : CalcCall K A)
    (w : IpsetCalculator K A τ × τ) :
    ∃ acts : List (CalcAct K A), acts.Pairwise NoAddAfterRemove ∧
      (call.run ord w).2 =
        (runCalcActs w.1.OnIPAdded w.1.OnIPRemoved acts (IpsetCalculator.core w)).2 ∧
      (call.run ord w).1.ipSetIDToIPToKey =
        (runCalcActs w.1.OnIPAdded w.1.OnIPRemoved acts (IpsetCalculator.core w)).1 := by
  cases call with
  | matchStarted key s =>
    refine ⟨CalcAct.ensure s :: (w.1.ipsOf key).map (fun ip => CalcAct.add s key ip), ?_, ?_⟩
    · rw [List.pairwise_cons]
      refine ⟨?_, ?_⟩
      · intro b _ s0 e0 ip0 e' h
        cases h
      · rw [List.pairwise_map]
        exact List.pairwise_of_forall (fun x y => by
          intro s0 e0 ip0 e' h
          cases h)
    · simp only [CalcCall.run]
      rw [MatchStarted_eq]
      exact ⟨rfl, rfl⟩
  | matchStopped key s =>
    refine ⟨(w.1.ipsOf key).map (fun ip => CalcAct.remove s key ip), ?_, ?_⟩
    · rw [List.pairwise_map]
      exact List.pairwise_of_forall (fun x y => by
        intro s0 e0 ip0 e' _ h
        cases h)
    · simp only [CalcCall.run]
      rw [MatchStopped_eq]
      exact ⟨rfl, rfl⟩
  | updateEndpointIPs key ips =>
    refine ⟨actsUpdateEndpointIPs ord key ips w.1, pairwise_actsUpdateEndpointIPs _ _ _ _, ?_⟩
    simp only [CalcCall.run]
    rw [UpdateEndpointIPs_eq]
    exact ⟨rfl, rfl⟩
  | deleteEndpoint key =>
    refine ⟨actsUpdateEndpointIPs ord key [] w.1, pairwise_actsUpdateEndpointIPs _ _ _ _, ?_⟩
    simp only [CalcCall.run, IpsetCalculator.DeleteEndpoint]
    rw [UpdateEndpointIPs_eq]
    exact ⟨rfl, rfl⟩

/-- C7: in every reachable state of the calculator, a call (`MatchStopped`,
`UpdateEndpointIPs`, `DeleteEndpoint`, and `MatchStarted` as well) does not
emit `OnIPRemoved(s, ip)` when after the call some endpoint still contributes
to s and holds ip. -/
theorem shared_ip_no_flap (c : IpsetCalculator K A (List (IPEvent A))) (hr : c.Reachable)
    (ord : RangeOrder K) (call : CalcCall K A) (s : String) (ip : A)
    (hstill : ∃ e, s ∈ (call.run ord (c, [])).1.ipSetsOf e ∧
      ip ∈ (call.run ord (c, [])).1.ipsOf e) :
    IPEvent.removed s ip ∉ call.events ord c := by
  intro hev
  obtain ⟨hA, hR⟩ := CalcReachable_callbacks hr
  have hinv : (call.run ord (c, [])).1.Inv := CalcInv_run ord call (c, []) (CalcReachable_inv hr)
  obtain ⟨e, he⟩ := hstill
  have hmem := (hinv.members_iff s ip e).2 he
  obtain ⟨acts, hpw, h2, h1⟩ := calc_run_acts ord call (c, ([] : List (IPEvent A)))
  unfold CalcCall.events at hev
  rw [h2] at hev
  simp only [hA, hR] at hev h1
  rcases removed_event_imp_empty acts hpw _ s ip hev with h3 | h3
  · simp [IpsetCalculator.core] at h3
  · apply h3 e
    rw [← h1]
    exact hmem

/-- C7, the shared-address scenario: endpoints 1 and 2 both hold 10.0.0.5 and
both match "blue"; `DeleteEndpoint(1)` emits no `OnIPRemoved("blue",
10.0.0.5)`. -/
theorem shared_ip_no_flap_witness :
    sharedState.Reachable ∧
    (∃ e, "blue" ∈ ((CalcCall.deleteEndpoint 1 : CalcCall Nat IPv4).run
          (RangeOrder.insertion Nat) (sharedState, [])).1.ipSetsOf e ∧
      ((10, 0, 0, 5) : IPv4) ∈ ((CalcCall.deleteEndpoint 1 : CalcCall Nat IPv4).run
          (RangeOrder.insertion Nat) (sharedState, [])).1.ipsOf e) ∧
    IPEvent.removed "blue" ((10, 0, 0, 5) : IPv4) ∉
      (CalcCall.deleteEndpoint 1 : CalcCall Nat IPv4).events (RangeOrder.insertion Nat)
        sharedState :=
  ⟨⟨_, rfl⟩, ⟨2, by decide, by decide⟩,
    shared_ip_no_flap sharedState ⟨_, rfl⟩ (RangeOrder.insertion Nat)
      (CalcCall.deleteEndpoint 1) "blue" (10, 0, 0, 5) ⟨2, by decide, by decide⟩⟩

/-! ## Repeated addresses, unmatched stops and leftover entries -/

/-- C3, at the failing inputs: `MatchStarted(0, "s")`, `UpdateEndpointIPs(0,
[ip, ip])`, `DeleteEndpoint(0)` on a fresh calculator emit `OnIPAdded("s",
ip)` once and then, in the one call `DeleteEndpoint`, `OnIPRemoved("s", ip)`
twice; and `UpdateEndpointIPs(0, [ip])`, `MatchStopped(0, "s")` on a fresh
calculator emit `OnIPRemoved("s", ip)` for a pair that never had a
contributor. -/
theorem removed_twice_on_repeated_ip (o1 o2 o3 : RangeOrder Nat) :
    (runCalc
      [(o1, CalcCall.matchStarted 0 "s"),
       (o2, CalcCall.updateEndpointIPs 0 [((10, 0, 0, 1) : IPv4), (10, 0, 0, 1)]),
       (o3, CalcCall.deleteEndpoint 0)] (freshCalc Nat IPv4)).2 =
      [IPEvent.added "s" (10, 0, 0, 1), IPEvent.removed "s" (10, 0, 0, 1),
        IPEvent.removed "s" (10, 0, 0, 1)] ∧
    (runCalc
      [(o1, CalcCall.updateEndpointIPs 0 [((10, 0, 0, 1) : IPv4)]),
       (o2, CalcCall.matchStopped 0 "s")] (freshCalc Nat IPv4)).2 =
      [IPEvent.removed "s" (10, 0, 0, 1)] := by
  constructor
  · simp only [runCalc, List.foldl_cons, List.foldl_nil, CalcCall.run, freshCalc,
      NewIpsetCalculator, IpsetCalculator.DeleteEndpoint, IpsetCalculator.MatchStarted,
      IpsetCalculator.UpdateEndpointIPs, Multidict.Iter]
    simp [GoMap.get?, GoMap.put, GoMap.delete, GoSet.has, GoSet.add, GoSet.remove,
      rangeOrder_singleton, IpsetCalculator.addMatchToIndex,
      IpsetCalculator.removeMatchFromIndex, GoMap.contains, GoSet.len, logAdded, logRemoved,
      Multidict.Put, Multidict.Discard, Multidict.ContainsKey, Multidict.Len, GoMap.len,
      addedIPsOf, removedIPsOf]
  · simp only [runCalc, List.foldl_cons, List.foldl_nil, CalcCall.run, freshCalc,
      NewIpsetCalculator, IpsetCalculator.MatchStopped, IpsetCalculator.UpdateEndpointIPs,
      Multidict.Iter]
    simp [GoMap.get?, GoMap.put, GoMap.delete, GoSet.has, GoSet.add, GoSet.remove,
      IpsetCalculator.addMatchToIndex,
      IpsetCalculator.removeMatchFromIndex, GoMap.contains, GoSet.len, logAdded, logRemoved,
      Multidict.Put, Multidict.Discard, Multidict.ContainsKey, Multidict.Len, GoMap.len,
      addedIPsOf, removedIPsOf]

end SharedIPCalls

/-- C8, at the failing input: after `MatchStarted(0, "s")`, `MatchStopped(0,
"s")` and `DeleteEndpoint(0)` on a fresh calculator, no endpoint has a recorded
address list, no endpoint is recorded as contributing to an IP set and no
(IP set, address) pair has a recorded contributor, yet `Empty()` is false: the
entry that `addMatchToIndex` created for "s" is still there. -/
theorem empty_false_after_start_stop (o1 o2 o3 : RangeOrder Nat) :
    (runCalc
      [(o1, CalcCall.matchStarted 0 "s"), (o2, CalcCall.matchStopped 0 "s"),
       (o3, CalcCall.deleteEndpoint 0)] (freshCalc Nat IPv4)).1.Empty = false ∧
    (∀ e, (runCalc
      [(o1, CalcCall.matchStarted 0 "s"), (o2, CalcCall.matchStopped 0 "s"),
       (o3, CalcCall.deleteEndpoint 0)] (freshCalc Nat IPv4)).1.ipsOf e = []) ∧
    (∀ e, (runCalc
      [(o1, CalcCall.matchStarted 0 "s"), (o2, CalcCall.matchStopped 0 "s"),
       (o3, CalcCall.deleteEndpoint 0)] (freshCalc Nat IPv4)).1.ipSetsOf e = []) ∧
    (∀ s ip, (runCalc
      [(o1, CalcCall.matchStarted 0 "s"), (o2, CalcCall.matchStopped 0 "s"),
       (o3, CalcCall.deleteEndpoint 0)] (freshCalc Nat IPv4)).1.contributors s ip = []) ∧
    (runCalc
      [(o1, CalcCall.matchStarted 0 "s"), (o2, CalcCall.matchStopped 0 "s"),
       (o3, CalcCall.deleteEndpoint 0)] (freshCalc Nat IPv4)).1.ipSetIDToIPToKey =
      [("s", [])] := by
  have hst : (runCalc
      [(o1, CalcCall.matchStarted 0 "s"), (o2, CalcCall.matchStopped 0 "s"),
       (o3, CalcCall.deleteEndpoint 0)] (freshCalc Nat IPv4)).1 =
      { keyToIPs := [], keyToMatchingIPSetIDs := [], ipSetIDToIPToKey := [("s", [])],
        OnIPAdded := logAdded, OnIPRemoved := logRemoved } := by
    simp only [runCalc, List.foldl_cons, List.foldl_nil, CalcCall.run, freshCalc,
      NewIpsetCalculator, IpsetCalculator.DeleteEndpoint, IpsetCalculator.MatchStarted,
      IpsetCalculator.MatchStopped, IpsetCalculator.UpdateEndpointIPs, Multidict.Iter]
    simp [GoMap.get?, GoMap.put, GoMap.delete, GoSet.has, GoSet.add, GoSet.remove,
      IpsetCalculator.addMatchToIndex, IpsetCalculator.removeMatchFromIndex, GoMap.contains,
      GoSet.len, Multidict.Put, Multidict.Discard, Multidict.ContainsKey, Multidict.Len,
      GoMap.len, addedIPsOf, removedIPsOf]
  rw [hst]
  refine ⟨by decide, fun e => rfl, fun e => rfl, ?_, rfl⟩
  intro s ip
  simp only [IpsetCalculator.contributors, IpsetCalculator.membersOf, GoMap.get?]
  by_cases h : "s" = s <;> simp [h, GoMap.get?]

/-! ## The wired pipeline -/

section Pipeline

variable {K A τ : Type} [DecidableEq K] [DecidableEq A]

theorem MatchStarted_ipSetsOf (key : K) (s : String) (w : IpsetCalculator K A τ × τ)
    (e : K) (s' : String) :
    s' ∈ (IpsetCalculator.MatchStarted key s w).1.ipSetsOf e ↔
      s' ∈ w.1.ipSetsOf e ∨ (e = key ∧ s' = s) := by
  rw [MatchStarted_eq]
  exact Multidict.mem_Put _ _ _ _ _

theorem MatchStopped_ipSetsOf (key : K) (s : String) (w : IpsetCalculator K A τ × τ)
    (e : K) (s' : String) :
    s' ∈ (IpsetCalculator.MatchStopped key s w).1.ipSetsOf e ↔
      s' ∈ w.1.ipSetsOf e ∧ ¬ (e = key ∧ s' = s) := by
  rw [MatchStopped_eq]
  exact Multidict.mem_Discard _ _ _ _ _

theorem contains_matchSet_ne_nil (m : GoMap (indexKey K) (GoSet String)) (t : String) (e : K)
    (h : matchSet m t e ≠ []) : GoMap.contains m ⟨t, e⟩ = true := by
  unfold matchSet at h
  rcases hg : GoMap.get? m ⟨t, e⟩ with _ | S
  · rw [hg] at h
    exact absurd rfl h
  · simp [GoMap.contains, hg]

/-- An elementary update of the match index whose callbacks are the methods of
the calculator keeps the two in agreement and keeps the invariant of the
calculator. -/
theorem wired_step (a : IndexAct K)
    (c : GoMap (indexKey K) (GoSet String) × (IpsetCalculator K A τ × τ))
    (hl : Linked c.1 c.2.1) (hi : c.2.1.Inv) :
    Linked (a.step IpsetCalculator.MatchStarted IpsetCalculator.MatchStopped c).1
        (a.step IpsetCalculator.MatchStarted IpsetCalculator.MatchStopped c).2.1 ∧
      (a.step IpsetCalculator.MatchStarted IpsetCalculator.MatchStopped c).2.1.Inv := by
  cases a with
  | add e t p =>
    rw [step_add_snd]
    by_cases hc : GoMap.contains c.1 ⟨t, e⟩ = true
    · simp only [hc, if_true]
      refine ⟨?_, hi⟩
      intro t' e'
      rw [GoMap.contains, step_add_get?]
      by_cases hk : (⟨t, e⟩ : indexKey K) = ⟨t', e'⟩
      · obtain ⟨rfl, rfl⟩ := indexKey.mk.inj hk
        simpa using (hl t e).1 hc
      · simpa [hk, GoMap.contains] using hl t' e'
    · simp only [hc, Bool.false_eq_true, if_false]
      refine ⟨?_, CalcInv_MatchStarted e t c.2 hi⟩
      intro t' e'
      rw [GoMap.contains, step_add_get?, MatchStarted_ipSetsOf]
      by_cases hk : (⟨t, e⟩ : indexKey K) = ⟨t', e'⟩
      · obtain ⟨rfl, rfl⟩ := indexKey.mk.inj hk
        simp
      · have hne : ¬ (e' = e ∧ t' = t) := by
          rintro ⟨rfl, rfl⟩
          exact hk rfl
        simpa [hk, GoMap.contains, hne] using hl t' e'
  | remove e t p =>
    rw [step_remove_snd]
    by_cases hr : GoSet.remove (matchSet c.1 t e) p = []
    · simp only [hr, if_true]
      refine ⟨?_, CalcInv_MatchStopped e t c.2 hi⟩
      intro t' e'
      rw [GoMap.contains, step_remove_get?, MatchStopped_ipSetsOf]
      by_cases hk : (⟨t, e⟩ : indexKey K) = ⟨t', e'⟩
      · obtain ⟨rfl, rfl⟩ := indexKey.mk.inj hk
        simp [hr]
      · have hne : ¬ (e' = e ∧ t' = t) := by
          rintro ⟨rfl, rfl⟩
          exact hk rfl
        simpa [hk, GoMap.contains, hne] using hl t' e'
    · simp only [hr, if_false]
      refine ⟨?_, hi⟩
      intro t' e'
      rw [GoMap.contains, step_remove_get?]
      by_cases hk : (⟨t, e⟩ : indexKey K) = ⟨t', e'⟩
      · obtain ⟨rfl, rfl⟩ := indexKey.mk.inj hk
        have hne : matchSet c.1 t e ≠ [] := by
          intro h0
          apply hr
          rw [h0]
          rfl
        simpa [hr] using (hl t e).1 (contains_matchSet_ne_nil _ _ _ hne)
      · simpa [hk, GoMap.contains] using hl t' e'

theorem wired_runActs (acts : List (IndexAct K))
    (c : GoMap (indexKey K) (GoSet String) × (IpsetCalculator K A τ × τ))
    (hl : Linked c.1 c.2.1) (hi : c.2.1.Inv) :
    Linked (runActs IpsetCalculator.MatchStarted IpsetCalculator.MatchStopped acts c).1
        (runActs IpsetCalculator.MatchStarted IpsetCalculator.MatchStopped acts c).2.1 ∧
      (runActs IpsetCalculator.MatchStarted IpsetCalculator.MatchStopped acts c).2.1.Inv := by
  induction acts generalizing c with
  | nil => exact ⟨hl, hi⟩
  | cons a tl ih =>
    have h := wired_step a c hl hi
    exact ih _ h.1 h.2

/-- Every call on the index is a sequence of elementary updates of the match
index. -/
theorem index_run_acts {σ : Type} (ord : RangeOrder K) (call : IndexCall K)
    (w : tagIndex K σ × σ) :
    ∃ acts : List (IndexAct K),
      (call.run ord w).1.matchesMap =
        (runActs w.1.onMatchStarted w.1.onMatchStopped acts (tagIndex.core w)).1 ∧
      (call.run ord w).2 =
        (runActs w.1.onMatchStarted w.1.onMatchStopped acts (tagIndex.core w)).2 := by
  cases call with
  | updateProfileTags p tags =>
    exact ⟨_, UpdateProfileTags_matchesMap ord p tags w, UpdateProfileTags_snd ord p tags w⟩
  | deleteProfileTags p =>
    exact ⟨_, UpdateProfileTags_matchesMap ord p [] w, UpdateProfileTags_snd ord p [] w⟩
  | updateEndpoint key ps =>
    exact ⟨_, UpdateEndpoint_matchesMap ord key ps w, UpdateEndpoint_snd ord key ps w⟩
  | deleteEndpoint key =>
    exact ⟨_, UpdateEndpoint_matchesMap ord key [] w, UpdateEndpoint_snd ord key [] w⟩

theorem PipelineInv_init (OnIPAdded OnIPRemoved : String → A → τ → τ) (t0 : τ) :
    PipelineInv (wiredIndex K A τ, (NewIpsetCalculator OnIPAdded OnIPRemoved, t0)) := by
  refine ⟨Inv_NewIndex _ _, rfl, rfl, ?_, CalcInv_New _ _⟩
  intro t e
  simp [wiredIndex, NewIndex, GoMap.contains, NewIpsetCalculator, IpsetCalculator.ipSetsOf]

theorem PipelineInv_run (ord : RangeOrder K) (call : PipelineCall K A)
    (w : tagIndex K (IpsetCalculator K A τ × τ) × (IpsetCalculator K A τ × τ))
    (h : PipelineInv w) : PipelineInv (call.run ord w) := by
  cases call with
  | index c =>
    obtain ⟨acts, h1, h2⟩ := index_run_acts ord c w
    have hcb := callbacks_run ord c w
    have hw := wired_runActs acts (tagIndex.core w) h.linked h.calculator
    refine ⟨Inv_run ord c w h.index, hcb.1.trans h.started, hcb.2.trans h.stopped, ?_, ?_⟩
    · show Linked (c.run ord w).1.matchesMap (c.run ord w).2.1
      rw [h1, h2, h.started, h.stopped]
      exact hw.1
    · show (c.run ord w).2.1.Inv
      rw [h2, h.started, h.stopped]
      exact hw.2
  | updateEndpointIPs key ips =>
    refine ⟨h.index, h.started, h.stopped, ?_, CalcInv_UpdateEndpointIPs ord key ips w.2
      h.calculator⟩
    intro t e
    show GoMap.contains w.1.matchesMap ⟨t, e⟩ = true ↔
      t ∈ (IpsetCalculator.UpdateEndpointIPs ord key ips w.2).1.ipSetsOf e
    rw [UpdateEndpointIPs_ipSetsOf]
    exact h.linked t e
  | deleteEndpoint key =>
    refine ⟨h.index, h.started, h.stopped, ?_, CalcInv_UpdateEndpointIPs ord key [] w.2
      h.calculator⟩
    intro t e
    show GoMap.contains w.1.matchesMap ⟨t, e⟩ = true ↔
      t ∈ (IpsetCalculator.UpdateEndpointIPs ord key [] w.2).1.ipSetsOf e
    rw [UpdateEndpointIPs_ipSetsOf]
    exact h.linked t e

theorem PipelineInv_runPipeline (calls : List (RangeOrder K × PipelineCall K A))
    (w : tagIndex K (IpsetCalculator K A τ × τ) × (IpsetCalculator K A τ × τ))
    (h : PipelineInv w) : PipelineInv (runPipeline calls w) := by
  induction calls generalizing w with
  | nil => exact h
  | cons c tl ih => exact ih _ (PipelineInv_run c.1 c.2 w h)

/-- C5: on the wired pipeline, after any sequence of calls of the four methods
of the index and of `UpdateEndpointIPs` and `DeleteEndpoint` of the
calculator, an address ip has a contributor recorded for the IP set t exactly
when some endpoint has ip in its stored address list and has a stored profile
whose stored tag list contains t. -/
theorem pipeline_membership (OnIPAdded OnIPRemoved : String → A → τ → τ) (t0 : τ)
    (calls : List (RangeOrder K × PipelineCall K A)) (t : String) (ip : A) :
    (∃ e, e ∈ (runPipeline calls
        (wiredIndex K A τ, (NewIpsetCalculator OnIPAdded OnIPRemoved, t0))).2.1.contributors
          t ip) ↔
    ∃ e, ip ∈ (runPipeline calls
        (wiredIndex K A τ, (NewIpsetCalculator OnIPAdded OnIPRemoved, t0))).2.1.ipsOf e ∧
      ∃ p, p ∈ (runPipeline calls
          (wiredIndex K A τ, (NewIpsetCalculator OnIPAdded OnIPRemoved, t0))).1.profilesOf e ∧
        t ∈ (runPipeline calls
          (wiredIndex K A τ, (NewIpsetCalculator OnIPAdded OnIPRemoved, t0))).1.tagsOf p := by
  have h := PipelineInv_runPipeline calls _ (PipelineInv_init (K := K) OnIPAdded OnIPRemoved t0)
  constructor
  · rintro ⟨e, he⟩
    have h1 := (h.calculator.members_iff t ip e).1 he
    exact ⟨e, h1.2, (Inv.entry_iff h.index t e).1 ((h.linked t e).2 h1.1)⟩
  · rintro ⟨e, h1, h2⟩
    exact ⟨e, (h.calculator.members_iff t ip e).2
      ⟨(h.linked t e).1 ((Inv.entry_iff h.index t e).2 h2), h1⟩⟩

end Pipeline

/-! ## The reverse index -/

section ReverseIndex

variable {K σ : Type} [DecidableEq K]

theorem RevNonempty_revAdd (key : K) (r : GoMap String (GoSet K)) (id : String)
    (h : RevNonempty r) : RevNonempty (revAdd key r id) := by
  intro p s hs
  unfold revAdd at hs
  rw [GoMap.get?_put] at hs
  by_cases hp : id = p
  · simp only [hp, if_true, Option.some.injEq] at hs
    rw [← hs]
    exact GoSet.add_ne_nil _ _
  · simp only [hp, if_false] at hs
    exact h p s hs

theorem get?_revRemove (key : K) (r : GoMap String (GoSet K)) (id p : String) :
    GoMap.get? (revRemove key r id) p =
      if id = p then
        (if GoSet.remove ((GoMap.get? r id).getD []) key = [] then none
          else some (GoSet.remove ((GoMap.get? r id).getD []) key))
      else GoMap.get? r p := by
  unfold revRemove
  by_cases hl : GoSet.len (GoSet.remove ((GoMap.get? r id).getD []) key) = 0
  · have hl' := (GoSet.len_eq_zero _).1 hl
    simp only [hl', GoSet.len, List.length_nil, if_true, GoMap.get?_delete]
    by_cases hp : id = p
    · simp [hp]
    · simp only [hp, if_false]
      by_cases hc : GoMap.contains r id = true
      · simp [hc, GoMap.get?_put, hp]
      · simp [hc]
  · have hl' : ¬ GoSet.remove ((GoMap.get? r id).getD []) key = [] :=
      fun h => hl ((GoSet.len_eq_zero _).2 h)
    have hc : GoMap.contains r id = true := by
      rcases h : GoMap.get? r id with _ | S
      · rw [h] at hl'
        exact absurd rfl hl'
      · simp [GoMap.contains, h]
    simp only [hl, if_false, hl', hc, if_true, GoMap.get?_put]

theorem RevNonempty_revRemove (key : K) (r : GoMap String (GoSet K)) (id : String)
    (h : RevNonempty r) : RevNonempty (revRemove key r id) := by
  intro p s hs
  rw [get?_revRemove] at hs
  by_cases hp : id = p
  · simp only [hp, if_true] at hs
    by_cases hr : GoSet.remove ((GoMap.get? r p).getD []) key = []
    · simp [hr] at hs
    · simp only [hr, if_false, Option.some.injEq] at hs
      rw [← hs]
      exact hr
  · simp only [hp, if_false] at hs
    exact h p s hs

theorem RevNonempty_foldl_revAdd (key : K) (ids : List String) (r : GoMap String (GoSet K))
    (h : RevNonempty r) : RevNonempty (ids.foldl (revAdd key) r) := by
  induction ids generalizing r with
  | nil => exact h
  | cons id tl ih => exact ih _ (RevNonempty_revAdd key r id h)

theorem RevNonempty_foldl_revRemove (key : K) (ids : List String)
    (r : GoMap String (GoSet K)) (h : RevNonempty r) :
    RevNonempty (ids.foldl (revRemove key) r) := by
  induction ids generalizing r with
  | nil => exact h
  | cons id tl ih => exact ih _ (RevNonempty_revRemove key r id h)

theorem UpdateProfileTags_rev (ord : RangeOrder K) (p : String) (tags : List String)
    (w : tagIndex K σ × σ) :
    (tagIndex.UpdateProfileTags ord p tags w).1.profileIDToEndpointKey =
      w.1.profileIDToEndpointKey := by
  rw [UpdateProfileTags_eq]
  rfl

theorem UpdateEndpoint_rev (ord : RangeOrder K) (key : K) (profileIDs : List String)
    (w : tagIndex K σ × σ) :
    (tagIndex.UpdateEndpoint ord key profileIDs w).1.profileIDToEndpointKey =
      revAfterUpdate ord key profileIDs w.1 := by
  rw [UpdateEndpoint_eq]

theorem RevNonempty_run (ord : RangeOrder K) (c : IndexCall K) (w : tagIndex K σ × σ)
    (h : RevNonempty w.1.profileIDToEndpointKey) :
    RevNonempty (c.run ord w).1.profileIDToEndpointKey := by
  cases c with
  | updateProfileTags p tags =>
    simp only [IndexCall.run, UpdateProfileTags_rev]
    exact h
  | deleteProfileTags p =>
    simp only [IndexCall.run, tagIndex.DeleteProfileTags, UpdateProfileTags_rev]
    exact h
  | updateEndpoint key ps =>
    simp only [IndexCall.run, UpdateEndpoint_rev, revAfterUpdate]
    exact RevNonempty_foldl_revRemove _ _ _ (RevNonempty_foldl_revAdd _ _ _ h)
  | deleteEndpoint key =>
    simp only [IndexCall.run, tagIndex.DeleteEndpoint, UpdateEndpoint_rev, revAfterUpdate]
    exact RevNonempty_foldl_revRemove _ _ _ (RevNonempty_foldl_revAdd _ _ _ h)

theorem RevNonempty_runIndex (calls : List (RangeOrder K × IndexCall K))
    (w : tagIndex K σ × σ) (h : RevNonempty w.1.profileIDToEndpointKey) :
    RevNonempty (runIndex calls w).1.profileIDToEndpointKey := by
  induction calls generalizing w with
  | nil => exact h
  | cons c tl ih => exact ih _ (RevNonempty_run c.1 c.2 w h)

/-- C11: after any sequence of calls on an index made by `NewIndex`, an
endpoint e is in the reverse index of a profile p exactly when p occurs in the
stored profile list of e, and the reverse index has no key whose set of
endpoints is empty. -/
theorem reverse_index_inverse (onMatchStarted onMatchStopped : MatchCallback K σ) (s0 : σ)
    (calls : List (RangeOrder K × IndexCall K)) (p : String) (e : K) :
    (e ∈ (runIndex calls (NewIndex onMatchStarted onMatchStopped, s0)).1.endpointsOf p ↔
      p ∈ (runIndex calls (NewIndex onMatchStarted onMatchStopped, s0)).1.profilesOf e) ∧
    ∀ s, GoMap.get?
        (runIndex calls (NewIndex onMatchStarted onMatchStopped, s0)).1.profileIDToEndpointKey
          p = some s → s ≠ [] := by
  have h : (runIndex calls (NewIndex onMatchStarted onMatchStopped, s0)).1.Inv :=
    Inv_runIndex calls _ (Inv_NewIndex onMatchStarted onMatchStopped)
  have h2 : RevNonempty
      (runIndex calls (NewIndex onMatchStarted onMatchStopped, s0)).1.profileIDToEndpointKey := by
    apply RevNonempty_runIndex
    intro p s hs
    simp [NewIndex] at hs
  exact ⟨h.reverse_iff p e, fun s hs => h2 p s hs⟩

end ReverseIndex

/-! ## Deletion of an endpoint -/

section Deletion

variable {K σ : Type} [DecidableEq K]

theorem UpdateEndpoint_get? (ord : RangeOrder K) (key : K) (profileIDs : List String)
    (w : tagIndex K σ × σ) (e : K) :
    GoMap.get? (tagIndex.UpdateEndpoint ord key profileIDs w).1.endpointKeyToProfileIDs.endpointKeyToProfileIDs
        e =
      if key = e then (if profileIDs.length > 0 then some profileIDs else none)
      else GoMap.get? w.1.endpointKeyToProfileIDs.endpointKeyToProfileIDs e := by
  rw [UpdateEndpoint_eq]
  by_cases h : profileIDs.length > 0
  · simp only [h, if_true, GoMap.get?_put]
  · simp only [h, if_false, GoMap.get?_delete]

/-- C12: after any sequence of calls on an index made by `NewIndex`, a call
`DeleteEndpoint(e)` leaves e without a key in the profile lists, outside the
reverse index of every profile and without an entry (t, e) in the match index
for any tag t; and it leaves the same state as `UpdateEndpoint(e, [])`. -/
theorem delete_endpoint_cascades (onMatchStarted onMatchStopped : MatchCallback K σ) (s0 : σ)
    (calls : List (RangeOrder K × IndexCall K)) (ord : RangeOrder K) (e : K) :
    GoMap.get? (tagIndex.DeleteEndpoint ord e
        (runIndex calls (NewIndex onMatchStarted onMatchStopped, s0))).1.endpointKeyToProfileIDs.endpointKeyToProfileIDs
        e = none ∧
    (∀ p, e ∉ (tagIndex.DeleteEndpoint ord e
        (runIndex calls (NewIndex onMatchStarted onMatchStopped, s0))).1.endpointsOf p) ∧
    (∀ t, GoMap.contains (tagIndex.DeleteEndpoint ord e
        (runIndex calls (NewIndex onMatchStarted onMatchStopped, s0))).1.matchesMap
        ⟨t, e⟩ = false) ∧
    tagIndex.DeleteEndpoint ord e
        (runIndex calls (NewIndex onMatchStarted onMatchStopped, s0)) =
      tagIndex.UpdateEndpoint ord e []
        (runIndex calls (NewIndex onMatchStarted onMatchStopped, s0)) := by
  have h0 : (runIndex calls (NewIndex onMatchStarted onMatchStopped, s0)).1.Inv :=
    Inv_runIndex calls _ (Inv_NewIndex onMatchStarted onMatchStopped)
  have h := Inv_UpdateEndpoint ord e [] _ h0
  have hp : (tagIndex.UpdateEndpoint ord e []
      (runIndex calls (NewIndex onMatchStarted onMatchStopped, s0))).1.profilesOf e = [] := by
    rw [UpdateEndpoint_profilesOf]
    simp
  unfold tagIndex.DeleteEndpoint
  refine ⟨?_, ?_, ?_, rfl⟩
  · rw [UpdateEndpoint_get?]
    simp
  · intro p hmem
    have := (h.reverse_iff p e).1 hmem
    rw [hp] at this
    simp at this
  · intro t
    rcases hc : GoMap.contains (tagIndex.UpdateEndpoint ord e []
        (runIndex calls (NewIndex onMatchStarted onMatchStopped, s0))).1.matchesMap ⟨t, e⟩
      with _ | _
    · rfl
    · obtain ⟨p, hp1, _⟩ := (Inv.entry_iff h t e).1 hc
      rw [hp] at hp1
      simp at hp1

end Deletion

/-! ## Stored lists -/

section StoredLists

variable {K A σ τ : Type} [DecidableEq K] [DecidableEq A]

theorem storedAs_of_length {α : Type} [DecidableEq α] (l : List α) :
    (if l.length > 0 then some l else none) = storedAs l := by
  cases l with
  | nil => rfl
  | cons a tl => simp [storedAs]

theorem UpdateProfileTags_stored (ord : RangeOrder K) (p : String) (tags : List String)
    (w : tagIndex K σ × σ) (q : String) :
    GoMap.get? (tagIndex.UpdateProfileTags ord p tags w).1.profileIDToTags q =
      if p = q then storedAs tags else GoMap.get? w.1.profileIDToTags q := by
  rw [UpdateProfileTags_eq, ← storedAs_of_length]
  by_cases h : tags.length > 0
  · simp only [h, if_true, GoMap.get?_put]
  · simp only [h, if_false, GoMap.get?_delete]

theorem UpdateProfileTags_profiles (ord : RangeOrder K) (p : String) (tags : List String)
    (w : tagIndex K σ × σ) :
    (tagIndex.UpdateProfileTags ord p tags w).1.endpointKeyToProfileIDs =
      w.1.endpointKeyToProfileIDs := by
  rw [UpdateProfileTags_eq]
  rfl

theorem UpdateEndpoint_tags (ord : RangeOrder K) (key : K) (profileIDs : List String)
    (w : tagIndex K σ × σ) :
    (tagIndex.UpdateEndpoint ord key profileIDs w).1.profileIDToTags = w.1.profileIDToTags := by
  rw [UpdateEndpoint_eq]
  rfl

theorem UpdateEndpoint_stored (ord : RangeOrder K) (key : K) (profileIDs : List String)
    (w : tagIndex K σ × σ) (e : K) :
    GoMap.get?
        (tagIndex.UpdateEndpoint ord key profileIDs w).1.endpointKeyToProfileIDs.endpointKeyToProfileIDs
        e =
      if key = e then storedAs profileIDs
      else GoMap.get? w.1.endpointKeyToProfileIDs.endpointKeyToProfileIDs e := by
  rw [UpdateEndpoint_get?, storedAs_of_length]

theorem UpdateEndpointIPs_stored (ord : RangeOrder K) (key : K) (ips : List A)
    (w : IpsetCalculator K A τ × τ) (e : K) :
    GoMap.get? (IpsetCalculator.UpdateEndpointIPs ord key ips w).1.keyToIPs e =
      if key = e then storedAs ips else GoMap.get? w.1.keyToIPs e := by
  rw [UpdateEndpointIPs_eq]
  by_cases hl : ips.length = 0
  · have h0 : ips = [] := List.length_eq_zero.1 hl
    subst h0
    simp only [List.length_nil, if_true, GoMap.get?_delete]
    rfl
  · have h0 : ¬ ips = [] := fun h => hl (by simp [h])
    simp only [hl, if_false, GoMap.get?_put, storedAs, h0]

theorem MatchStarted_keyToIPs (key : K) (s : String) (w : IpsetCalculator K A τ × τ) :
    (IpsetCalculator.MatchStarted key s w).1.keyToIPs = w.1.keyToIPs := by
  rw [MatchStarted_eq]

theorem MatchStopped_keyToIPs (key : K) (s : String) (w : IpsetCalculator K A τ × τ) :
    (IpsetCalculator.MatchStopped key s w).1.keyToIPs = w.1.keyToIPs := by
  rw [MatchStopped_eq]

theorem stored_tags_runIndex (calls : List (RangeOrder K × IndexCall K))
    (w : tagIndex K σ × σ) (p : String) (acc : List String)
    (h : GoMap.get? w.1.profileIDToTags p = storedAs acc) :
    GoMap.get? (runIndex calls w).1.profileIDToTags p = storedAs (lastTags calls p acc) := by
  induction calls generalizing w acc with
  | nil => exact h
  | cons c tl ih =>
    obtain ⟨ord, c⟩ := c
    apply ih
    cases c with
    | updateProfileTags q tags =>
      simp only [IndexCall.run, UpdateProfileTags_stored]
      by_cases hq : q = p <;> simp [hq, h]
    | deleteProfileTags q =>
      simp only [IndexCall.run, tagIndex.DeleteProfileTags, UpdateProfileTags_stored]
      by_cases hq : q = p <;> simp [hq, h]
    | updateEndpoint key ps =>
      simp only [IndexCall.run, UpdateEndpoint_tags]
      exact h
    | deleteEndpoint key =>
      simp only [IndexCall.run, tagIndex.DeleteEndpoint, UpdateEndpoint_tags]
      exact h

theorem stored_profiles_runIndex (calls : List (RangeOrder K × IndexCall K))
    (w : tagIndex K σ × σ) (e : K) (acc : List String)
    (h : GoMap.get? w.1.endpointKeyToProfileIDs.endpointKeyToProfileIDs e = storedAs acc) :
    GoMap.get? (runIndex calls w).1.endpointKeyToProfileIDs.endpointKeyToProfileIDs e =
      storedAs (lastProfiles calls e acc) := by
  induction calls generalizing w acc with
  | nil => exact h
  | cons c tl ih =>
    obtain ⟨ord, c⟩ := c
    apply ih
    cases c with
    | updateProfileTags q tags =>
      simp only [IndexCall.run, UpdateProfileTags_profiles]
      exact h
    | deleteProfileTags q =>
      simp only [IndexCall.run, tagIndex.DeleteProfileTags, UpdateProfileTags_profiles]
      exact h
    | updateEndpoint key ps =>
      simp only [IndexCall.run, UpdateEndpoint_stored]
      by_cases hq : key = e <;> simp [hq, h]
    | deleteEndpoint key =>
      simp only [IndexCall.run, tagIndex.DeleteEndpoint, UpdateEndpoint_stored]
      by_cases hq : key = e <;> simp [hq, h]

theorem stored_ips_runCalc (calls : List (RangeOrder K × CalcCall K A))
    (w : IpsetCalculator K A τ × τ) (e : K) (acc : List A)
    (h : GoMap.get? w.1.keyToIPs e = storedAs acc) :
    GoMap.get? (runCalc calls w).1.keyToIPs e = storedAs (lastIPs calls e acc) := by
  induction calls generalizing w acc with
  | nil => exact h
  | cons c tl ih =>
    obtain ⟨ord, c⟩ := c
    apply ih
    cases c with
    | matchStarted key s =>
      simp only [CalcCall.run, MatchStarted_keyToIPs]
      exact h
    | matchStopped key s =>
      simp only [CalcCall.run, MatchStopped_keyToIPs]
      exact h
    | updateEndpointIPs key ips =>
      simp only [CalcCall.run, UpdateEndpointIPs_stored]
      by_cases hq : key = e <;> simp [hq, h]
    | deleteEndpoint key =>
      simp only [CalcCall.run, IpsetCalculator.DeleteEndpoint, UpdateEndpointIPs_stored]
      by_cases hq : key = e <;> simp [hq, h]

end StoredLists

section StoredListsClaim

variable {K A σ τ : Type} [DecidableEq K] [DecidableEq A]

/-- C14: after any sequence of calls, `profileIDToTags` has a key p exactly
when the most recent `UpdateProfileTags` or `DeleteProfileTags` call for p
supplied a non-empty list, and then holds that list as it was supplied; the
same holds of `endpointKeyToProfileIDs` with `UpdateEndpoint` and
`DeleteEndpoint`, and of `keyToIPs` with `UpdateEndpointIPs` and
`DeleteEndpoint`; and each of these calls, in any state, stores the supplied
list under its key and leaves every other key as it was. -/
theorem stored_lists_are_last_supplied (onMatchStarted onMatchStopped : MatchCallback K σ)
    (s0 : σ) (OnIPAdded OnIPRemoved : String → A → τ → τ) (t0 : τ)
    (indexCalls : List (RangeOrder K × IndexCall K))
    (calcCalls : List (RangeOrder K × CalcCall K A)) :
    (∀ p, GoMap.get?
        (runIndex indexCalls (NewIndex onMatchStarted onMatchStopped, s0)).1.profileIDToTags p =
      storedAs (lastTags indexCalls p [])) ∧
    (∀ e, GoMap.get?
        (runIndex indexCalls
          (NewIndex onMatchStarted onMatchStopped, s0)).1.endpointKeyToProfileIDs.endpointKeyToProfileIDs
        e =
      storedAs (lastProfiles indexCalls e [])) ∧
    (∀ e, GoMap.get?
        (runCalc calcCalls (NewIpsetCalculator OnIPAdded OnIPRemoved, t0)).1.keyToIPs e =
      storedAs (lastIPs calcCalls e [])) ∧
    (∀ (ord : RangeOrder K) (p : String) (tags : List String) (w : tagIndex K σ × σ)
        (q : String),
      GoMap.get? (tagIndex.UpdateProfileTags ord p tags w).1.profileIDToTags q =
        if p = q then storedAs tags else GoMap.get? w.1.profileIDToTags q) ∧
    (∀ (ord : RangeOrder K) (key : K) (profileIDs : List String) (w : tagIndex K σ × σ)
        (e : K),
      GoMap.get?
          (tagIndex.UpdateEndpoint ord key profileIDs
            w).1.endpointKeyToProfileIDs.endpointKeyToProfileIDs e =
        if key = e then storedAs profileIDs
        else GoMap.get? w.1.endpointKeyToProfileIDs.endpointKeyToProfileIDs e) ∧
    (∀ (ord : RangeOrder K) (key : K) (ips : List A) (w : IpsetCalculator K A τ × τ) (e : K),
      GoMap.get? (IpsetCalculator.UpdateEndpointIPs ord key ips w).1.keyToIPs e =
        if key = e then storedAs ips else GoMap.get? w.1.keyToIPs e) :=
  ⟨fun p => stored_tags_runIndex indexCalls _ p [] rfl,
    fun e => stored_profiles_runIndex indexCalls _ e [] rfl,
    fun e => stored_ips_runCalc calcCalls _ e [] rfl,
    UpdateProfileTags_stored, UpdateEndpoint_stored, UpdateEndpointIPs_stored⟩

end StoredListsClaim

/-! ## Additions before removals -/

section Ordering

variable {K : Type} [DecidableEq K]

theorem adds_log_started (acts : List (IndexAct K))
    (hadds : ∀ a ∈ acts, ∃ e t p, a = IndexAct.add e t p)
    (c : GoMap (indexKey K) (GoSet String) × List (MatchEvent K)) :
    ∃ l, (runActs logStarted logStopped acts c).2 = c.2 ++ l ∧
      ∀ ev ∈ l, ∃ k t, ev = MatchEvent.started k t := by
  induction acts generalizing c with
  | nil => exact ⟨[], by simp [runActs], by simp⟩
  | cons a tl ih =>
    obtain ⟨e, t, p, rfl⟩ := hadds a (List.mem_cons_self _ _)
    obtain ⟨l, hl, hall⟩ := ih (fun a ha => hadds a (List.mem_cons_of_mem _ ha))
      ((IndexAct.add e t p).step logStarted logStopped c)
    rw [runActs_cons, hl, step_add_snd]
    by_cases hc : GoMap.contains c.1 ⟨t, e⟩ = true
    · exact ⟨l, by simp [hc], hall⟩
    · refine ⟨MatchEvent.started e t :: l, by simp [hc, logStarted], ?_⟩
      intro ev hev
      rcases List.mem_cons.1 hev with h | h
      · exact ⟨e, t, h⟩
      · exact hall ev h

theorem removes_log_stopped (acts : List (IndexAct K))
    (hrem : ∀ a ∈ acts, ∃ e t p, a = IndexAct.remove e t p)
    (c : GoMap (indexKey K) (GoSet String) × List (MatchEvent K)) :
    ∃ l, (runActs logStarted logStopped acts c).2 = c.2 ++ l ∧
      ∀ ev ∈ l, ∃ k t, ev = MatchEvent.stopped k t := by
  induction acts generalizing c with
  | nil => exact ⟨[], by simp [runActs], by simp⟩
  | cons a tl ih =>
    obtain ⟨e, t, p, rfl⟩ := hrem a (List.mem_cons_self _ _)
    obtain ⟨l, hl, hall⟩ := ih (fun a ha => hrem a (List.mem_cons_of_mem _ ha))
      ((IndexAct.remove e t p).step logStarted logStopped c)
    rw [runActs_cons, hl, step_remove_snd]
    by_cases hr : GoSet.remove (matchSet c.1 t e) p = []
    · refine ⟨MatchEvent.stopped e t :: l, by simp [hr, logStopped], ?_⟩
      intro ev hev
      rcases List.mem_cons.1 hev with h | h
      · exact ⟨e, t, h⟩
      · exact hall ev h
    · exact ⟨l, by simp [hr], hall⟩

/-- C18: in every reachable state of the index, the callbacks that one call
`UpdateEndpoint(e, profileIDs)` emits are a run of `onMatchStarted` calls
followed by a run of `onMatchStopped` calls, whatever the iteration orders. -/
theorem started_before_stopped (calls : List (RangeOrder K × IndexCall K))
    (ord : RangeOrder K) (e : K) (profileIDs : List String) :
    ∃ l1 l2,
      (IndexCall.updateEndpoint e profileIDs).events ord (runIndex calls (freshIndex K)).1 =
        l1 ++ l2 ∧
      (∀ ev ∈ l1, ∃ k t, ev = MatchEvent.started k t) ∧
      (∀ ev ∈ l2, ∃ k t, ev = MatchEvent.stopped k t) := by
  have hreach : (runIndex calls (freshIndex K)).1.Reachable := ⟨calls, rfl⟩
  obtain ⟨hS, hT⟩ := Reachable.callbacks hreach
  generalize (runIndex calls (freshIndex K)).1 = idx at hS hT
  simp only [IndexCall.events, IndexCall.run, UpdateEndpoint_snd, hS, hT, tagIndex.core]
  unfold actsUpdateEndpoint
  simp only []
  rw [runActs_append]
  have hadds : ∀ a ∈ (rangeOrder (ord.strs e)
      (profileIDs.foldl diffStep (copyOld (idx.profilesOf e), [])).2).flatMap
        (fun id => (idx.tagsOf id).map (fun tag => IndexAct.add e tag id)),
      ∃ e' t' p', a = IndexAct.add e' t' p' := by
    intro a ha
    simp only [List.mem_flatMap, List.mem_map] at ha
    obtain ⟨id, _, tag, _, rfl⟩ := ha
    exact ⟨e, tag, id, rfl⟩
  have hrem : ∀ a ∈ (rangeOrder (ord.strs e)
      (profileIDs.foldl diffStep (copyOld (idx.profilesOf e), [])).1).flatMap
        (fun id => (idx.tagsOf id).map (fun tag => IndexAct.remove e tag id)),
      ∃ e' t' p', a = IndexAct.remove e' t' p' := by
    intro a ha
    simp only [List.mem_flatMap, List.mem_map] at ha
    obtain ⟨id, _, tag, _, rfl⟩ := ha
    exact ⟨e, tag, id, rfl⟩
  obtain ⟨l1, h1, hall1⟩ := adds_log_started _ hadds (idx.matchesMap, [])
  obtain ⟨l2, h2, hall2⟩ := removes_log_stopped _ hrem
    (runActs logStarted logStopped
      ((rangeOrder (ord.strs e)
        (profileIDs.foldl diffStep (copyOld (idx.profilesOf e), [])).2).flatMap
          (fun id => (idx.tagsOf id).map (fun tag => IndexAct.add e tag id)))
      (idx.matchesMap, []))
  refine ⟨l1, l2, ?_, hall1, hall2⟩
  rw [h2, h1]
  simp

end Ordering

/-! ## The concrete scenario on the wired pipeline -/

/-- C13: on a fresh index wired to a fresh calculator, the calls
`UpdateProfileTags("p1", ["red"])`, `UpdateEndpoint(1, ["p1"])`,
`UpdateEndpointIPs(1, [10.0.0.1])` on the calculator, `DeleteEndpoint(1)` on
the index and `DeleteEndpoint(1)` on the calculator emit, whatever the
iteration orders, exactly `onMatchStarted(1, "red")`, `OnIPAdded("red",
10.0.0.1)`, `onMatchStopped(1, "red")`, `OnIPRemoved("red", 10.0.0.1)`, in
that order. -/
theorem wired_scenario_trace (o1 o2 o3 o4 o5 : RangeOrder Nat) :
    (runPipeline
      [(o1, PipelineCall.index (IndexCall.updateProfileTags "p1" ["red"])),
       (o2, PipelineCall.index (IndexCall.updateEndpoint 1 ["p1"])),
       (o3, PipelineCall.updateEndpointIPs 1 [((10, 0, 0, 1) : IPv4)]),
       (o4, PipelineCall.index (IndexCall.deleteEndpoint 1)),
       (o5, PipelineCall.deleteEndpoint 1)]
      (tracedIndex Nat IPv4, (tracedCalc Nat IPv4, []))).2.2 =
    [PipelineEvent.matchStarted 1 "red", PipelineEvent.ipAdded "red" (10, 0, 0, 1),
     PipelineEvent.matchStopped 1 "red", PipelineEvent.ipRemoved "red" (10, 0, 0, 1)] := by
  simp only [runPipeline, List.foldl_cons, List.foldl_nil, PipelineCall.run, IndexCall.run,
    tracedIndex, tracedCalc, NewIndex, NewIpsetCalculator, tagIndex.DeleteEndpoint,
    tagIndex.UpdateProfileTags, tagIndex.UpdateEndpoint, EndpointKeyToProfileIDMap.Update,
    IpsetCalculator.DeleteEndpoint, IpsetCalculator.UpdateEndpointIPs, Multidict.Iter]
  simp [GoMap.get?, GoMap.put, GoMap.delete, copyOld, diffStep, GoSet.has, GoSet.add,
    GoSet.remove, rangeOrder_singleton, tagIndex.addProfileID, tagIndex.removeProfileID,
    tagIndex.addToIndex, tagIndex.removeFromIndex, GoMap.contains, GoSet.len,
    IpsetCalculator.MatchStarted, IpsetCalculator.MatchStopped,
    IpsetCalculator.addMatchToIndex, IpsetCalculator.removeMatchFromIndex,
    Multidict.Put, Multidict.Discard, Multidict.ContainsKey, Multidict.Len, GoMap.len,
    addedIPsOf, removedIPsOf]

/-! ## Leftover entries and unmatched stops -/

/-- C15, at the failing input: after `MatchStarted(0, "s")` on a fresh
calculator, for an endpoint that has no address, `ipSetIDToIPToKey` has the key
"s" although the IP set "s" tracks no address. -/
theorem empty_entry_after_match_started :
    (runCalc [(RangeOrder.insertion Nat, CalcCall.matchStarted 0 "s")]
      (freshCalc Nat IPv4)).1.ipSetIDToIPToKey = [("s", [])] ∧
    GoMap.contains
      (runCalc [(RangeOrder.insertion Nat, CalcCall.matchStarted 0 "s")]
        (freshCalc Nat IPv4)).1.ipSetIDToIPToKey "s" = true ∧
    Multidict.Len
      ((runCalc [(RangeOrder.insertion Nat, CalcCall.matchStarted 0 "s")]
        (freshCalc Nat IPv4)).1.membersOf "s") = 0 := by
  exact ⟨rfl, rfl, rfl⟩

/-- C19, at the failing inputs: after `UpdateEndpointIPs(0, [10.0.0.1])` on a
fresh calculator, endpoint 0 is not recorded as contributing to "s", yet
`MatchStopped(0, "s")` emits `OnIPRemoved("s", 10.0.0.1)`; and after
`MatchStarted(1, "s")` and `UpdateEndpointIPs(0, [10.0.0.1])`, endpoint 0 is
not recorded as contributing to "s", yet `MatchStopped(0, "s")` deletes the
entry of "s" from `ipSetIDToIPToKey`. -/
theorem unmatched_stop_fires_removed (o1 o2 o3 : RangeOrder Nat) :
    "s" ∉ (runCalc [(o1, CalcCall.updateEndpointIPs 0 [((10, 0, 0, 1) : IPv4)])]
      (freshCalc Nat IPv4)).1.ipSetsOf 0 ∧
    (CalcCall.matchStopped 0 "s").events o2
      (runCalc [(o1, CalcCall.updateEndpointIPs 0 [((10, 0, 0, 1) : IPv4)])]
        (freshCalc Nat IPv4)).1 = [IPEvent.removed "s" (10, 0, 0, 1)] ∧
    "s" ∉ (runCalc [(o1, CalcCall.matchStarted 1 "s"),
        (o2, CalcCall.updateEndpointIPs 0 [((10, 0, 0, 1) : IPv4)])]
      (freshCalc Nat IPv4)).1.ipSetsOf 0 ∧
    (runCalc [(o1, CalcCall.matchStarted 1 "s"),
        (o2, CalcCall.updateEndpointIPs 0 [((10, 0, 0, 1) : IPv4)])]
      (freshCalc Nat IPv4)).1.ipSetIDToIPToKey = [("s", [])] ∧
    ((CalcCall.matchStopped 0 "s").run o3
      ((runCalc [(o1, CalcCall.matchStarted 1 "s"),
          (o2, CalcCall.updateEndpointIPs 0 [((10, 0, 0, 1) : IPv4)])]
        (freshCalc Nat IPv4)).1, [])).1.ipSetIDToIPToKey = [] := by
  refine ⟨?_, ?_, ?_, ?_, ?_⟩ <;>
  · simp only [runCalc, List.foldl_cons, List.foldl_nil, CalcCall.run, CalcCall.events,
      freshCalc, NewIpsetCalculator, IpsetCalculator.MatchStopped,
      IpsetCalculator.MatchStarted, IpsetCalculator.UpdateEndpointIPs, Multidict.Iter,
      IpsetCalculator.ipSetsOf]
    simp [GoMap.get?, GoMap.put, GoMap.delete, GoSet.has, GoSet.add, GoSet.remove,
      IpsetCalculator.addMatchToIndex, IpsetCalculator.removeMatchFromIndex, GoMap.contains,
      GoSet.len, logAdded, logRemoved, Multidict.Put, Multidict.Discard,
      Multidict.ContainsKey, Multidict.Len, GoMap.len, addedIPsOf, removedIPsOf]

/-- C20, at the failing input: in the state after `UpdateEndpointIPs(0,
[10.0.0.1])` on a fresh calculator, `MatchStarted(0, "s")` followed by
`UpdateEndpointIPs(0, [])` leaves `ipSetIDToIPToKey` without the key "s",
while `UpdateEndpointIPs(0, [])` followed by `MatchStarted(0, "s")` leaves it
with the key "s". -/
theorem order_changes_outer_keys (o1 o2 o3 : RangeOrder Nat) :
    GoMap.contains
      (runCalc [(o2, CalcCall.matchStarted 0 "s"), (o3, CalcCall.updateEndpointIPs 0 [])]
        ((runCalc [(o1, CalcCall.updateEndpointIPs 0 [((10, 0, 0, 1) : IPv4)])]
          (freshCalc Nat IPv4)).1, [])).1.ipSetIDToIPToKey "s" = false ∧
    GoMap.contains
      (runCalc [(o3, CalcCall.updateEndpointIPs 0 []), (o2, CalcCall.matchStarted 0 "s")]
        ((runCalc [(o1, CalcCall.updateEndpointIPs 0 [((10, 0, 0, 1) : IPv4)])]
          (freshCalc Nat IPv4)).1, [])).1.ipSetIDToIPToKey "s" = true := by
  refine ⟨?_, ?_⟩ <;>
  · simp only [runCalc, List.foldl_cons, List.foldl_nil, CalcCall.run,
      freshCalc, NewIpsetCalculator, IpsetCalculator.MatchStarted,
      IpsetCalculator.UpdateEndpointIPs, Multidict.Iter]
    simp [GoMap.get?, GoMap.put, GoMap.delete, GoSet.has, GoSet.add, GoSet.remove,
      rangeOrder_singleton, IpsetCalculator.addMatchToIndex,
      IpsetCalculator.removeMatchFromIndex, GoMap.contains,
      GoSet.len, logAdded, logRemoved, Multidict.Put, Multidict.Discard,
      Multidict.ContainsKey, Multidict.Len, GoMap.len, addedIPsOf, removedIPsOf]

/-! ## The callbacks of a sequence of elementary updates -/

section ActEvents

variable {K : Type} [DecidableEq K]

theorem step_log (a : IndexAct K) (m : GoMap (indexKey K) (GoSet String))
    (log : List (MatchEvent K)) :
    a.step logStarted logStopped (m, log) =
      ((a.step logStarted logStopped (m, ([] : List (MatchEvent K)))).1,
        log ++ (a.step logStarted logStopped (m, ([] : List (MatchEvent K)))).2) := by
  have h1 := step_fst_indep logStarted logStopped logStarted logStopped a m log
    ([] : List (MatchEvent K))
  have h2 : (a.step logStarted logStopped (m, log)).2 =
      log ++ (a.step logStarted logStopped (m, ([] : List (MatchEvent K)))).2 := by
    cases a with
    | add e t p =>
      simp only [step_add_snd]
      by_cases hc : GoMap.contains m ⟨t, e⟩ = true <;> simp [hc, logStarted]
    | remove e t p =>
      simp only [step_remove_snd]
      by_cases hr : GoSet.remove (matchSet m t e) p = [] <;> simp [hr, logStopped]
  rw [← h1, ← h2]

theorem runActs_log (acts : List (IndexAct K)) (m : GoMap (indexKey K) (GoSet String))
    (log : List (MatchEvent K)) :
    runActs logStarted logStopped acts (m, log) = (actMatches acts m, log ++ actEvents acts m) := by
  induction acts generalizing m log with
  | nil => simp [runActs, actMatches, actEvents]
  | cons a tl ih =>
    unfold actMatches actEvents
    rw [runActs_cons, runActs_cons, step_log a m log]
    generalize a.step logStarted logStopped (m, ([] : List (MatchEvent K))) = X
    obtain ⟨m', l'⟩ := X
    simp only [ih, List.nil_append, List.append_assoc]

theorem actEvents_nil (m : GoMap (indexKey K) (GoSet String)) :
    actEvents ([] : List (IndexAct K)) m = [] := rfl

theorem actMatches_nil (m : GoMap (indexKey K) (GoSet String)) :
    actMatches ([] : List (IndexAct K)) m = m := rfl

theorem actEvents_cons (a : IndexAct K) (tl : List (IndexAct K))
    (m : GoMap (indexKey K) (GoSet String)) :
    actEvents (a :: tl) m = actEvents [a] m ++ actEvents tl (actMatches [a] m) := by
  unfold actEvents actMatches
  rw [runActs_cons, runActs_cons, runActs_nil]
  generalize a.step logStarted logStopped (m, ([] : List (MatchEvent K))) = X
  obtain ⟨m', l'⟩ := X
  rw [runActs_log tl m' l']
  rfl

theorem actMatches_cons (a : IndexAct K) (tl : List (IndexAct K))
    (m : GoMap (indexKey K) (GoSet String)) :
    actMatches (a :: tl) m = actMatches tl (actMatches [a] m) := by
  unfold actMatches
  rw [runActs_cons, runActs_cons, runActs_nil]
  generalize a.step logStarted logStopped (m, ([] : List (MatchEvent K))) = X
  obtain ⟨m', l'⟩ := X
  rw [runActs_log tl m' l']
  rfl

theorem actEvents_add (e : K) (t p : String) (m : GoMap (indexKey K) (GoSet String)) :
    actEvents [IndexAct.add e t p] m =
      if GoMap.contains m ⟨t, e⟩ then [] else [MatchEvent.started e t] := by
  unfold actEvents
  rw [runActs_cons, runActs_nil, step_add_snd]
  by_cases hc : GoMap.contains m ⟨t, e⟩ = true <;> simp [hc, logStarted]

theorem actEvents_remove (e : K) (t p : String) (m : GoMap (indexKey K) (GoSet String)) :
    actEvents [IndexAct.remove e t p] m =
      if GoSet.remove (matchSet m t e) p = [] then [MatchEvent.stopped e t] else [] := by
  unfold actEvents
  rw [runActs_cons, runActs_nil, step_remove_snd]
  by_cases hr : GoSet.remove (matchSet m t e) p = [] <;> simp [hr, logStopped]

theorem contains_actMatches_add (e : K) (t p : String) (m : GoMap (indexKey K) (GoSet String))
    (k : indexKey K) :
    GoMap.contains (actMatches [IndexAct.add e t p] m) k =
      (decide ((⟨t, e⟩ : indexKey K) = k) || GoMap.contains m k) := by
  unfold actMatches
  rw [runActs_cons, runActs_nil, GoMap.contains, step_add_get?]
  by_cases hk : (⟨t, e⟩ : indexKey K) = k <;> simp [hk, GoMap.contains]

theorem contains_actMatches_remove_ne (e : K) (t p : String)
    (m : GoMap (indexKey K) (GoSet String)) (k : indexKey K) (hk : (⟨t, e⟩ : indexKey K) ≠ k) :
    GoMap.contains (actMatches [IndexAct.remove e t p] m) k = GoMap.contains m k := by
  unfold actMatches
  rw [runActs_cons, runActs_nil, GoMap.contains, step_remove_get?]
  simp [hk, GoMap.contains]

theorem mem_matchSet_actMatches_add (e : K) (t p : String)
    (m : GoMap (indexKey K) (GoSet String)) (t' : String) (e' : K) (q : String) :
    q ∈ matchSet (actMatches [IndexAct.add e t p] m) t' e' ↔
      q ∈ matchSet m t' e' ∨ (t' = t ∧ e' = e ∧ q = p) :=
  mem_matchSet_step_add logStarted logStopped e t p (m, []) t' e' q

theorem mem_matchSet_actMatches_remove (e : K) (t p : String)
    (m : GoMap (indexKey K) (GoSet String)) (t' : String) (e' : K) (q : String) :
    q ∈ matchSet (actMatches [IndexAct.remove e t p] m) t' e' ↔
      q ∈ matchSet m t' e' ∧ ¬ (t' = t ∧ e' = e ∧ q = p) :=
  mem_matchSet_step_remove logStarted logStopped e t p (m, []) t' e' q

end ActEvents

section CountEvents

variable {K : Type} [DecidableEq K]

theorem count_started_actEvents_add (e e0 : K) (t t0 p0 : String)
    (m : GoMap (indexKey K) (GoSet String)) :
    List.count (MatchEvent.started e t) (actEvents [IndexAct.add e0 t0 p0] m) =
      if e0 = e ∧ t0 = t ∧ GoMap.contains m ⟨t, e⟩ = false then 1 else 0 := by
  rw [actEvents_add]
  by_cases hk : e0 = e ∧ t0 = t
  · obtain ⟨rfl, rfl⟩ := hk
    by_cases hc : GoMap.contains m ⟨t0, e0⟩ = true <;> simp [hc]
  · have hne : ¬ (e0 = e ∧ t0 = t ∧ GoMap.contains m ⟨t, e⟩ = false) := fun h => hk ⟨h.1, h.2.1⟩
    have hev : MatchEvent.started e0 t0 ≠ MatchEvent.started e t := by
      intro h
      cases h
      exact hk ⟨rfl, rfl⟩
    by_cases hc : GoMap.contains m ⟨t0, e0⟩ = true
    · simp [hc, hne]
    · simp only [hc, Bool.false_eq_true, if_false, hne]
      rw [List.count_singleton]
      simp [hev]

theorem count_started_actEvents_remove (e e0 : K) (t t0 p0 : String)
    (m : GoMap (indexKey K) (GoSet String)) :
    List.count (MatchEvent.started e t) (actEvents [IndexAct.remove e0 t0 p0] m) = 0 := by
  rw [actEvents_remove]
  by_cases hr : GoSet.remove (matchSet m t0 e0) p0 = []
  · simp only [hr, if_true]
    rw [List.count_singleton]
    simp
  · simp [hr]

/-- The number of `onMatchStarted(e, t)` calls that a sequence of elementary
updates emits, when no addition to a pair follows a removal from it: one when
the pair has no entry at the start and some profile is added to it, none
otherwise. -/
theorem count_started (e : K) (t : String) (acts : List (IndexAct K))
    (hpw : acts.Pairwise QuietAfterRemove) (m : GoMap (indexKey K) (GoSet String)) :
    ((GoMap.contains m ⟨t, e⟩ = false ∧ ∃ p, IndexAct.add e t p ∈ acts) →
      List.count (MatchEvent.started e t) (actEvents acts m) = 1) ∧
    (¬ (GoMap.contains m ⟨t, e⟩ = false ∧ ∃ p, IndexAct.add e t p ∈ acts) →
      List.count (MatchEvent.started e t) (actEvents acts m) = 0) := by
  induction acts generalizing m with
  | nil =>
    refine ⟨?_, fun _ => rfl⟩
    rintro ⟨_, p, hp⟩
    simp at hp
  | cons a tl ih =>
    rw [List.pairwise_cons] at hpw
    have IH := ih hpw.2 (actMatches [a] m)
    rw [actEvents_cons, List.count_append]
    cases a with
    | add e0 t0 p0 =>
      rw [count_started_actEvents_add]
      by_cases hk : e0 = e ∧ t0 = t
      · obtain ⟨rfl, rfl⟩ := hk
        have hafter : GoMap.contains (actMatches [IndexAct.add e0 t0 p0] m) ⟨t0, e0⟩ = true := by
          rw [contains_actMatches_add]
          simp
        have h0 := IH.2 (fun h => by simp [hafter] at h)
        rw [h0]
        by_cases hc : GoMap.contains m ⟨t0, e0⟩ = true
        · simp [hc]
        · have hc' : GoMap.contains m ⟨t0, e0⟩ = false := by simpa using hc
          simp only [hc', and_self, if_true, true_and, Nat.add_zero, forall_true_left,
            not_exists, one_ne_zero, imp_false, not_forall, not_not]
          exact ⟨fun _ => trivial, ⟨p0, List.mem_cons_self _ _⟩⟩
      · have hne : ¬ (e0 = e ∧ t0 = t ∧ GoMap.contains m ⟨t, e⟩ = false) :=
          fun h => hk ⟨h.1, h.2.1⟩
        have hkey : (⟨t0, e0⟩ : indexKey K) ≠ ⟨t, e⟩ := by
          intro h
          obtain ⟨rfl, rfl⟩ := indexKey.mk.inj h
          exact hk ⟨rfl, rfl⟩
        have hafter : GoMap.contains (actMatches [IndexAct.add e0 t0 p0] m) ⟨t, e⟩ =
            GoMap.contains m ⟨t, e⟩ := by
          rw [contains_actMatches_add]
          simp [hkey]
        have hex : (∃ p, IndexAct.add e t p ∈ IndexAct.add e0 t0 p0 :: tl) ↔
            ∃ p, IndexAct.add e t p ∈ tl := by
          constructor
          · rintro ⟨p, hp⟩
            rcases List.mem_cons.1 hp with h | h
            · cases h
              exact absurd ⟨rfl, rfl⟩ hk
            · exact ⟨p, h⟩
          · rintro ⟨p, hp⟩
            exact ⟨p, List.mem_cons_of_mem _ hp⟩
        rw [hafter] at IH
        simp only [hne, if_false, Nat.zero_add, hex]
        exact IH
    | remove e0 t0 p0 =>
      rw [count_started_actEvents_remove, Nat.zero_add]
      have hex : (∃ p, IndexAct.add e t p ∈ IndexAct.remove e0 t0 p0 :: tl) ↔
          ∃ p, IndexAct.add e t p ∈ tl := by
        constructor
        · rintro ⟨p, hp⟩
          rcases List.mem_cons.1 hp with h | h
          · cases h
          · exact ⟨p, h⟩
        · rintro ⟨p, hp⟩
          exact ⟨p, List.mem_cons_of_mem _ hp⟩
      rw [hex]
      by_cases hk : e0 = e ∧ t0 = t
      · obtain ⟨rfl, rfl⟩ := hk
        have hno : ¬ ∃ p, IndexAct.add e0 t0 p ∈ tl := by
          rintro ⟨p, hp⟩
          exact (hpw.1 _ hp e0 t0 p0 rfl).1 p rfl
        have h0 := IH.2 (fun h => hno h.2)
        exact ⟨fun h => absurd h.2 hno, fun _ => h0⟩
      · have hkey : (⟨t0, e0⟩ : indexKey K) ≠ ⟨t, e⟩ := by
          intro h
          obtain ⟨rfl, rfl⟩ := indexKey.mk.inj h
          exact hk ⟨rfl, rfl⟩
        rw [contains_actMatches_remove_ne _ _ _ _ _ hkey] at IH
        exact IH

end CountEvents

section CountStopped

variable {K : Type} [DecidableEq K]

theorem matchSet_grows (e : K) (t : String) (acts : List (IndexAct K))
    (h : ∀ p, IndexAct.remove e t p ∉ acts) (m : GoMap (indexKey K) (GoSet String)) (q : String)
    (hq : q ∈ matchSet m t e) : q ∈ matchSet (actMatches acts m) t e := by
  induction acts generalizing m with
  | nil => exact hq
  | cons a tl ih =>
    rw [actMatches_cons]
    apply ih (fun p hp => h p (List.mem_cons_of_mem _ hp))
    cases a with
    | add e0 t0 p0 => exact (mem_matchSet_actMatches_add _ _ _ _ _ _ _).2 (Or.inl hq)
    | remove e0 t0 p0 =>
      refine (mem_matchSet_actMatches_remove _ _ _ _ _ _ _).2 ⟨hq, ?_⟩
      rintro ⟨rfl, rfl, rfl⟩
      exact h _ (List.mem_cons_self _ _)

theorem matchSet_shrinks (e : K) (t : String) (acts : List (IndexAct K))
    (h : ∀ p, IndexAct.add e t p ∉ acts) (m : GoMap (indexKey K) (GoSet String)) (q : String)
    (hq : q ∈ matchSet (actMatches acts m) t e) : q ∈ matchSet m t e := by
  induction acts generalizing m with
  | nil => exact hq
  | cons a tl ih =>
    rw [actMatches_cons] at hq
    have h1 := ih (fun p hp => h p (List.mem_cons_of_mem _ hp)) _ hq
    cases a with
    | add e0 t0 p0 =>
      rcases (mem_matchSet_actMatches_add _ _ _ _ _ _ _).1 h1 with h2 | ⟨rfl, rfl, rfl⟩
      · exact h2
      · exact absurd (List.mem_cons_self _ _) (h _)
    | remove e0 t0 p0 => exact ((mem_matchSet_actMatches_remove _ _ _ _ _ _ _).1 h1).1

theorem count_stopped_actEvents_add (e e0 : K) (t t0 p0 : String)
    (m : GoMap (indexKey K) (GoSet String)) :
    List.count (MatchEvent.stopped e t) (actEvents [IndexAct.add e0 t0 p0] m) = 0 := by
  rw [actEvents_add]
  by_cases hc : GoMap.contains m ⟨t0, e0⟩ = true
  · simp [hc]
  · simp only [hc, Bool.false_eq_true, if_false]
    rw [List.count_singleton]
    simp

theorem count_stopped_actEvents_remove (e e0 : K) (t t0 p0 : String)
    (m : GoMap (indexKey K) (GoSet String)) :
    List.count (MatchEvent.stopped e t) (actEvents [IndexAct.remove e0 t0 p0] m) =
      if e0 = e ∧ t0 = t ∧ GoSet.remove (matchSet m t e) p0 = [] then 1 else 0 := by
  rw [actEvents_remove]
  by_cases hk : e0 = e ∧ t0 = t
  · obtain ⟨rfl, rfl⟩ := hk
    by_cases hr : GoSet.remove (matchSet m t0 e0) p0 = [] <;> simp [hr]
  · have hne : ¬ (e0 = e ∧ t0 = t ∧ GoSet.remove (matchSet m t e) p0 = []) :=
      fun h => hk ⟨h.1, h.2.1⟩
    have hev : MatchEvent.stopped e0 t0 ≠ MatchEvent.stopped e t := by
      intro h
      cases h
      exact hk ⟨rfl, rfl⟩
    by_cases hr : GoSet.remove (matchSet m t0 e0) p0 = []
    · simp only [hr, if_true, hne, if_false]
      rw [List.count_singleton]
      simp [hev]
    · simp [hr, hne]

/-- The number of `onMatchStopped(e, t)` calls that a sequence of elementary
updates emits, when nothing follows a removal from a pair but removals of
other profiles, and every profile removed from (t, e) is in its match set at
the start: one when some profile is removed from the pair and its match set is
empty at the end, none otherwise. -/
theorem count_stopped (e : K) (t : String) (acts : List (IndexAct K))
    (hpw : acts.Pairwise QuietAfterRemove) (m : GoMap (indexKey K) (GoSet String))
    (hval : ∀ p, IndexAct.remove e t p ∈ acts → p ∈ matchSet m t e) :
    (((∃ p, IndexAct.remove e t p ∈ acts) ∧ matchSet (actMatches acts m) t e = []) →
      List.count (MatchEvent.stopped e t) (actEvents acts m) = 1) ∧
    (¬ ((∃ p, IndexAct.remove e t p ∈ acts) ∧ matchSet (actMatches acts m) t e = []) →
      List.count (MatchEvent.stopped e t) (actEvents acts m) = 0) := by
  induction acts generalizing m with
  | nil =>
    refine ⟨?_, fun _ => rfl⟩
    rintro ⟨⟨p, hp⟩, _⟩
    simp at hp
  | cons a tl ih =>
    rw [List.pairwise_cons] at hpw
    rw [actEvents_cons, List.count_append, actMatches_cons]
    cases a with
    | add e0 t0 p0 =>
      have hval' : ∀ p, IndexAct.remove e t p ∈ tl →
          p ∈ matchSet (actMatches [IndexAct.add e0 t0 p0] m) t e := fun p hp =>
        (mem_matchSet_actMatches_add _ _ _ _ _ _ _).2
          (Or.inl (hval p (List.mem_cons_of_mem _ hp)))
      have IH := ih hpw.2 _ hval'
      have hex : (∃ p, IndexAct.remove e t p ∈ IndexAct.add e0 t0 p0 :: tl) ↔
          ∃ p, IndexAct.remove e t p ∈ tl := by
        constructor
        · rintro ⟨p, hp⟩
          rcases List.mem_cons.1 hp with h | h
          · cases h
          · exact ⟨p, h⟩
        · rintro ⟨p, hp⟩
          exact ⟨p, List.mem_cons_of_mem _ hp⟩
      rw [count_stopped_actEvents_add, Nat.zero_add, hex]
      exact IH
    | remove e0 t0 p0 =>
      rw [count_stopped_actEvents_remove]
      by_cases hk : e0 = e ∧ t0 = t
      · obtain ⟨rfl, rfl⟩ := hk
        have hnoadd : ∀ p, IndexAct.add e0 t0 p ∉ tl := fun p hp =>
          (hpw.1 _ hp e0 t0 p0 rfl).1 p rfl
        have hnosame : IndexAct.remove e0 t0 p0 ∉ tl := fun hp =>
          (hpw.1 _ hp e0 t0 p0 rfl).2 rfl
        have hval' : ∀ p, IndexAct.remove e0 t0 p ∈ tl →
            p ∈ matchSet (actMatches [IndexAct.remove e0 t0 p0] m) t0 e0 := by
          intro p hp
          refine (mem_matchSet_actMatches_remove _ _ _ _ _ _ _).2
            ⟨hval p (List.mem_cons_of_mem _ hp), ?_⟩
          rintro ⟨_, _, rfl⟩
          exact hnosame hp
        have IH := ih hpw.2 _ hval'
        have hafter : ∀ q, q ∈ matchSet (actMatches [IndexAct.remove e0 t0 p0] m) t0 e0 ↔
            q ∈ GoSet.remove (matchSet m t0 e0) p0 := by
          intro q
          rw [mem_matchSet_actMatches_remove, GoSet.mem_remove]
          simp
        by_cases hr : GoSet.remove (matchSet m t0 e0) p0 = []
        · have hempty : ∀ q, q ∉ matchSet (actMatches [IndexAct.remove e0 t0 p0] m) t0 e0 := by
            intro q hq
            have := (hafter q).1 hq
            rw [hr] at this
            simp at this
          have hnorem : ¬ ∃ p, IndexAct.remove e0 t0 p ∈ tl := by
            rintro ⟨p, hp⟩
            exact hempty p (hval' p hp)
          have h0 := IH.2 (fun h => hnorem h.1)
          have hfinal : matchSet (actMatches tl (actMatches [IndexAct.remove e0 t0 p0] m))
              t0 e0 = [] := by
            apply List.eq_nil_iff_forall_not_mem.2
            intro q hq
            exact hempty q (matchSet_shrinks e0 t0 tl hnoadd _ q hq)
          rw [h0]
          simp only [hr, and_self, if_true, true_and, Nat.add_zero]
          refine ⟨fun _ => trivial, fun h => absurd ⟨⟨p0, List.mem_cons_self _ _⟩, hfinal⟩ h⟩
        · simp only [hr, and_false, if_false, Nat.zero_add]
          have hcond : ((∃ p, IndexAct.remove e0 t0 p ∈ IndexAct.remove e0 t0 p0 :: tl) ∧
              matchSet (actMatches tl (actMatches [IndexAct.remove e0 t0 p0] m)) t0 e0 = []) ↔
              ((∃ p, IndexAct.remove e0 t0 p ∈ tl) ∧
              matchSet (actMatches tl (actMatches [IndexAct.remove e0 t0 p0] m)) t0 e0 = []) := by
            constructor
            · rintro ⟨_, hfin⟩
              refine ⟨?_, hfin⟩
              by_contra hno
              obtain ⟨q, hq⟩ := List.exists_mem_of_ne_nil _ hr
              have hq' := matchSet_grows e0 t0 tl (fun p hp => hno ⟨p, hp⟩) _ q ((hafter q).2 hq)
              rw [hfin] at hq'
              simp at hq'
            · rintro ⟨⟨p, hp⟩, hfin⟩
              exact ⟨⟨p, List.mem_cons_of_mem _ hp⟩, hfin⟩
          rw [hcond]
          exact IH
      · have hne : ¬ (e0 = e ∧ t0 = t ∧ GoSet.remove (matchSet m t e) p0 = []) :=
          fun h => hk ⟨h.1, h.2.1⟩
        have hval' : ∀ p, IndexAct.remove e t p ∈ tl →
            p ∈ matchSet (actMatches [IndexAct.remove e0 t0 p0] m) t e := by
          intro p hp
          refine (mem_matchSet_actMatches_remove _ _ _ _ _ _ _).2
            ⟨hval p (List.mem_cons_of_mem _ hp), ?_⟩
          rintro ⟨rfl, rfl, _⟩
          exact hk ⟨rfl, rfl⟩
        have IH := ih hpw.2 _ hval'
        have hex : (∃ p, IndexAct.remove e t p ∈ IndexAct.remove e0 t0 p0 :: tl) ↔
            ∃ p, IndexAct.remove e t p ∈ tl := by
          constructor
          · rintro ⟨p, hp⟩
            rcases List.mem_cons.1 hp with h | h
            · cases h
              exact absurd ⟨rfl, rfl⟩ hk
            · exact ⟨p, h⟩
          · rintro ⟨p, hp⟩
            exact ⟨p, List.mem_cons_of_mem _ hp⟩
        simp only [hne, if_false, Nat.zero_add, hex]
        exact IH

end CountStopped

/-! ## Exact callbacks of the index -/

section ExactIndexEvents

variable {K : Type} [DecidableEq K]

omit [DecidableEq K] in
theorem quiet_of_add (e : K) (t p : String) (b : IndexAct K) :
    QuietAfterRemove (IndexAct.add e t p) b := by
  intro e' t' p' h
  cases h

omit [DecidableEq K] in
theorem pairwise_removes (key : K) (id : String) (tags : List String) (h : tags.Nodup) :
    (tags.map (fun tag => IndexAct.remove key tag id)).Pairwise QuietAfterRemove := by
  rw [List.pairwise_map]
  refine List.Pairwise.imp ?_ h
  intro t1 t2 hne e t p h1
  cases h1
  refine ⟨fun p' h2 => (by cases h2), fun h2 => ?_⟩
  cases h2
  exact hne rfl

theorem pairwise_actsUpdateProfileTags {σ : Type} (ord : RangeOrder K) (p : String)
    (tags : List String) (idx : tagIndex K σ) :
    (actsUpdateProfileTags ord p tags idx).Pairwise QuietAfterRemove := by
  unfold actsUpdateProfileTags
  simp only []
  rw [List.pairwise_flatMap]
  constructor
  · intro ep _
    rw [List.pairwise_append]
    refine ⟨?_, ?_, ?_⟩
    · rw [List.pairwise_map]
      exact List.pairwise_of_forall (fun x y => quiet_of_add ep x p _)
    · rw [List.pairwise_map]
      refine List.Pairwise.imp ?_ (nodup_rangeOrder _ _)
      intro t1 t2 hne e t p' h1
      cases h1
      refine ⟨fun p'' h2 => (by cases h2), fun h2 => ?_⟩
      cases h2
      exact hne rfl
    · intro a ha b _
      simp only [List.mem_map] at ha
      obtain ⟨tag, _, rfl⟩ := ha
      exact quiet_of_add ep tag p b
  · refine List.Nodup.pairwise_of_forall_ne (nodup_rangeOrder _ _) ?_
    intro e1 _ e2 _ hne a ha b hb e t p' h1
    subst h1
    simp only [List.mem_append, List.mem_map, reduceCtorEq, and_false, exists_false, false_or,
      IndexAct.remove.injEq] at ha
    obtain ⟨_, _, rfl, _, _⟩ := ha
    simp only [List.mem_append, List.mem_map] at hb
    refine ⟨fun p'' h2 => ?_, fun h2 => ?_⟩
    · subst h2
      rcases hb with ⟨_, _, h3⟩ | ⟨_, _, h3⟩
      · cases h3
        exact hne rfl
      · cases h3
    · subst h2
      rcases hb with ⟨_, _, h3⟩ | ⟨_, _, h3⟩
      · cases h3
      · cases h3
        exact hne rfl

theorem pairwise_actsUpdateEndpoint {σ : Type} (ord : RangeOrder K) (key : K)
    (profileIDs : List String) (idx : tagIndex K σ) (hn : TagsNodup idx) :
    (actsUpdateEndpoint ord key profileIDs idx).Pairwise QuietAfterRemove := by
  unfold actsUpdateEndpoint
  simp only []
  rw [List.pairwise_append]
  refine ⟨?_, ?_, ?_⟩
  · apply List.pairwise_of_forall_mem_list
    intro a ha b _
    simp only [List.mem_flatMap, List.mem_map] at ha
    obtain ⟨id, _, tag, _, rfl⟩ := ha
    exact quiet_of_add key tag id b
  · rw [List.pairwise_flatMap]
    constructor
    · intro id _
      exact pairwise_removes key id _ (hn id)
    · refine List.Nodup.pairwise_of_forall_ne (nodup_rangeOrder _ _) ?_
      intro id1 _ id2 _ hne a ha b hb e t p' h1
      subst h1
      simp only [List.mem_map, IndexAct.remove.injEq] at ha
      obtain ⟨_, _, _, _, rfl⟩ := ha
      simp only [List.mem_map] at hb
      obtain ⟨_, _, rfl⟩ := hb
      refine ⟨fun p'' h2 => (by cases h2), fun h2 => ?_⟩
      cases h2
      exact hne rfl
  · intro a ha b _
    simp only [List.mem_flatMap, List.mem_map] at ha
    obtain ⟨id, _, tag, _, rfl⟩ := ha
    exact quiet_of_add key tag id b

theorem TagsNodup_run {σ : Type} (ord : RangeOrder K) (c : IndexCall K)
    (hc : c.tagsDistinct = true) (w : tagIndex K σ × σ) (h : TagsNodup w.1) :
    TagsNodup (c.run ord w).1 := by
  intro q
  cases c with
  | updateProfileTags p tags =>
    simp only [IndexCall.run, UpdateProfileTags_tagsOf]
    by_cases hq : p = q
    · simp only [hq, if_true]
      simpa [IndexCall.tagsDistinct] using hc
    · simp only [hq, if_false]
      exact h q
  | deleteProfileTags p =>
    simp only [IndexCall.run, tagIndex.DeleteProfileTags, UpdateProfileTags_tagsOf]
    by_cases hq : p = q
    · simp [hq]
    · simp only [hq, if_false]
      exact h q
  | updateEndpoint key ps =>
    simp only [IndexCall.run, UpdateEndpoint_tagsOf]
    exact h q
  | deleteEndpoint key =>
    simp only [IndexCall.run, tagIndex.DeleteEndpoint, UpdateEndpoint_tagsOf]
    exact h q

theorem TagsNodup_runIndex {σ : Type} (calls : List (RangeOrder K × IndexCall K))
    (hcalls : ∀ c ∈ calls, c.2.tagsDistinct = true) (w : tagIndex K σ × σ)
    (h : TagsNodup w.1) : TagsNodup (runIndex calls w).1 := by
  induction calls generalizing w with
  | nil => exact h
  | cons c tl ih =>
    exact ih (fun c' hc' => hcalls c' (List.mem_cons_of_mem _ hc')) _
      (TagsNodup_run c.1 c.2 (hcalls c (List.mem_cons_self _ _)) w h)

theorem pairwise_acts {σ : Type} (ord : RangeOrder K) (c : IndexCall K) (idx : tagIndex K σ)
    (hn : TagsNodup idx) : (c.acts ord idx).Pairwise QuietAfterRemove := by
  cases c with
  | updateProfileTags p tags => exact pairwise_actsUpdateProfileTags ord p tags idx
  | deleteProfileTags p => exact pairwise_actsUpdateProfileTags ord p [] idx
  | updateEndpoint key ps => exact pairwise_actsUpdateEndpoint ord key ps idx hn
  | deleteEndpoint key => exact pairwise_actsUpdateEndpoint ord key [] idx hn

theorem events_eq_actEvents (ord : RangeOrder K) (c : IndexCall K)
    (idx : tagIndex K (List (MatchEvent K))) (hS : idx.onMatchStarted = logStarted)
    (hT : idx.onMatchStopped = logStopped) :
    c.events ord idx = actEvents (c.acts ord idx) idx.matchesMap ∧
      (c.run ord (idx, [])).1.matchesMap = actMatches (c.acts ord idx) idx.matchesMap := by
  cases c with
  | updateProfileTags p tags =>
    simp only [IndexCall.events, IndexCall.run, UpdateProfileTags_snd,
      UpdateProfileTags_matchesMap, hS, hT]
    exact ⟨rfl, rfl⟩
  | deleteProfileTags p =>
    simp only [IndexCall.events, IndexCall.run, tagIndex.DeleteProfileTags,
      UpdateProfileTags_snd, UpdateProfileTags_matchesMap, hS, hT]
    exact ⟨rfl, rfl⟩
  | updateEndpoint key ps =>
    simp only [IndexCall.events, IndexCall.run, UpdateEndpoint_snd, UpdateEndpoint_matchesMap,
      hS, hT]
    exact ⟨rfl, rfl⟩
  | deleteEndpoint key =>
    simp only [IndexCall.events, IndexCall.run, tagIndex.DeleteEndpoint, UpdateEndpoint_snd,
      UpdateEndpoint_matchesMap, hS, hT]
    exact ⟨rfl, rfl⟩

end ExactIndexEvents

section ExactIndexEventsGeneric

variable {K : Type} [DecidableEq K]

theorem Inv.not_matched_iff {σ : Type} {idx : tagIndex K σ} (h : idx.Inv) (t : String) (e : K) :
    ¬ idx.matched e t ↔ GoMap.contains idx.matchesMap ⟨t, e⟩ = false := by
  have h1 : GoMap.contains idx.matchesMap ⟨t, e⟩ = true ↔ idx.matched e t :=
    Inv.entry_iff h t e
  rw [← h1]
  simp

theorem Inv.matchSet_eq_nil_iff {σ : Type} {idx : tagIndex K σ} (h : idx.Inv) (t : String)
    (e : K) : matchSet idx.matchesMap t e = [] ↔ ¬ idx.matched e t := by
  rw [List.eq_nil_iff_forall_not_mem]
  constructor
  · rintro hall ⟨p, hp⟩
    exact hall p ((h.matches_iff t e p).2 hp)
  · intro hno p hp
    exact hno ⟨p, (h.matches_iff t e p).1 hp⟩

/-- The callbacks of a call are exact when its elementary updates are ordered,
remove only profiles that the match sets hold, add to an unmatched pair exactly
when the pair matches afterwards, and remove from a pair that is unmatched
afterwards exactly when the pair matched before. -/
theorem exact_events_of_acts (pre post : tagIndex K (List (MatchEvent K)))
    (hpre : pre.Inv) (hpost : post.Inv) (acts : List (IndexAct K))
    (evs : List (MatchEvent K)) (hev : evs = actEvents acts pre.matchesMap)
    (hm : post.matchesMap = actMatches acts pre.matchesMap)
    (hpw : acts.Pairwise QuietAfterRemove)
    (hval : ∀ e t p, IndexAct.remove e t p ∈ acts → p ∈ matchSet pre.matchesMap t e)
    (hA : ∀ e t, ¬ pre.matched e t → ((∃ q, IndexAct.add e t q ∈ acts) ↔ post.matched e t))
    (hB : ∀ e t, ¬ post.matched e t →
      ((∃ q, IndexAct.remove e t q ∈ acts) ↔ pre.matched e t)) :
    evs.Nodup ∧
    ∀ e t,
      (MatchEvent.started e t ∈ evs ↔ post.matched e t ∧ ¬ pre.matched e t) ∧
      (MatchEvent.stopped e t ∈ evs ↔ pre.matched e t ∧ ¬ post.matched e t) := by
  subst hev
  have hT := fun e t => count_started e t acts hpw pre.matchesMap
  have hS := fun e t => count_stopped e t acts hpw pre.matchesMap (hval e t)
  have hcT : ∀ e t, (GoMap.contains pre.matchesMap ⟨t, e⟩ = false ∧
      ∃ p, IndexAct.add e t p ∈ acts) ↔ (post.matched e t ∧ ¬ pre.matched e t) := by
    intro e t
    rw [← Inv.not_matched_iff hpre t e]
    constructor
    · rintro ⟨h1, h2⟩
      exact ⟨(hA e t h1).1 h2, h1⟩
    · rintro ⟨h1, h2⟩
      exact ⟨h2, (hA e t h2).2 h1⟩
  have hcS : ∀ e t, ((∃ p, IndexAct.remove e t p ∈ acts) ∧
      matchSet (actMatches acts pre.matchesMap) t e = []) ↔
      (pre.matched e t ∧ ¬ post.matched e t) := by
    intro e t
    rw [← hm, Inv.matchSet_eq_nil_iff hpost t e]
    constructor
    · rintro ⟨h1, h2⟩
      exact ⟨(hB e t h2).1 h1, h2⟩
    · rintro ⟨h1, h2⟩
      exact ⟨(hB e t h2).2 h1, h2⟩
  refine ⟨?_, ?_⟩
  · rw [List.nodup_iff_count_le_one]
    intro ev
    cases ev with
    | started e t =>
      by_cases hc : GoMap.contains pre.matchesMap ⟨t, e⟩ = false ∧
          ∃ p, IndexAct.add e t p ∈ acts
      · rw [(hT e t).1 hc]
      · rw [(hT e t).2 hc]
        exact Nat.zero_le _
    | stopped e t =>
      by_cases hc : (∃ p, IndexAct.remove e t p ∈ acts) ∧
          matchSet (actMatches acts pre.matchesMap) t e = []
      · rw [(hS e t).1 hc]
      · rw [(hS e t).2 hc]
        exact Nat.zero_le _
  · intro e t
    refine ⟨?_, ?_⟩
    · rw [← hcT e t, ← List.count_pos_iff]
      constructor
      · intro hpos
        by_contra hc
        rw [(hT e t).2 hc] at hpos
        exact absurd hpos (by decide)
      · intro hc
        rw [(hT e t).1 hc]
        exact Nat.one_pos
    · rw [← hcS e t, ← List.count_pos_iff]
      constructor
      · intro hpos
        by_contra hc
        rw [(hS e t).2 hc] at hpos
        exact absurd hpos (by decide)
      · intro hc
        rw [(hS e t).1 hc]
        exact Nat.one_pos

end ExactIndexEventsGeneric

section ExactIndexEventsCalls

variable {K : Type} [DecidableEq K]

theorem exact_UpdateProfileTags (idx : tagIndex K (List (MatchEvent K))) (hinv : idx.Inv)
    (hS : idx.onMatchStarted = logStarted) (hT : idx.onMatchStopped = logStopped)
    (ord : RangeOrder K) (p : String) (tags : List String) :
    (tagIndex.UpdateProfileTags ord p tags (idx, [])).2.Nodup ∧
    ∀ e t,
      (MatchEvent.started e t ∈ (tagIndex.UpdateProfileTags ord p tags (idx, [])).2 ↔
        (tagIndex.UpdateProfileTags ord p tags (idx, [])).1.matched e t ∧ ¬ idx.matched e t) ∧
      (MatchEvent.stopped e t ∈ (tagIndex.UpdateProfileTags ord p tags (idx, [])).2 ↔
        idx.matched e t ∧ ¬ (tagIndex.UpdateProfileTags ord p tags (idx, [])).1.matched e t) := by
  have hsub : ∀ t, t ∈ (tags.foldl diffStep (copyOld (idx.tagsOf p), [])).2 → t ∈ tags := by
    intro t ht
    rcases mem_diff_added_sub _ _ _ ht with h5 | h5
    · simp at h5
    · exact h5
  have hpostm : ∀ e t, (tagIndex.UpdateProfileTags ord p tags (idx, [])).1.matched e t ↔
      ∃ q, q ∈ idx.profilesOf e ∧ t ∈ (if p = q then tags else idx.tagsOf q) := by
    intro e t
    unfold tagIndex.matched
    simp only [UpdateProfileTags_profilesOf, UpdateProfileTags_tagsOf]
  apply exact_events_of_acts idx _ hinv (Inv_UpdateProfileTags ord p tags (idx, []) hinv)
    (actsUpdateProfileTags ord p tags idx)
  · rw [UpdateProfileTags_snd]
    simp only [hS, hT]
    rfl
  · rw [UpdateProfileTags_matchesMap]
    simp only [hS, hT]
    rfl
  · exact pairwise_actsUpdateProfileTags ord p tags idx
  · intro e t q hq
    rw [remove_mem_actsUpdateProfileTags, mem_diff_removed] at hq
    obtain ⟨rfl, he, ht, _⟩ := hq
    exact (hinv.matches_iff t e q).2 ⟨(hinv.reverse_iff q e).1 he, (mem_copyOld _ _).1 ht⟩
  · intro e t hpre
    rw [hpostm]
    constructor
    · rintro ⟨q, hq⟩
      rw [add_mem_actsUpdateProfileTags] at hq
      obtain ⟨rfl, he, ht⟩ := hq
      exact ⟨q, (hinv.reverse_iff q e).1 he, by simpa using hsub t ht⟩
    · rintro ⟨q, hq1, hq2⟩
      by_cases hpq : p = q
      · subst hpq
        simp only [if_true] at hq2
        refine ⟨p, (add_mem_actsUpdateProfileTags _ _ _ _ _ _ _).2
          ⟨rfl, (hinv.reverse_iff p e).2 hq1, mem_diff_added_of_new _ _ _ hq2 ?_⟩⟩
        intro hold
        exact hpre ⟨p, hq1, (mem_copyOld _ _).1 hold⟩
      · simp only [hpq, if_false] at hq2
        exact absurd ⟨q, hq1, hq2⟩ hpre
  · intro e t hpost
    rw [hpostm] at hpost
    constructor
    · rintro ⟨q, hq⟩
      rw [remove_mem_actsUpdateProfileTags, mem_diff_removed] at hq
      obtain ⟨rfl, he, ht, _⟩ := hq
      exact ⟨q, (hinv.reverse_iff q e).1 he, (mem_copyOld _ _).1 ht⟩
    · rintro ⟨q, hq1, hq2⟩
      by_cases hpq : p = q
      · subst hpq
        refine ⟨p, (remove_mem_actsUpdateProfileTags _ _ _ _ _ _ _).2
          ⟨rfl, (hinv.reverse_iff p e).2 hq1, (mem_diff_removed _ _ _).2
            ⟨(mem_copyOld _ _).2 hq2, ?_⟩⟩⟩
        intro hnew
        exact hpost ⟨p, hq1, by simpa using hnew⟩
      · exact absurd ⟨q, hq1, by simpa [hpq] using hq2⟩ hpost

theorem exact_UpdateEndpoint (idx : tagIndex K (List (MatchEvent K))) (hinv : idx.Inv)
    (hn : TagsNodup idx)
    (hS : idx.onMatchStarted = logStarted) (hT : idx.onMatchStopped = logStopped)
    (ord : RangeOrder K) (key : K) (ps : List String) :
    (tagIndex.UpdateEndpoint ord key ps (idx, [])).2.Nodup ∧
    ∀ e t,
      (MatchEvent.started e t ∈ (tagIndex.UpdateEndpoint ord key ps (idx, [])).2 ↔
        (tagIndex.UpdateEndpoint ord key ps (idx, [])).1.matched e t ∧ ¬ idx.matched e t) ∧
      (MatchEvent.stopped e t ∈ (tagIndex.UpdateEndpoint ord key ps (idx, [])).2 ↔
        idx.matched e t ∧ ¬ (tagIndex.UpdateEndpoint ord key ps (idx, [])).1.matched e t) := by
  have hsub : ∀ q, q ∈ (ps.foldl diffStep (copyOld (idx.profilesOf key), [])).2 → q ∈ ps := by
    intro q hq
    rcases mem_diff_added_sub _ _ _ hq with h5 | h5
    · simp at h5
    · exact h5
  have hpostm : ∀ e t, (tagIndex.UpdateEndpoint ord key ps (idx, [])).1.matched e t ↔
      ∃ q, q ∈ (if key = e then ps else idx.profilesOf e) ∧ t ∈ idx.tagsOf q := by
    intro e t
    unfold tagIndex.matched
    simp only [UpdateEndpoint_profilesOf, UpdateEndpoint_tagsOf]
  apply exact_events_of_acts idx _ hinv (Inv_UpdateEndpoint ord key ps (idx, []) hinv)
    (actsUpdateEndpoint ord key ps idx)
  · rw [UpdateEndpoint_snd]
    simp only [hS, hT]
    rfl
  · rw [UpdateEndpoint_matchesMap]
    simp only [hS, hT]
    rfl
  · exact pairwise_actsUpdateEndpoint ord key ps idx hn
  · intro e t q hq
    rw [remove_mem_actsUpdateEndpoint, mem_diff_removed] at hq
    obtain ⟨rfl, ⟨hq1, _⟩, ht⟩ := hq
    exact (hinv.matches_iff t e q).2 ⟨(mem_copyOld _ _).1 hq1, ht⟩
  · intro e t hpre
    rw [hpostm]
    constructor
    · rintro ⟨q, hq⟩
      rw [add_mem_actsUpdateEndpoint] at hq
      obtain ⟨rfl, hq1, ht⟩ := hq
      exact ⟨q, by simpa using hsub q hq1, ht⟩
    · rintro ⟨q, hq1, hq2⟩
      by_cases hke : key = e
      · subst hke
        simp only [if_true] at hq1
        refine ⟨q, (add_mem_actsUpdateEndpoint _ _ _ _ _ _ _).2
          ⟨rfl, mem_diff_added_of_new _ _ _ hq1 ?_, hq2⟩⟩
        intro hold
        exact hpre ⟨q, (mem_copyOld _ _).1 hold, hq2⟩
      · simp only [hke, if_false] at hq1
        exact absurd ⟨q, hq1, hq2⟩ hpre
  · intro e t hpost
    rw [hpostm] at hpost
    constructor
    · rintro ⟨q, hq⟩
      rw [remove_mem_actsUpdateEndpoint, mem_diff_removed] at hq
      obtain ⟨rfl, ⟨hq1, _⟩, ht⟩ := hq
      exact ⟨q, (mem_copyOld _ _).1 hq1, ht⟩
    · rintro ⟨q, hq1, hq2⟩
      by_cases hke : key = e
      · subst hke
        refine ⟨q, (remove_mem_actsUpdateEndpoint _ _ _ _ _ _ _).2
          ⟨rfl, (mem_diff_removed _ _ _).2 ⟨(mem_copyOld _ _).2 hq1, ?_⟩, hq2⟩⟩
        intro hnew
        exact hpost ⟨q, by simpa using hnew, hq2⟩
      · exact absurd ⟨q, by simpa [hke] using hq1, hq2⟩ hpost

/-- C16: in a state reached from a fresh index by calls whose
`UpdateProfileTags` tag lists have no repeated tag, the callbacks that one
further call emits are exactly one `onMatchStarted(e, t)` for each pair that
matches after the call and did not before, and one `onMatchStopped(e, t)` for
each pair that matched before the call and does not after: no callback is
emitted twice and a callback is emitted exactly for those pairs. -/
theorem exact_index_events (calls : List (RangeOrder K × IndexCall K))
    (hcalls : ∀ c ∈ calls, c.2.tagsDistinct = true) (ord : RangeOrder K)
    (call : IndexCall K) :
    (call.events ord (runIndex calls (freshIndex K)).1).Nodup ∧
    ∀ e t,
      (MatchEvent.started e t ∈ call.events ord (runIndex calls (freshIndex K)).1 ↔
        (call.run ord ((runIndex calls (freshIndex K)).1, [])).1.matched e t ∧
          ¬ (runIndex calls (freshIndex K)).1.matched e t) ∧
      (MatchEvent.stopped e t ∈ call.events ord (runIndex calls (freshIndex K)).1 ↔
        (runIndex calls (freshIndex K)).1.matched e t ∧
          ¬ (call.run ord ((runIndex calls (freshIndex K)).1, [])).1.matched e t) := by
  have hr : (runIndex calls (freshIndex K)).1.Reachable := ⟨calls, rfl⟩
  have hinv := Reachable.inv hr
  obtain ⟨hS, hT⟩ := Reachable.callbacks hr
  have hn : TagsNodup (runIndex calls (freshIndex K)).1 := by
    apply TagsNodup_runIndex calls hcalls
    intro p
    simp [freshIndex, NewIndex, tagIndex.tagsOf]
  cases call with
  | updateProfileTags p tags => exact exact_UpdateProfileTags _ hinv hS hT ord p tags
  | deleteProfileTags p => exact exact_UpdateProfileTags _ hinv hS hT ord p []
  | updateEndpoint key ps => exact exact_UpdateEndpoint _ hinv hn hS hT ord key ps
  | deleteEndpoint key => exact exact_UpdateEndpoint _ hinv hn hS hT ord key []

end ExactIndexEventsCalls

/-- C16, on the churn scenario followed by `UpdateEndpoint(0, ["B"])`: the
tag lists of the scenario have no repeated tag, and the callbacks of the call
are exact. -/
theorem exact_index_events_witness :
    (∀ c ∈ churnCalls, c.2.tagsDistinct = true) ∧
    ((IndexCall.updateEndpoint 0 ["B"]).events (RangeOrder.insertion Nat)
        (runIndex churnCalls (freshIndex Nat)).1).Nodup ∧
    ∀ e t,
      (MatchEvent.started e t ∈ (IndexCall.updateEndpoint 0 ["B"]).events
          (RangeOrder.insertion Nat) (runIndex churnCalls (freshIndex Nat)).1 ↔
        ((IndexCall.updateEndpoint 0 ["B"]).run (RangeOrder.insertion Nat)
            ((runIndex churnCalls (freshIndex Nat)).1, [])).1.matched e t ∧
          ¬ (runIndex churnCalls (freshIndex Nat)).1.matched e t) ∧
      (MatchEvent.stopped e t ∈ (IndexCall.updateEndpoint 0 ["B"]).events
          (RangeOrder.insertion Nat) (runIndex churnCalls (freshIndex Nat)).1 ↔
        (runIndex churnCalls (freshIndex Nat)).1.matched e t ∧
          ¬ ((IndexCall.updateEndpoint 0 ["B"]).run (RangeOrder.insertion Nat)
            ((runIndex churnCalls (freshIndex Nat)).1, [])).1.matched e t) :=
  ⟨by decide, exact_index_events churnCalls (by decide) (RangeOrder.insertion Nat)
    (IndexCall.updateEndpoint 0 ["B"])⟩

/-! ## Exact callbacks of the calculator -/

section IPActEvents

variable {K A : Type} [DecidableEq K] [DecidableEq A]

theorem runCalcActs_nil {τ : Type} (onA onR : String → A → τ → τ)
    (c : GoMap String (IfaceToIface A K) × τ) :
    runCalcActs onA onR ([] : List (CalcAct K A)) c = c := rfl

theorem calc_step_log (a : CalcAct K A) (m : GoMap String (IfaceToIface A K))
    (log : List (IPEvent A)) :
    a.step logAdded logRemoved (m, log) =
      ((a.step logAdded logRemoved (m, ([] : List (IPEvent A)))).1,
        log ++ (a.step logAdded logRemoved (m, ([] : List (IPEvent A)))).2) := by
  cases a with
  | ensure s => simp [CalcAct.step]
  | add s e ip =>
    by_cases hk : Multidict.ContainsKey ((GoMap.get? m s).getD []) ip = true <;>
      simp [CalcAct.step, hk, logAdded]
  | remove s e ip =>
    by_cases hk : Multidict.ContainsKey
        (Multidict.Discard ((GoMap.get? m s).getD []) ip e) ip = true <;>
      simp [CalcAct.step, hk, logRemoved]

theorem runCalcActs_log (acts : List (CalcAct K A)) (m : GoMap String (IfaceToIface A K))
    (log : List (IPEvent A)) :
    runCalcActs logAdded logRemoved acts (m, log) = (ipMembers acts m, log ++ ipEvents acts m) := by
  induction acts generalizing m log with
  | nil => simp [runCalcActs, ipMembers, ipEvents]
  | cons a tl ih =>
    unfold ipMembers ipEvents
    rw [runCalcActs_cons, runCalcActs_cons, calc_step_log a m log]
    generalize a.step logAdded logRemoved (m, ([] : List (IPEvent A))) = X
    obtain ⟨m', l'⟩ := X
    simp only [ih, List.nil_append, List.append_assoc]

theorem ipEvents_nil (m : GoMap String (IfaceToIface A K)) :
    ipEvents ([] : List (CalcAct K A)) m = [] := rfl

theorem ipMembers_nil (m : GoMap String (IfaceToIface A K)) :
    ipMembers ([] : List (CalcAct K A)) m = m := rfl

theorem ipEvents_cons (a : CalcAct K A) (tl : List (CalcAct K A))
    (m : GoMap String (IfaceToIface A K)) :
    ipEvents (a :: tl) m = ipEvents [a] m ++ ipEvents tl (ipMembers [a] m) := by
  unfold ipEvents ipMembers
  rw [runCalcActs_cons, runCalcActs_cons]
  generalize a.step logAdded logRemoved (m, ([] : List (IPEvent A))) = X
  obtain ⟨m', l'⟩ := X
  rw [runCalcActs_log tl m' l']
  rfl

theorem ipMembers_cons (a : CalcAct K A) (tl : List (CalcAct K A))
    (m : GoMap String (IfaceToIface A K)) :
    ipMembers (a :: tl) m = ipMembers tl (ipMembers [a] m) := by
  unfold ipMembers
  rw [runCalcActs_cons, runCalcActs_cons]
  generalize a.step logAdded logRemoved (m, ([] : List (IPEvent A))) = X
  obtain ⟨m', l'⟩ := X
  rw [runCalcActs_log tl m' l']
  rfl

theorem ipEvents_ensure (s : String) (m : GoMap String (IfaceToIface A K)) :
    ipEvents [(CalcAct.ensure s : CalcAct K A)] m = [] := rfl

theorem ipEvents_add (s : String) (e : K) (ip : A) (m : GoMap String (IfaceToIface A K)) :
    ipEvents [CalcAct.add s e ip] m =
      if Multidict.ContainsKey (membersIn m s) ip then [] else [IPEvent.added s ip] := by
  unfold ipEvents
  rw [runCalcActs_cons, runCalcActs_nil, step_snd_add]
  by_cases hc : Multidict.ContainsKey (membersIn m s) ip = true <;>
    simp [hc, logAdded, runCalcActs]

theorem containsKey_Discard (md : IfaceToIface A K) (ip : A) (e : K) :
    Multidict.ContainsKey (Multidict.Discard md ip e) ip =
      !decide (GoSet.remove ((GoMap.get? md ip).getD []) e = []) := by
  unfold Multidict.ContainsKey GoMap.contains
  rw [Multidict.get?_Discard]
  by_cases hr : GoSet.remove ((GoMap.get? md ip).getD []) e = [] <;> simp [hr]

theorem ipEvents_remove (s : String) (e : K) (ip : A) (m : GoMap String (IfaceToIface A K)) :
    ipEvents [CalcAct.remove s e ip] m =
      if GoSet.remove (contrib m s ip) e = [] then [IPEvent.removed s ip] else [] := by
  unfold ipEvents
  rw [runCalcActs_cons, runCalcActs_nil, step_snd_remove, containsKey_Discard]
  unfold contrib
  by_cases hr : GoSet.remove ((GoMap.get? (membersIn m s) ip).getD []) e = [] <;>
    simp [hr, logRemoved, runCalcActs]

theorem membersIn_ipMembers_ensure (s : String) (m : GoMap String (IfaceToIface A K))
    (s' : String) :
    membersIn (ipMembers [(CalcAct.ensure s : CalcAct K A)] m) s' = membersIn m s' :=
  membersIn_step_ensure logAdded logRemoved s (m, []) s'

theorem containsKey_ipMembers_add (s : String) (e : K) (ip : A)
    (m : GoMap String (IfaceToIface A K)) (s' : String) (ip' : A) :
    Multidict.ContainsKey (membersIn (ipMembers [CalcAct.add s e ip] m) s') ip' =
      (decide (s = s' ∧ ip = ip') || Multidict.ContainsKey (membersIn m s') ip') := by
  have h := membersIn_step_add logAdded logRemoved s e ip (m, ([] : List (IPEvent A))) s'
  unfold ipMembers
  rw [runCalcActs_cons]
  simp only [runCalcActs, List.foldl_nil]
  rw [h]
  by_cases hs : s = s'
  · subst hs
    simp only [if_true, Multidict.ContainsKey, GoMap.contains, Multidict.get?_Put]
    by_cases hi : ip = ip' <;> simp [hi]
  · simp [hs]

theorem containsKey_ipMembers_remove_ne (s : String) (e : K) (ip : A)
    (m : GoMap String (IfaceToIface A K)) (s' : String) (ip' : A)
    (hne : ¬ (s = s' ∧ ip = ip')) :
    Multidict.ContainsKey (membersIn (ipMembers [CalcAct.remove s e ip] m) s') ip' =
      Multidict.ContainsKey (membersIn m s') ip' := by
  have h := membersIn_step_remove logAdded logRemoved s e ip (m, ([] : List (IPEvent A))) s'
  unfold ipMembers
  rw [runCalcActs_cons]
  simp only [runCalcActs, List.foldl_nil]
  rw [h]
  by_cases hs : s = s'
  · subst hs
    have hi : ¬ ip = ip' := fun hi => hne ⟨rfl, hi⟩
    simp only [if_true, Multidict.ContainsKey, GoMap.contains, Multidict.get?_Discard, hi,
      if_false]
  · simp [hs]

theorem mem_contrib_ipMembers_ensure (s : String) (m : GoMap String (IfaceToIface A K))
    (s' : String) (ip' : A) (e' : K) :
    e' ∈ contrib (ipMembers [(CalcAct.ensure s : CalcAct K A)] m) s' ip' ↔
      e' ∈ contrib m s' ip' :=
  mem_contrib_step_ensure logAdded logRemoved s (m, []) s' ip' e'

theorem mem_contrib_ipMembers_add (s : String) (e : K) (ip : A)
    (m : GoMap String (IfaceToIface A K)) (s' : String) (ip' : A) (e' : K) :
    e' ∈ contrib (ipMembers [CalcAct.add s e ip] m) s' ip' ↔
      e' ∈ contrib m s' ip' ∨ (s' = s ∧ ip' = ip ∧ e' = e) :=
  mem_contrib_step_add logAdded logRemoved s e ip (m, []) s' ip' e'

theorem mem_contrib_ipMembers_remove (s : String) (e : K) (ip : A)
    (m : GoMap String (IfaceToIface A K)) (s' : String) (ip' : A) (e' : K) :
    e' ∈ contrib (ipMembers [CalcAct.remove s e ip] m) s' ip' ↔
      e' ∈ contrib m s' ip' ∧ ¬ (s' = s ∧ ip' = ip ∧ e' = e) :=
  mem_contrib_step_remove logAdded logRemoved s e ip (m, []) s' ip' e'

end IPActEvents

section CountIPEvents

variable {K A : Type} [DecidableEq K] [DecidableEq A]

theorem count_added_ipEvents_add (s s0 : String) (e0 : K) (ip ip0 : A)
    (m : GoMap String (IfaceToIface A K)) :
    List.count (IPEvent.added s ip) (ipEvents [CalcAct.add s0 e0 ip0] m) =
      if s0 = s ∧ ip0 = ip ∧ Multidict.ContainsKey (membersIn m s) ip = false then 1 else 0 := by
  rw [ipEvents_add]
  by_cases hk : s0 = s ∧ ip0 = ip
  · obtain ⟨rfl, rfl⟩ := hk
    by_cases hc : Multidict.ContainsKey (membersIn m s0) ip0 = true <;> simp [hc]
  · have hne : ¬ (s0 = s ∧ ip0 = ip ∧ Multidict.ContainsKey (membersIn m s) ip = false) :=
      fun h => hk ⟨h.1, h.2.1⟩
    have hev : IPEvent.added s0 ip0 ≠ IPEvent.added s ip := by
      intro h
      cases h
      exact hk ⟨rfl, rfl⟩
    by_cases hc : Multidict.ContainsKey (membersIn m s0) ip0 = true
    · simp [hc, hne]
    · simp only [hc, Bool.false_eq_true, if_false, hne]
      rw [List.count_singleton]
      simp [hev]

theorem count_added_ipEvents_remove (s s0 : String) (e0 : K) (ip ip0 : A)
    (m : GoMap String (IfaceToIface A K)) :
    List.count (IPEvent.added s ip) (ipEvents [CalcAct.remove s0 e0 ip0] m) = 0 := by
  rw [ipEvents_remove]
  by_cases hr : GoSet.remove (contrib m s0 ip0) e0 = []
  · simp only [hr, if_true]
    rw [List.count_singleton]
    simp
  · simp [hr]

omit [DecidableEq K] [DecidableEq A] in
theorem add_mem_cons_iff (s : String) (ip : A) (a : CalcAct K A) (tl : List (CalcAct K A))
    (h : ∀ e, a ≠ CalcAct.add s e ip) :
    (∃ e, CalcAct.add s e ip ∈ a :: tl) ↔ ∃ e, CalcAct.add s e ip ∈ tl := by
  constructor
  · rintro ⟨e, he⟩
    rcases List.mem_cons.1 he with h1 | h1
    · exact absurd h1.symm (h e)
    · exact ⟨e, h1⟩
  · rintro ⟨e, he⟩
    exact ⟨e, List.mem_cons_of_mem _ he⟩

omit [DecidableEq K] [DecidableEq A] in
theorem remove_mem_cons_iff (s : String) (ip : A) (a : CalcAct K A) (tl : List (CalcAct K A))
    (h : ∀ e, a ≠ CalcAct.remove s e ip) :
    (∃ e, CalcAct.remove s e ip ∈ a :: tl) ↔ ∃ e, CalcAct.remove s e ip ∈ tl := by
  constructor
  · rintro ⟨e, he⟩
    rcases List.mem_cons.1 he with h1 | h1
    · exact absurd h1.symm (h e)
    · exact ⟨e, h1⟩
  · rintro ⟨e, he⟩
    exact ⟨e, List.mem_cons_of_mem _ he⟩

/-- The number of `OnIPAdded(s, ip)` calls that a sequence of elementary
updates emits, when no addition to an address follows a removal from it: one
when the address is no key of the IP set at the start and some endpoint is
added to it, none otherwise. -/
theorem count_added (s : String) (ip : A) (acts : List (CalcAct K A))
    (hpw : acts.Pairwise CalcQuietAfterRemove) (m : GoMap String (IfaceToIface A K)) :
    ((Multidict.ContainsKey (membersIn m s) ip = false ∧ ∃ e, CalcAct.add s e ip ∈ acts) →
      List.count (IPEvent.added s ip) (ipEvents acts m) = 1) ∧
    (¬ (Multidict.ContainsKey (membersIn m s) ip = false ∧ ∃ e, CalcAct.add s e ip ∈ acts) →
      List.count (IPEvent.added s ip) (ipEvents acts m) = 0) := by
  induction acts generalizing m with
  | nil =>
    refine ⟨?_, fun _ => rfl⟩
    rintro ⟨_, e, he⟩
    simp at he
  | cons a tl ih =>
    rw [List.pairwise_cons] at hpw
    have IH := ih hpw.2 (ipMembers [a] m)
    rw [ipEvents_cons, List.count_append]
    cases a with
    | ensure s0 =>
      rw [ipEvents_ensure, List.count_nil, Nat.zero_add,
        add_mem_cons_iff s ip _ tl (fun e h => by cases h)]
      rw [membersIn_ipMembers_ensure] at IH
      exact IH
    | add s0 e0 ip0 =>
      rw [count_added_ipEvents_add]
      by_cases hk : s0 = s ∧ ip0 = ip
      · obtain ⟨rfl, rfl⟩ := hk
        have hafter : Multidict.ContainsKey
            (membersIn (ipMembers [CalcAct.add s0 e0 ip0] m) s0) ip0 = true := by
          rw [containsKey_ipMembers_add]
          simp
        have h0 := IH.2 (fun h => by simp [hafter] at h)
        rw [h0]
        by_cases hc : Multidict.ContainsKey (membersIn m s0) ip0 = true
        · simp [hc]
        · have hc' : Multidict.ContainsKey (membersIn m s0) ip0 = false := by simpa using hc
          simp only [hc', and_self, if_true, true_and, Nat.add_zero, forall_true_left,
            not_exists, one_ne_zero, imp_false, not_forall, not_not]
          exact ⟨fun _ => trivial, ⟨e0, List.mem_cons_self _ _⟩⟩
      · have hne : ¬ (s0 = s ∧ ip0 = ip ∧ Multidict.ContainsKey (membersIn m s) ip = false) :=
          fun h => hk ⟨h.1, h.2.1⟩
        have hafter : Multidict.ContainsKey
            (membersIn (ipMembers [CalcAct.add s0 e0 ip0] m) s) ip =
            Multidict.ContainsKey (membersIn m s) ip := by
          rw [containsKey_ipMembers_add]
          simp [hk]
        rw [hafter] at IH
        rw [add_mem_cons_iff s ip _ tl (fun e h => by
          cases h
          exact hk ⟨rfl, rfl⟩)]
        simp only [hne, if_false, Nat.zero_add]
        exact IH
    | remove s0 e0 ip0 =>
      rw [count_added_ipEvents_remove, Nat.zero_add,
        add_mem_cons_iff s ip _ tl (fun e h => by cases h)]
      by_cases hk : s0 = s ∧ ip0 = ip
      · obtain ⟨rfl, rfl⟩ := hk
        have hno : ¬ ∃ e, CalcAct.add s0 e ip0 ∈ tl := by
          rintro ⟨e, he⟩
          exact (hpw.1 _ he s0 e0 ip0 rfl).1 e rfl
        have h0 := IH.2 (fun h => hno h.2)
        exact ⟨fun h => absurd h.2 hno, fun _ => h0⟩
      · rw [containsKey_ipMembers_remove_ne _ _ _ _ _ _ hk] at IH
        exact IH

end CountIPEvents

section CountIPRemoved

variable {K A : Type} [DecidableEq K] [DecidableEq A]

theorem contrib_grows (s : String) (ip : A) (acts : List (CalcAct K A))
    (h : ∀ e, CalcAct.remove s e ip ∉ acts) (m : GoMap String (IfaceToIface A K)) (q : K)
    (hq : q ∈ contrib m s ip) : q ∈ contrib (ipMembers acts m) s ip := by
  induction acts generalizing m with
  | nil => exact hq
  | cons a tl ih =>
    rw [ipMembers_cons]
    apply ih (fun e he => h e (List.mem_cons_of_mem _ he))
    cases a with
    | ensure s0 => exact (mem_contrib_ipMembers_ensure _ _ _ _ _).2 hq
    | add s0 e0 ip0 => exact (mem_contrib_ipMembers_add _ _ _ _ _ _ _).2 (Or.inl hq)
    | remove s0 e0 ip0 =>
      refine (mem_contrib_ipMembers_remove _ _ _ _ _ _ _).2 ⟨hq, ?_⟩
      rintro ⟨rfl, rfl, rfl⟩
      exact h _ (List.mem_cons_self _ _)

theorem contrib_shrinks (s : String) (ip : A) (acts : List (CalcAct K A))
    (h : ∀ e, CalcAct.add s e ip ∉ acts) (m : GoMap String (IfaceToIface A K)) (q : K)
    (hq : q ∈ contrib (ipMembers acts m) s ip) : q ∈ contrib m s ip :=
  contrib_sub_of_no_add logAdded logRemoved s ip acts (fun _ ha e hae => h e (hae ▸ ha))
    (m, []) q hq

theorem count_removed_ipEvents_add (s s0 : String) (e0 : K) (ip ip0 : A)
    (m : GoMap String (IfaceToIface A K)) :
    List.count (IPEvent.removed s ip) (ipEvents [CalcAct.add s0 e0 ip0] m) = 0 := by
  rw [ipEvents_add]
  by_cases hc : Multidict.ContainsKey (membersIn m s0) ip0 = true
  · simp [hc]
  · simp only [hc, Bool.false_eq_true, if_false]
    rw [List.count_singleton]
    simp

theorem count_removed_ipEvents_remove (s s0 : String) (e0 : K) (ip ip0 : A)
    (m : GoMap String (IfaceToIface A K)) :
    List.count (IPEvent.removed s ip) (ipEvents [CalcAct.remove s0 e0 ip0] m) =
      if s0 = s ∧ ip0 = ip ∧ GoSet.remove (contrib m s ip) e0 = [] then 1 else 0 := by
  rw [ipEvents_remove]
  by_cases hk : s0 = s ∧ ip0 = ip
  · obtain ⟨rfl, rfl⟩ := hk
    by_cases hr : GoSet.remove (contrib m s0 ip0) e0 = [] <;> simp [hr]
  · have hne : ¬ (s0 = s ∧ ip0 = ip ∧ GoSet.remove (contrib m s ip) e0 = []) :=
      fun h => hk ⟨h.1, h.2.1⟩
    have hev : IPEvent.removed s0 ip0 ≠ IPEvent.removed s ip := by
      intro h
      cases h
      exact hk ⟨rfl, rfl⟩
    by_cases hr : GoSet.remove (contrib m s0 ip0) e0 = []
    · simp only [hr, if_true, hne, if_false]
      rw [List.count_singleton]
      simp [hev]
    · simp [hr, hne]

/-- The number of `OnIPRemoved(s, ip)` calls that a sequence of elementary
updates emits, when nothing follows a removal from an address but removals of
other endpoints, and every endpoint removed from (s, ip) is recorded for it at
the start: one when some endpoint is removed from the address and no endpoint
is recorded for it at the end, none otherwise. -/
theorem count_removed (s : String) (ip : A) (acts : List (CalcAct K A))
    (hpw : acts.Pairwise CalcQuietAfterRemove) (m : GoMap String (IfaceToIface A K))
    (hval : ∀ e, CalcAct.remove s e ip ∈ acts → e ∈ contrib m s ip) :
    (((∃ e, CalcAct.remove s e ip ∈ acts) ∧ contrib (ipMembers acts m) s ip = []) →
      List.count (IPEvent.removed s ip) (ipEvents acts m) = 1) ∧
    (¬ ((∃ e, CalcAct.remove s e ip ∈ acts) ∧ contrib (ipMembers acts m) s ip = []) →
      List.count (IPEvent.removed s ip) (ipEvents acts m) = 0) := by
  induction acts generalizing m with
  | nil =>
    refine ⟨?_, fun _ => rfl⟩
    rintro ⟨⟨e, he⟩, _⟩
    simp at he
  | cons a tl ih =>
    rw [List.pairwise_cons] at hpw
    rw [ipEvents_cons, List.count_append, ipMembers_cons]
    cases a with
    | ensure s0 =>
      have hval' : ∀ e, CalcAct.remove s e ip ∈ tl →
          e ∈ contrib (ipMembers [(CalcAct.ensure s0 : CalcAct K A)] m) s ip := fun e he =>
        (mem_contrib_ipMembers_ensure _ _ _ _ _).2 (hval e (List.mem_cons_of_mem _ he))
      have IH := ih hpw.2 _ hval'
      rw [ipEvents_ensure, List.count_nil, Nat.zero_add,
        remove_mem_cons_iff s ip _ tl (fun e h => by cases h)]
      exact IH
    | add s0 e0 ip0 =>
      have hval' : ∀ e, CalcAct.remove s e ip ∈ tl →
          e ∈ contrib (ipMembers [CalcAct.add s0 e0 ip0] m) s ip := fun e he =>
        (mem_contrib_ipMembers_add _ _ _ _ _ _ _).2
          (Or.inl (hval e (List.mem_cons_of_mem _ he)))
      have IH := ih hpw.2 _ hval'
      rw [count_removed_ipEvents_add, Nat.zero_add,
        remove_mem_cons_iff s ip _ tl (fun e h => by cases h)]
      exact IH
    | remove s0 e0 ip0 =>
      rw [count_removed_ipEvents_remove]
      by_cases hk : s0 = s ∧ ip0 = ip
      · obtain ⟨rfl, rfl⟩ := hk
        have hnoadd : ∀ e, CalcAct.add s0 e ip0 ∉ tl := fun e he =>
          (hpw.1 _ he s0 e0 ip0 rfl).1 e rfl
        have hnosame : CalcAct.remove s0 e0 ip0 ∉ tl := fun he =>
          (hpw.1 _ he s0 e0 ip0 rfl).2 rfl
        have hval' : ∀ e, CalcAct.remove s0 e ip0 ∈ tl →
            e ∈ contrib (ipMembers [CalcAct.remove s0 e0 ip0] m) s0 ip0 := by
          intro e he
          refine (mem_contrib_ipMembers_remove _ _ _ _ _ _ _).2
            ⟨hval e (List.mem_cons_of_mem _ he), ?_⟩
          rintro ⟨_, _, rfl⟩
          exact hnosame he
        have IH := ih hpw.2 _ hval'
        have hafter : ∀ q, q ∈ contrib (ipMembers [CalcAct.remove s0 e0 ip0] m) s0 ip0 ↔
            q ∈ GoSet.remove (contrib m s0 ip0) e0 := by
          intro q
          rw [mem_contrib_ipMembers_remove, GoSet.mem_remove]
          simp
        by_cases hr : GoSet.remove (contrib m s0 ip0) e0 = []
        · have hempty : ∀ q, q ∉ contrib (ipMembers [CalcAct.remove s0 e0 ip0] m) s0 ip0 := by
            intro q hq
            have := (hafter q).1 hq
            rw [hr] at this
            simp at this
          have hnorem : ¬ ∃ e, CalcAct.remove s0 e ip0 ∈ tl := by
            rintro ⟨e, he⟩
            exact hempty e (hval' e he)
          have h0 := IH.2 (fun h => hnorem h.1)
          have hfinal : contrib (ipMembers tl (ipMembers [CalcAct.remove s0 e0 ip0] m))
              s0 ip0 = [] := by
            apply List.eq_nil_iff_forall_not_mem.2
            intro q hq
            exact hempty q (contrib_shrinks s0 ip0 tl hnoadd _ q hq)
          rw [h0]
          simp only [hr, and_self, if_true, true_and, Nat.add_zero]
          refine ⟨fun _ => trivial, fun h => absurd ⟨⟨e0, List.mem_cons_self _ _⟩, hfinal⟩ h⟩
        · simp only [hr, and_false, if_false, Nat.zero_add]
          have hcond : ((∃ e, CalcAct.remove s0 e ip0 ∈ CalcAct.remove s0 e0 ip0 :: tl) ∧
              contrib (ipMembers tl (ipMembers [CalcAct.remove s0 e0 ip0] m)) s0 ip0 = []) ↔
              ((∃ e, CalcAct.remove s0 e ip0 ∈ tl) ∧
              contrib (ipMembers tl (ipMembers [CalcAct.remove s0 e0 ip0] m)) s0 ip0 = []) := by
            constructor
            · rintro ⟨_, hfin⟩
              refine ⟨?_, hfin⟩
              by_contra hno
              obtain ⟨q, hq⟩ := List.exists_mem_of_ne_nil _ hr
              have hq' := contrib_grows s0 ip0 tl (fun e he => hno ⟨e, he⟩) _ q ((hafter q).2 hq)
              rw [hfin] at hq'
              simp at hq'
            · rintro ⟨⟨e, he⟩, hfin⟩
              exact ⟨⟨e, List.mem_cons_of_mem _ he⟩, hfin⟩
          rw [hcond]
          exact IH
      · have hne : ¬ (s0 = s ∧ ip0 = ip ∧ GoSet.remove (contrib m s ip) e0 = []) :=
          fun h => hk ⟨h.1, h.2.1⟩
        have hval' : ∀ e, CalcAct.remove s e ip ∈ tl →
            e ∈ contrib (ipMembers [CalcAct.remove s0 e0 ip0] m) s ip := by
          intro e he
          refine (mem_contrib_ipMembers_remove _ _ _ _ _ _ _).2
            ⟨hval e (List.mem_cons_of_mem _ he), ?_⟩
          rintro ⟨rfl, rfl, _⟩
          exact hk ⟨rfl, rfl⟩
        have IH := ih hpw.2 _ hval'
        rw [remove_mem_cons_iff s ip _ tl (fun e h => by
          cases h
          exact hk ⟨rfl, rfl⟩)]
        simp only [hne, if_false, Nat.zero_add]
        exact IH

end CountIPRemoved

section ExactIPEvents

variable {K A : Type} [DecidableEq K] [DecidableEq A]

omit [DecidableEq K] [DecidableEq A] in
theorem calc_quiet_of_not_remove (a b : CalcAct K A)
    (h : ∀ s e ip, a ≠ CalcAct.remove s e ip) : CalcQuietAfterRemove a b := by
  intro s e ip h1
  exact absurd h1 (h s e ip)

omit [DecidableEq K] [DecidableEq A] in
theorem pairwise_ip_removes (s : String) (key : K) (ips : List A) (h : ips.Nodup) :
    (ips.map (fun ip => CalcAct.remove s key ip)).Pairwise CalcQuietAfterRemove := by
  rw [List.pairwise_map]
  refine List.Pairwise.imp ?_ h
  intro ip1 ip2 hne s0 e0 ip0 h1
  cases h1
  refine ⟨fun e' h2 => (by cases h2), fun h2 => ?_⟩
  cases h2
  exact hne rfl

omit [DecidableEq K] [DecidableEq A] in
theorem pairwise_ip_adds (s : String) (key : K) (ips : List A) :
    (CalcAct.ensure s :: ips.map (fun ip => CalcAct.add s key ip)).Pairwise
      CalcQuietAfterRemove := by
  apply List.pairwise_of_forall_mem_list
  intro a ha b _
  apply calc_quiet_of_not_remove
  intro s0 e0 ip0 h
  subst h
  simp at ha

omit [DecidableEq K] [DecidableEq A] in
theorem foldl_keep_eq_filter (p : A → Bool) (l acc : List A) :
    l.foldl (fun removed ip => if p ip then removed else removed ++ [ip]) acc =
      acc ++ l.filter (fun ip => !p ip) := by
  induction l generalizing acc with
  | nil => simp
  | cons a tl ih =>
    rw [List.foldl_cons, ih]
    by_cases hp : p a = true
    · simp [hp]
    · simp [hp]

theorem nodup_removedIPsOf (oldIPs ips : List A) (h : oldIPs.Nodup) :
    (removedIPsOf oldIPs ips).Nodup := by
  unfold removedIPsOf
  simp only []
  rw [foldl_keep_eq_filter, List.nil_append]
  exact h.filter _

theorem pairwise_quiet_actsUpdateEndpointIPs {τ : Type} (ord : RangeOrder K) (key : K)
    (ips : List A) (c : IpsetCalculator K A τ) (hn : (c.ipsOf key).Nodup) :
    (actsUpdateEndpointIPs ord key ips c).Pairwise CalcQuietAfterRemove := by
  unfold actsUpdateEndpointIPs
  rw [List.pairwise_flatMap]
  constructor
  · intro s _
    rw [List.pairwise_append]
    refine ⟨pairwise_ip_adds s key _, pairwise_ip_removes s key _ (nodup_removedIPsOf _ _ hn), ?_⟩
    intro a ha b _
    apply calc_quiet_of_not_remove
    intro s0 e0 ip0 h
    subst h
    simp at ha
  · refine List.Nodup.pairwise_of_forall_ne (nodup_rangeOrder _ _) ?_
    intro s1 _ s2 _ hne a ha b hb s0 e0 ip0 h1
    subst h1
    simp only [List.mem_append, List.mem_cons, List.mem_map, reduceCtorEq, false_or,
      exists_false, CalcAct.remove.injEq, and_false] at ha
    obtain ⟨_, _, rfl, _, _⟩ := ha
    simp only [List.mem_append, List.mem_cons, List.mem_map] at hb
    refine ⟨fun e' h2 => ?_, fun h2 => ?_⟩
    · subst h2
      rcases hb with (h3 | ⟨_, _, h3⟩) | ⟨_, _, h3⟩
      · cases h3
      · cases h3
        exact hne rfl
      · cases h3
    · subst h2
      rcases hb with (h3 | ⟨_, _, h3⟩) | ⟨_, _, h3⟩
      · cases h3
      · cases h3
      · cases h3
        exact hne rfl

theorem pairwise_calc_acts {τ : Type} (ord : RangeOrder K) (call : CalcCall K A)
    (c : IpsetCalculator K A τ) (hn : IPsNodup c) :
    (call.acts ord c).Pairwise CalcQuietAfterRemove := by
  cases call with
  | matchStarted key s => exact pairwise_ip_adds s key _
  | matchStopped key s => exact pairwise_ip_removes s key _ (hn key)
  | updateEndpointIPs key ips => exact pairwise_quiet_actsUpdateEndpointIPs ord key ips c (hn key)
  | deleteEndpoint key => exact pairwise_quiet_actsUpdateEndpointIPs ord key [] c (hn key)

theorem calc_events_eq_ipEvents (ord : RangeOrder K) (call : CalcCall K A)
    (c : IpsetCalculator K A (List (IPEvent A))) (hA : c.OnIPAdded = logAdded)
    (hR : c.OnIPRemoved = logRemoved) :
    call.events ord c = ipEvents (call.acts ord c) c.ipSetIDToIPToKey ∧
      (call.run ord (c, [])).1.ipSetIDToIPToKey =
        ipMembers (call.acts ord c) c.ipSetIDToIPToKey := by
  cases call with
  | matchStarted key s =>
    simp only [CalcCall.events, CalcCall.run]
    rw [MatchStarted_eq]
    simp only [hA, hR]
    exact ⟨rfl, rfl⟩
  | matchStopped key s =>
    simp only [CalcCall.events, CalcCall.run]
    rw [MatchStopped_eq]
    simp only [hA, hR]
    exact ⟨rfl, rfl⟩
  | updateEndpointIPs key ips =>
    simp only [CalcCall.events, CalcCall.run]
    rw [UpdateEndpointIPs_eq]
    simp only [hA, hR]
    exact ⟨rfl, rfl⟩
  | deleteEndpoint key =>
    simp only [CalcCall.events, CalcCall.run, IpsetCalculator.DeleteEndpoint]
    rw [UpdateEndpointIPs_eq]
    simp only [hA, hR]
    exact ⟨rfl, rfl⟩

theorem IPsNodup_run {τ : Type} (ord : RangeOrder K) (call : CalcCall K A)
    (w : IpsetCalculator K A τ × τ) (hc : call.wellFormed w.1 = true) (h : IPsNodup w.1) :
    IPsNodup (call.run ord w).1 := by
  intro e
  cases call with
  | matchStarted key s =>
    simp only [CalcCall.run, IpsetCalculator.ipsOf, MatchStarted_keyToIPs]
    exact h e
  | matchStopped key s =>
    simp only [CalcCall.run, IpsetCalculator.ipsOf, MatchStopped_keyToIPs]
    exact h e
  | updateEndpointIPs key ips =>
    simp only [CalcCall.run, UpdateEndpointIPs_ipsOf]
    by_cases he : key = e
    · simp only [he, if_true]
      simpa [CalcCall.wellFormed] using hc
    · simp only [he, if_false]
      exact h e
  | deleteEndpoint key =>
    simp only [CalcCall.run, IpsetCalculator.DeleteEndpoint, UpdateEndpointIPs_ipsOf]
    by_cases he : key = e
    · simp [he]
    · simp only [he, if_false]
      exact h e

theorem IPsNodup_runCalc {τ : Type} (calls : List (RangeOrder K × CalcCall K A))
    (w : IpsetCalculator K A τ × τ) (hcalls : calcWellFormed calls w = true)
    (h : IPsNodup w.1) : IPsNodup (runCalc calls w).1 := by
  induction calls generalizing w with
  | nil => exact h
  | cons c tl ih =>
    simp only [calcWellFormed, Bool.and_eq_true] at hcalls
    exact ih _ hcalls.2 (IPsNodup_run c.1 c.2 w hcalls.1 h)

theorem CalcInv.hasContributor_iff {τ : Type} {c : IpsetCalculator K A τ} (h : c.Inv)
    (s : String) (ip : A) :
    c.hasContributor s ip ↔ ∃ e, s ∈ c.ipSetsOf e ∧ ip ∈ c.ipsOf e := by
  unfold IpsetCalculator.hasContributor
  constructor
  · rintro ⟨e, he⟩
    exact ⟨e, (h.members_iff s ip e).1 he⟩
  · rintro ⟨e, he⟩
    exact ⟨e, (h.members_iff s ip e).2 he⟩

theorem CalcInv.not_hasContributor_iff {τ : Type} {c : IpsetCalculator K A τ} (h : c.Inv)
    (s : String) (ip : A) :
    ¬ c.hasContributor s ip ↔
      Multidict.ContainsKey (membersIn c.ipSetIDToIPToKey s) ip = false := by
  have h1 : Multidict.ContainsKey (membersIn c.ipSetIDToIPToKey s) ip = true ↔
      c.hasContributor s ip := Multidict.ContainsKey_iff _ (h.wf s) ip
  rw [← h1]
  simp

omit [DecidableEq K] in
theorem contrib_eq_nil_iff {τ : Type} (c : IpsetCalculator K A τ) (s : String) (ip : A) :
    contrib c.ipSetIDToIPToKey s ip = [] ↔ ¬ c.hasContributor s ip := by
  rw [List.eq_nil_iff_forall_not_mem]
  constructor
  · rintro hall ⟨e, he⟩
    exact hall e he
  · intro hno e he
    exact hno ⟨e, he⟩

/-- The callbacks of a call are exact when its elementary updates are ordered,
remove only endpoints that are recorded, add to an address without contributor
exactly when the address has one afterwards, and remove from an address that
has no contributor afterwards exactly when the address had one before. -/
theorem exact_ip_events_of_acts (pre post : IpsetCalculator K A (List (IPEvent A)))
    (hpre : pre.Inv) (acts : List (CalcAct K A))
    (evs : List (IPEvent A)) (hev : evs = ipEvents acts pre.ipSetIDToIPToKey)
    (hm : post.ipSetIDToIPToKey = ipMembers acts pre.ipSetIDToIPToKey)
    (hpw : acts.Pairwise CalcQuietAfterRemove)
    (hval : ∀ s e ip, CalcAct.remove s e ip ∈ acts → e ∈ contrib pre.ipSetIDToIPToKey s ip)
    (hA : ∀ s ip, ¬ pre.hasContributor s ip →
      ((∃ e, CalcAct.add s e ip ∈ acts) ↔ post.hasContributor s ip))
    (hB : ∀ s ip, ¬ post.hasContributor s ip →
      ((∃ e, CalcAct.remove s e ip ∈ acts) ↔ pre.hasContributor s ip)) :
    evs.Nodup ∧
    ∀ s ip,
      (IPEvent.added s ip ∈ evs ↔ post.hasContributor s ip ∧ ¬ pre.hasContributor s ip) ∧
      (IPEvent.removed s ip ∈ evs ↔ pre.hasContributor s ip ∧ ¬ post.hasContributor s ip) := by
  subst hev
  have hT := fun s ip => count_added s ip acts hpw pre.ipSetIDToIPToKey
  have hS := fun s ip => count_removed s ip acts hpw pre.ipSetIDToIPToKey
    (fun e => hval s e ip)
  have hcT : ∀ s ip, (Multidict.ContainsKey (membersIn pre.ipSetIDToIPToKey s) ip = false ∧
      ∃ e, CalcAct.add s e ip ∈ acts) ↔
      (post.hasContributor s ip ∧ ¬ pre.hasContributor s ip) := by
    intro s ip
    rw [← CalcInv.not_hasContributor_iff hpre s ip]
    constructor
    · rintro ⟨h1, h2⟩
      exact ⟨(hA s ip h1).1 h2, h1⟩
    · rintro ⟨h1, h2⟩
      exact ⟨h2, (hA s ip h2).2 h1⟩
  have hcS : ∀ s ip, ((∃ e, CalcAct.remove s e ip ∈ acts) ∧
      contrib (ipMembers acts pre.ipSetIDToIPToKey) s ip = []) ↔
      (pre.hasContributor s ip ∧ ¬ post.hasContributor s ip) := by
    intro s ip
    rw [← hm, contrib_eq_nil_iff post s ip]
    constructor
    · rintro ⟨h1, h2⟩
      exact ⟨(hB s ip h2).1 h1, h2⟩
    · rintro ⟨h1, h2⟩
      exact ⟨(hB s ip h2).2 h1, h2⟩
  refine ⟨?_, ?_⟩
  · rw [List.nodup_iff_count_le_one]
    intro ev
    cases ev with
    | added s ip =>
      by_cases hc : Multidict.ContainsKey (membersIn pre.ipSetIDToIPToKey s) ip = false ∧
          ∃ e, CalcAct.add s e ip ∈ acts
      · rw [(hT s ip).1 hc]
      · rw [(hT s ip).2 hc]
        exact Nat.zero_le _
    | removed s ip =>
      by_cases hc : (∃ e, CalcAct.remove s e ip ∈ acts) ∧
          contrib (ipMembers acts pre.ipSetIDToIPToKey) s ip = []
      · rw [(hS s ip).1 hc]
      · rw [(hS s ip).2 hc]
        exact Nat.zero_le _
  · intro s ip
    refine ⟨?_, ?_⟩
    · rw [← hcT s ip, ← List.count_pos_iff]
      constructor
      · intro hpos
        by_contra hc
        rw [(hT s ip).2 hc] at hpos
        exact absurd hpos (by decide)
      · intro hc
        rw [(hT s ip).1 hc]
        exact Nat.one_pos
    · rw [← hcS s ip, ← List.count_pos_iff]
      constructor
      · intro hpos
        by_contra hc
        rw [(hS s ip).2 hc] at hpos
        exact absurd hpos (by decide)
      · intro hc
        rw [(hS s ip).1 hc]
        exact Nat.one_pos

end ExactIPEvents

section ExactIPEventsCalls

variable {K A : Type} [DecidableEq K] [DecidableEq A]

theorem MatchStarted_ipsOf {τ : Type} (key : K) (s : String) (w : IpsetCalculator K A τ × τ)
    (e : K) : (IpsetCalculator.MatchStarted key s w).1.ipsOf e = w.1.ipsOf e := by
  unfold IpsetCalculator.ipsOf
  rw [MatchStarted_keyToIPs]

theorem MatchStopped_ipsOf {τ : Type} (key : K) (s : String) (w : IpsetCalculator K A τ × τ)
    (e : K) : (IpsetCalculator.MatchStopped key s w).1.ipsOf e = w.1.ipsOf e := by
  unfold IpsetCalculator.ipsOf
  rw [MatchStopped_keyToIPs]

theorem exact_MatchStarted (c : IpsetCalculator K A (List (IPEvent A))) (hinv : c.Inv)
    (hA : c.OnIPAdded = logAdded) (hR : c.OnIPRemoved = logRemoved) (key : K) (s0 : String) :
    (IpsetCalculator.MatchStarted key s0 (c, [])).2.Nodup ∧
    ∀ s ip,
      (IPEvent.added s ip ∈ (IpsetCalculator.MatchStarted key s0 (c, [])).2 ↔
        (IpsetCalculator.MatchStarted key s0 (c, [])).1.hasContributor s ip ∧
          ¬ c.hasContributor s ip) ∧
      (IPEvent.removed s ip ∈ (IpsetCalculator.MatchStarted key s0 (c, [])).2 ↔
        c.hasContributor s ip ∧
          ¬ (IpsetCalculator.MatchStarted key s0 (c, [])).1.hasContributor s ip) := by
  have hpost := CalcInv_MatchStarted key s0 (c, []) hinv
  have hpostm : ∀ s ip, (IpsetCalculator.MatchStarted key s0 (c, [])).1.hasContributor s ip ↔
      ∃ e, (s ∈ c.ipSetsOf e ∨ (e = key ∧ s = s0)) ∧ ip ∈ c.ipsOf e := by
    intro s ip
    rw [CalcInv.hasContributor_iff hpost]
    simp only [MatchStarted_ipSetsOf, MatchStarted_ipsOf]
  have hacts := calc_events_eq_ipEvents (RangeOrder.insertion K)
    (CalcCall.matchStarted key s0) c hA hR
  apply exact_ip_events_of_acts c _ hinv
    (CalcAct.ensure s0 :: (c.ipsOf key).map (fun ip => CalcAct.add s0 key ip))
  · exact hacts.1
  · exact hacts.2
  · exact pairwise_ip_adds s0 key _
  · intro s e ip h
    simp at h
  · intro s ip hpre
    rw [hpostm]
    rw [CalcInv.hasContributor_iff hinv] at hpre
    constructor
    · rintro ⟨e, he⟩
      simp only [List.mem_cons, reduceCtorEq, List.mem_map, CalcAct.add.injEq, false_or] at he
      obtain ⟨ip', hip, rfl, rfl, rfl⟩ := he
      exact ⟨_, Or.inr ⟨rfl, rfl⟩, hip⟩
    · rintro ⟨e, h1 | ⟨rfl, rfl⟩, h2⟩
      · exact absurd ⟨e, h1, h2⟩ hpre
      · exact ⟨e, by simpa using h2⟩
  · intro s ip hpostn
    rw [hpostm] at hpostn
    rw [CalcInv.hasContributor_iff hinv]
    constructor
    · rintro ⟨e, he⟩
      simp at he
    · rintro ⟨e, h1, h2⟩
      exact absurd ⟨e, Or.inl h1, h2⟩ hpostn

theorem exact_MatchStopped (c : IpsetCalculator K A (List (IPEvent A))) (hinv : c.Inv)
    (hn : IPsNodup c)
    (hA : c.OnIPAdded = logAdded) (hR : c.OnIPRemoved = logRemoved) (key : K) (s0 : String)
    (hwf : s0 ∈ c.ipSetsOf key) :
    (IpsetCalculator.MatchStopped key s0 (c, [])).2.Nodup ∧
    ∀ s ip,
      (IPEvent.added s ip ∈ (IpsetCalculator.MatchStopped key s0 (c, [])).2 ↔
        (IpsetCalculator.MatchStopped key s0 (c, [])).1.hasContributor s ip ∧
          ¬ c.hasContributor s ip) ∧
      (IPEvent.removed s ip ∈ (IpsetCalculator.MatchStopped key s0 (c, [])).2 ↔
        c.hasContributor s ip ∧
          ¬ (IpsetCalculator.MatchStopped key s0 (c, [])).1.hasContributor s ip) := by
  have hpost := CalcInv_MatchStopped key s0 (c, []) hinv
  have hpostm : ∀ s ip, (IpsetCalculator.MatchStopped key s0 (c, [])).1.hasContributor s ip ↔
      ∃ e, (s ∈ c.ipSetsOf e ∧ ¬ (e = key ∧ s = s0)) ∧ ip ∈ c.ipsOf e := by
    intro s ip
    rw [CalcInv.hasContributor_iff hpost]
    simp only [MatchStopped_ipSetsOf, MatchStopped_ipsOf]
  have hacts := calc_events_eq_ipEvents (RangeOrder.insertion K)
    (CalcCall.matchStopped key s0) c hA hR
  apply exact_ip_events_of_acts c _ hinv
    ((c.ipsOf key).map (fun ip => CalcAct.remove s0 key ip))
  · exact hacts.1
  · exact hacts.2
  · exact pairwise_ip_removes s0 key _ (hn key)
  · intro s e ip h
    simp only [List.mem_map, CalcAct.remove.injEq] at h
    obtain ⟨ip', hip, rfl, rfl, rfl⟩ := h
    exact (hinv.members_iff _ _ _).2 ⟨hwf, hip⟩
  · intro s ip hpre
    rw [hpostm]
    rw [CalcInv.hasContributor_iff hinv] at hpre
    constructor
    · rintro ⟨e, he⟩
      simp at he
    · rintro ⟨e, ⟨h1, _⟩, h2⟩
      exact absurd ⟨e, h1, h2⟩ hpre
  · intro s ip hpostn
    rw [hpostm] at hpostn
    rw [CalcInv.hasContributor_iff hinv]
    constructor
    · rintro ⟨e, he⟩
      simp only [List.mem_map, CalcAct.remove.injEq] at he
      obtain ⟨ip', hip, rfl, rfl, rfl⟩ := he
      exact ⟨_, hwf, hip⟩
    · rintro ⟨e, h1, h2⟩
      by_cases hk : e = key ∧ s = s0
      · obtain ⟨rfl, rfl⟩ := hk
        exact ⟨e, by simpa using h2⟩
      · exact absurd ⟨e, ⟨h1, hk⟩, h2⟩ hpostn

theorem exact_UpdateEndpointIPs (c : IpsetCalculator K A (List (IPEvent A))) (hinv : c.Inv)
    (hn : IPsNodup c)
    (hA : c.OnIPAdded = logAdded) (hR : c.OnIPRemoved = logRemoved) (ord : RangeOrder K)
    (key : K) (ips : List A) :
    (IpsetCalculator.UpdateEndpointIPs ord key ips (c, [])).2.Nodup ∧
    ∀ s ip,
      (IPEvent.added s ip ∈ (IpsetCalculator.UpdateEndpointIPs ord key ips (c, [])).2 ↔
        (IpsetCalculator.UpdateEndpointIPs ord key ips (c, [])).1.hasContributor s ip ∧
          ¬ c.hasContributor s ip) ∧
      (IPEvent.removed s ip ∈ (IpsetCalculator.UpdateEndpointIPs ord key ips (c, [])).2 ↔
        c.hasContributor s ip ∧
          ¬ (IpsetCalculator.UpdateEndpointIPs ord key ips (c, [])).1.hasContributor s ip) := by
  have hpost := CalcInv_UpdateEndpointIPs ord key ips (c, []) hinv
  have hpostm : ∀ s ip,
      (IpsetCalculator.UpdateEndpointIPs ord key ips (c, [])).1.hasContributor s ip ↔
      ∃ e, s ∈ c.ipSetsOf e ∧ ip ∈ (if key = e then ips else c.ipsOf e) := by
    intro s ip
    rw [CalcInv.hasContributor_iff hpost]
    simp only [UpdateEndpointIPs_ipSetsOf, UpdateEndpointIPs_ipsOf]
  have hacts := calc_events_eq_ipEvents ord (CalcCall.updateEndpointIPs key ips) c hA hR
  apply exact_ip_events_of_acts c _ hinv (actsUpdateEndpointIPs ord key ips c)
  · exact hacts.1
  · exact hacts.2
  · exact pairwise_quiet_actsUpdateEndpointIPs ord key ips c (hn key)
  · intro s e ip h
    rw [remove_mem_actsUpdateEndpointIPs, mem_removedIPsOf] at h
    obtain ⟨rfl, hs, hip, _⟩ := h
    exact (hinv.members_iff _ _ _).2 ⟨hs, hip⟩
  · intro s ip hpre
    rw [hpostm]
    rw [CalcInv.hasContributor_iff hinv] at hpre
    constructor
    · rintro ⟨e, he⟩
      rw [add_mem_actsUpdateEndpointIPs, mem_addedIPsOf] at he
      obtain ⟨rfl, hs, hip, _⟩ := he
      exact ⟨e, hs, by simpa using hip⟩
    · rintro ⟨e, h1, h2⟩
      by_cases hk : key = e
      · subst hk
        simp only [if_true] at h2
        refine ⟨key, (add_mem_actsUpdateEndpointIPs _ _ _ _ _ _ _).2
          ⟨rfl, h1, (mem_addedIPsOf _ _ _).2 ⟨h2, fun hold => hpre ⟨key, h1, hold⟩⟩⟩⟩
      · simp only [hk, if_false] at h2
        exact absurd ⟨e, h1, h2⟩ hpre
  · intro s ip hpostn
    rw [hpostm] at hpostn
    rw [CalcInv.hasContributor_iff hinv]
    constructor
    · rintro ⟨e, he⟩
      rw [remove_mem_actsUpdateEndpointIPs, mem_removedIPsOf] at he
      obtain ⟨rfl, hs, hip, _⟩ := he
      exact ⟨e, hs, hip⟩
    · rintro ⟨e, h1, h2⟩
      by_cases hk : key = e
      · subst hk
        refine ⟨key, (remove_mem_actsUpdateEndpointIPs _ _ _ _ _ _ _).2
          ⟨rfl, h1, (mem_removedIPsOf _ _ _).2
            ⟨h2, fun hnew => hpostn ⟨key, h1, by simpa using hnew⟩⟩⟩⟩
      · exact absurd ⟨e, h1, by simpa [hk] using h2⟩ hpostn

/-- C17: in a state reached from a fresh calculator by well-formed calls (no
address list of `UpdateEndpointIPs` repeats an address, and `MatchStopped(e,
s)` is called only while e is recorded as contributing to s), the callbacks
that one further well-formed call emits are exactly one `OnIPAdded(s, ip)` for
each address of an IP set that has a contributor after the call and had none
before, and one `OnIPRemoved(s, ip)` for each address that had a contributor
before the call and has none after: no callback is emitted twice and a
callback is emitted exactly for those addresses. -/
theorem exact_ip_events (calls : List (RangeOrder K × CalcCall K A))
    (hcalls : calcWellFormed calls (freshCalc K A) = true) (ord : RangeOrder K)
    (call : CalcCall K A)
    (hcall : call.wellFormed (runCalc calls (freshCalc K A)).1 = true) :
    (call.events ord (runCalc calls (freshCalc K A)).1).Nodup ∧
    ∀ s ip,
      (IPEvent.added s ip ∈ call.events ord (runCalc calls (freshCalc K A)).1 ↔
        (call.run ord ((runCalc calls (freshCalc K A)).1, [])).1.hasContributor s ip ∧
          ¬ (runCalc calls (freshCalc K A)).1.hasContributor s ip) ∧
      (IPEvent.removed s ip ∈ call.events ord (runCalc calls (freshCalc K A)).1 ↔
        (runCalc calls (freshCalc K A)).1.hasContributor s ip ∧
          ¬ (call.run ord ((runCalc calls (freshCalc K A)).1, [])).1.hasContributor s ip) := by
  have hr : (runCalc calls (freshCalc K A)).1.Reachable := ⟨calls, rfl⟩
  have hinv := CalcReachable_inv hr
  obtain ⟨hA, hR⟩ := CalcReachable_callbacks hr
  have hn : IPsNodup (runCalc calls (freshCalc K A)).1 := by
    apply IPsNodup_runCalc calls _ hcalls
    intro e
    simp [freshCalc, NewIpsetCalculator, IpsetCalculator.ipsOf]
  cases call with
  | matchStarted key s => exact exact_MatchStarted _ hinv hA hR key s
  | matchStopped key s =>
    exact exact_MatchStopped _ hinv hn hA hR key s
      (by simpa [CalcCall.wellFormed] using hcall)
  | updateEndpointIPs key ips => exact exact_UpdateEndpointIPs _ hinv hn hA hR ord key ips
  | deleteEndpoint key => exact exact_UpdateEndpointIPs _ hinv hn hA hR ord key []

end ExactIPEventsCalls

/-- C17, on the migration scenario followed by `MatchStopped(1, "blue")`: the
calls of the scenario and the further call are well formed, and the callbacks
of the call are exact (10.0.0.5 keeps endpoint 2 as contributor and emits
nothing, 10.0.0.6 loses its only contributor). -/
theorem exact_ip_events_witness :
    calcWellFormed migrationCalls (freshCalc Nat IPv4) = true ∧
    (CalcCall.matchStopped 1 "blue" : CalcCall Nat IPv4).wellFormed
      (runCalc migrationCalls (freshCalc Nat IPv4)).1 = true ∧
    ((CalcCall.matchStopped 1 "blue" : CalcCall Nat IPv4).events (RangeOrder.insertion Nat)
        (runCalc migrationCalls (freshCalc Nat IPv4)).1).Nodup ∧
    ∀ s ip,
      (IPEvent.added s ip ∈ (CalcCall.matchStopped 1 "blue" : CalcCall Nat IPv4).events
          (RangeOrder.insertion Nat) (runCalc migrationCalls (freshCalc Nat IPv4)).1 ↔
        ((CalcCall.matchStopped 1 "blue" : CalcCall Nat IPv4).run (RangeOrder.insertion Nat)
            ((runCalc migrationCalls (freshCalc Nat IPv4)).1, [])).1.hasContributor s ip ∧
          ¬ (runCalc migrationCalls (freshCalc Nat IPv4)).1.hasContributor s ip) ∧
      (IPEvent.removed s ip ∈ (CalcCall.matchStopped 1 "blue" : CalcCall Nat IPv4).events
          (RangeOrder.insertion Nat) (runCalc migrationCalls (freshCalc Nat IPv4)).1 ↔
        (runCalc migrationCalls (freshCalc Nat IPv4)).1.hasContributor s ip ∧
          ¬ ((CalcCall.matchStopped 1 "blue" : CalcCall Nat IPv4).run (RangeOrder.insertion Nat)
            ((runCalc migrationCalls (freshCalc Nat IPv4)).1, [])).1.hasContributor s ip) :=
  ⟨by decide, by decide, exact_ip_events migrationCalls (by decide) (RangeOrder.insertion Nat)
    (CalcCall.matchStopped 1 "blue") (by decide)⟩

end Calico
